import Mathlib

/-!
goquote: loan quotes from a pool of lenders.

A shallow embedding of `lender/lender.go`, `lender/csv.go` and `quote/quote.go`.

* Go `int` values are integers; the one place where the program does integer
  arithmetic (`balance -= amount`) wraps to 64 bits (`wrapInt64`).
* The float64 operations that the program uses (the conversion from `int`, `+`,
  `-`, `*`, `/`, `<`, `!=` and `math.Pow`) are the record `FloatOps F`; a
  statement made for every `FloatOps F` holds whatever these operations do.
* `float64Ops pow` is the float64 of the machine (IEEE 754 binary64): the finite
  values, the two infinities and NaN, each operation rounded to the nearest
  value with ties to even, overflow to an infinity and gradual underflow;
  a comparison with NaN is false for `<` and true for `!=`.  Each operation is
  rounded on its own, as on amd64; the fusing of `x*y + z` into one rounding,
  which the language allows a compiler, is not modelled.  The library
  function `math.Pow` is the argument `pow`; `mathPow` stands in for it in the
  examples.  The sign of a zero is not kept: `<` and `!=` do not see it, and the
  divisors of the program (`12.0`, `float64(RequestedAmount)` and a difference
  `Pow(..) - 1`) are never a negative zero.
* `exactOps` reads the same formulas in the rationals, with no rounding; it
  serves the statements that are made in exact arithmetic.
* `sort.Sort` belongs to the Go standard library.  In `calculate` it is the
  parameter `sortFn`, the content of the slice after the call, and
  `SortContract` is what the library documents of it.  `insertionSort` is the
  insertion sort of the library, written with `Len`, `Less` and `Swap`: the
  procedure that `sort.Sort` runs on a short slice (of up to 12 elements in the
  library since Go 1.19, of up to 6 elements in every version); a longer slice
  is first partitioned by the library's quicksort, which is not modelled.
* `fmt.Sprintf("%.1f")` / `("%.2f")` of a float64 and `strconv.ParseFloat`,
  `strconv.Atoi` belong to the library too and are parameters (`fmtF`,
  `parseFloat`, `atoi`); `formatFixed`, `sampleParseFloat` and `sampleAtoi` are
  instances on the rationals.  `ImportCSV` is modelled from the point where the
  csv reader has returned the records.
* A Go `error` is its message; `nil` is `none`.
* A method with a pointer receiver takes the receiver and returns what it
  leaves in it; a slice is passed by reference, so `NewQuote` also returns the
  content of the caller's slice after the call.
-/

namespace GoQuote

/-! ## Numbers -/

/-- Two's-complement wrap-around of a Go `int` (64 bits). -/
def wrapInt64 (x : Int) : Int := (x + 2 ^ 63) % 2 ^ 64 - 2 ^ 63

/-- The float64 operations used by the program. -/
structure FloatOps (F : Type) where
  /-- The conversion `float64(n)`; the literals `0.0`, `1.0`, `12.0` are `ofInt 0`, `ofInt 1`,
  `ofInt 12`. -/
  ofInt : Int → F
  /-- Float addition `x + y`. -/
  add : F → F → F
  /-- Float subtraction `x - y`. -/
  sub : F → F → F
  /-- Float multiplication `x * y`. -/
  mul : F → F → F
  /-- Float division `x / y`. -/
  div : F → F → F
  /-- The library function `math.Pow(x, y)`. -/
  pow : F → F → F
  /-- The comparison `x < y`. -/
  lt : F → F → Bool
  /-- The comparison `x != y`. -/
  ne : F → F → Bool

/-! ## float64 -/

/-- A float64 value: a finite number, an infinity, or NaN.  A finite number is held as the
rational that it stands for, and zero is held without its sign. -/
inductive Float64 where
  | fin (value : ℚ)
  | posInf
  | negInf
  | nan
deriving DecidableEq

/-- The natural number nearest to a non-negative rational, a tie going to the even one. -/
def roundHalfEven (x : ℚ) : Nat :=
  let f := x.floor.toNat
  let r := x - f
  if r < 1 / 2 then f else if r > 1 / 2 then f + 1 else if f % 2 = 0 then f else f + 1

/-- The power of two with an integer exponent. -/
def twoPow (e : Int) : ℚ :=
  if 0 ≤ e then ((2 ^ e.toNat : Nat) : ℚ) else 1 / ((2 ^ (-e).toNat : Nat) : ℚ)

/-- The number of halvings that bring `n` under 2 (the position of its leading bit), by
recursion on a bound. -/
def log2Fuel : Nat → Nat → Nat
  | 0, _ => 0
  | fuel + 1, n => if n < 2 then 0 else log2Fuel fuel (n / 2) + 1

/-- The binary exponent of a positive rational: the `e` with `2^e <= q < 2^(e+1)`. -/
def floorLog2 (q : ℚ) : Int :=
  let e0 : Int := (log2Fuel q.num.natAbs q.num.natAbs : Int) - (log2Fuel q.den q.den : Int)
  if twoPow e0 ≤ q then e0 else e0 - 1

/-- The float64 nearest to a rational, a tie going to the even significand: 53 significant bits
for a binary exponent from -1022 up, the spacing `2^-1074` below that, and an infinity when the
rounded value reaches `2^1024`.  It is the value of a decimal literal, and what
`strconv.ParseFloat` returns for a decimal text. -/
def Float64.ofRat (q : ℚ) : Float64 :=
  if q = 0 then Float64.fin 0
  else
    let e := max (floorLog2 |q|) (-1022)
    let ulp := twoPow (e - 52)
    let r := (roundHalfEven (|q| / ulp) : ℚ) * ulp
    if twoPow 1024 ≤ r then (if q < 0 then Float64.negInf else Float64.posInf)
    else Float64.fin (if q < 0 then -r else r)

/-- The negation `-x`. -/
def Float64.neg : Float64 → Float64
  | Float64.fin a => Float64.fin (-a)
  | Float64.posInf => Float64.negInf
  | Float64.negInf => Float64.posInf
  | Float64.nan => Float64.nan

/-- The sum `x + y`: NaN for a NaN operand and for the sum of the two infinities. -/
def Float64.add : Float64 → Float64 → Float64
  | Float64.nan, _ => Float64.nan
  | _, Float64.nan => Float64.nan
  | Float64.fin a, Float64.fin b => Float64.ofRat (a + b)
  | Float64.posInf, Float64.negInf => Float64.nan
  | Float64.negInf, Float64.posInf => Float64.nan
  | Float64.posInf, _ => Float64.posInf
  | _, Float64.posInf => Float64.posInf
  | Float64.negInf, _ => Float64.negInf
  | _, Float64.negInf => Float64.negInf

/-- The difference `x - y`. -/
def Float64.sub (x y : Float64) : Float64 := Float64.add x (Float64.neg y)

/-- The sign of a value: 1, 0 or -1 (0 for NaN). -/
def Float64.sign : Float64 → Int
  | Float64.fin a => if 0 < a then 1 else if a < 0 then -1 else 0
  | Float64.posInf => 1
  | Float64.negInf => -1
  | Float64.nan => 0

/-- The product `x * y`: NaN for a NaN operand and for zero times an infinity. -/
def Float64.mul : Float64 → Float64 → Float64
  | Float64.nan, _ => Float64.nan
  | _, Float64.nan => Float64.nan
  | Float64.fin a, Float64.fin b => Float64.ofRat (a * b)
  | x, y =>
    if x.sign * y.sign = 0 then Float64.nan
    else if 0 < x.sign * y.sign then Float64.posInf
    else Float64.negInf

/-- The quotient `x / y`: NaN for a NaN operand, for `0 / 0` and for the quotient of two
infinities; a finite value that is not zero divided by zero is an infinity. -/
def Float64.div : Float64 → Float64 → Float64
  | Float64.nan, _ => Float64.nan
  | _, Float64.nan => Float64.nan
  | Float64.fin a, Float64.fin b =>
    if b = 0 then
      (if a = 0 then Float64.nan else if 0 < a then Float64.posInf else Float64.negInf)
    else Float64.ofRat (a / b)
  | Float64.fin _, _ => Float64.fin 0
  | Float64.posInf, Float64.fin b => if b < 0 then Float64.negInf else Float64.posInf
  | Float64.negInf, Float64.fin b => if b < 0 then Float64.posInf else Float64.negInf
  | _, _ => Float64.nan

/-- The comparison `x < y`, false when an operand is NaN. -/
def Float64.lt : Float64 → Float64 → Bool
  | Float64.nan, _ => false
  | _, Float64.nan => false
  | Float64.fin a, Float64.fin b => decide (a < b)
  | Float64.negInf, Float64.negInf => false
  | Float64.negInf, _ => true
  | _, Float64.negInf => false
  | Float64.posInf, _ => false
  | _, Float64.posInf => true

/-- The comparison `x != y`, true when an operand is NaN. -/
def Float64.ne : Float64 → Float64 → Bool
  | Float64.nan, _ => true
  | _, Float64.nan => true
  | x, y => decide (x ≠ y)

/-- A stand-in for `math.Pow(x, y)` on the exponents that `calculate` passes, the float64 of an
`int`: the special cases of the library in its order (`Pow(x, 0) = 1`, `Pow(1, y) = 1`,
`Pow(x, 1) = x`, NaN for a NaN argument, the cases of a zero or infinite `x`), and elsewhere
the power rounded to the nearest float64.  The library does not promise the nearest value for
an exponent other than 0 and 1; another exponent (not an integer, or infinite) gives NaN here. -/
def mathPow (x y : Float64) : Float64 :=
  if y = Float64.fin 0 then Float64.fin 1
  else if x = Float64.fin 1 then Float64.fin 1
  else if y = Float64.fin 1 then x
  else
    match x, y with
    | Float64.nan, _ => Float64.nan
    | _, Float64.nan => Float64.nan
    | Float64.fin a, Float64.fin n =>
      if n.den ≠ 1 then Float64.nan
      else if a = 0 then (if n < 0 then Float64.posInf else Float64.fin 0)
      else Float64.ofRat (a ^ n.num)
    | Float64.posInf, Float64.fin n =>
      if n.den ≠ 1 then Float64.nan
      else if 0 < n then Float64.posInf else Float64.fin 0
    | Float64.negInf, Float64.fin n =>
      if n.den ≠ 1 then Float64.nan
      else if 0 < n then (if n.num % 2 = 0 then Float64.posInf else Float64.negInf)
      else Float64.fin 0
    | _, _ => Float64.nan

/-- The float64 operations of the machine, with the library function `math.Pow` as `pow`. -/
def float64Ops (pow : Float64 → Float64 → Float64) : FloatOps Float64 where
  ofInt := fun n => Float64.ofRat (n : ℚ)
  add := Float64.add
  sub := Float64.sub
  mul := Float64.mul
  div := Float64.div
  pow := pow
  lt := Float64.lt
  ne := Float64.ne

/-- The same operations in the rationals, with no rounding: what the formulas of the program say
in exact arithmetic.  `math.Pow` is the power at an integral exponent.  A division by zero has
no value in exact arithmetic; the statements that use `exactOps` keep the divisors away from
zero. -/
def exactOps : FloatOps ℚ where
  ofInt := fun n => (n : ℚ)
  add := fun x y => x + y
  sub := fun x y => x - y
  mul := fun x y => x * y
  div := fun x y => x / y
  pow := fun x y => x ^ y.floor
  lt := fun x y => decide (x < y)
  ne := fun x y => decide (x ≠ y)

/-- The comparisons `<` and `!=` of `ops` are those of a linear order on the values that
satisfy `ok` (for float64: on the values that are not NaN). -/
structure OrderedOn {F : Type} (ops : FloatOps F) (ok : F → Prop) : Prop where
  /-- On such values `!=` is inequality. -/
  ne_iff : ∀ x y, ok x → ok y → (ops.ne x y = true ↔ x ≠ y)
  /-- No value is below itself. -/
  lt_irrefl : ∀ x, ok x → ops.lt x x = false
  /-- The comparison `<` is transitive. -/
  lt_trans : ∀ x y z, ok x → ok y → ok z → ops.lt x y = true → ops.lt y z = true →
    ops.lt x z = true
  /-- Of two different values one is below the other. -/
  lt_total : ∀ x y, ok x → ok y → x ≠ y → ops.lt x y = true ∨ ops.lt y x = true

/-! ## lender/lender.go -/

/-- Lender is a structure representing an individual lender. -/
structure Lender (F : Type) where
  Name : String
  Rate : F
  Available : Int
deriving DecidableEq

/-- Borrow: how much a lender can lend of `amount`.  Returns the amount and the
receiver as the call leaves it. -/
def Lender.Borrow {F : Type} (l : Lender F) (amount : Int) : Int × Lender F :=
  if amount > l.Available then
    (l.Available, l)
  else
    (amount, l)

/-- Lenders represents a slice of lenders. -/
abbrev Lenders (F : Type) := List (Lender F)

/-- Len returns the size of the lender slice. -/
def Lenders.Len {F : Type} (slice : Lenders F) : Nat := slice.length

/-- The body of `Less` on the two lenders `slice[i]` and `slice[j]`. -/
def Lender.less {F : Type} (ops : FloatOps F) (a b : Lender F) : Bool :=
  if ops.ne a.Rate b.Rate then
    ops.lt a.Rate b.Rate
  else
    decide (a.Available > b.Available)

/-- Less compares the lender at index i to index j; an index out of range has no lender. -/
def Lenders.Less {F : Type} (ops : FloatOps F) (slice : Lenders F) (i j : Nat) : Bool :=
  match slice[i]?, slice[j]? with
  | some a, some b => Lender.less ops a b
  | _, _ => false

/-- Swap switches the lender at index i with the lender at index j. -/
def Lenders.Swap {F : Type} (slice : Lenders F) (i j : Nat) : Lenders F :=
  match slice[i]?, slice[j]? with
  | some a, some b => (slice.set i b).set j a
  | _, _ => slice

/-! ## The library sort -/

/-- The inner loop of the library's `insertionSort`,
`for j := i; j > 0 && data.Less(j, j-1); j-- { data.Swap(j, j-1) }`, from a value of `j`. -/
def insertionInner {F : Type} (ops : FloatOps F) : Nat → Lenders F → Lenders F
  | 0, data => data
  | j + 1, data =>
    if Lenders.Less ops data (j + 1) j then
      insertionInner ops j (Lenders.Swap data (j + 1) j)
    else data

/-- The outer loop of the library's `insertionSort`, `for i := 1; i < n; i++`, from a value
of `i` with `count` iterations to go. -/
def insertionOuter {F : Type} (ops : FloatOps F) : Nat → Nat → Lenders F → Lenders F
  | 0, _, data => data
  | count + 1, i, data => insertionOuter ops count (i + 1) (insertionInner ops i data)

/-- The library's `insertionSort(data, 0, data.Len())` on a lender slice, through `Len`, `Less`
and `Swap`: what `sort.Sort` does to a short slice. -/
def insertionSort {F : Type} (ops : FloatOps F) (data : Lenders F) : Lenders F :=
  insertionOuter ops (Lenders.Len data - 1) 1 data

/-- What `sort.Interface` asks of `Less` on a slice: it describes a transitive ordering (if
`Less(i, j)` and `Less(j, k)` then `Less(i, k)`, and if neither `Less(i, j)` nor `Less(j, k)`
then not `Less(i, k)`), in which no element sorts before itself. -/
def Lenders.Ordering {F : Type} (ops : FloatOps F) (data : Lenders F) : Prop :=
  (∀ a ∈ data, Lender.less ops a a = false) ∧
  (∀ a ∈ data, ∀ b ∈ data, ∀ c ∈ data,
    Lender.less ops a b = true → Lender.less ops b c = true → Lender.less ops a c = true) ∧
  (∀ a ∈ data, ∀ b ∈ data, ∀ c ∈ data,
    Lender.less ops a b = false → Lender.less ops b c = false → Lender.less ops a c = false)

/-- The contract of the library procedure `sort.Sort` on a lender slice, where `sortFn data`
is the content of the slice after `sort.Sort(data)`: the procedure only swaps elements, and,
when `Less` describes a transitive ordering on the slice, it leaves the slice in ascending
order as determined by `Less`. -/
structure SortContract {F : Type} (ops : FloatOps F) (sortFn : Lenders F → Lenders F) :
    Prop where
  /-- The slice holds the same lenders afterwards. -/
  perm : ∀ data, (sortFn data).Perm data
  /-- No lender is `Less` than one at a smaller index. -/
  sorted : ∀ data, Lenders.Ordering ops data → ∀ i j, i < j → j < Lenders.Len (sortFn data) →
    Lenders.Less ops (sortFn data) j i = false

/-- The inner loop of `insertionSort` as it acts on the part of the slice before the element
`x`, that part being listed from its last lender to its first. -/
def insertBefore {F : Type} (ops : FloatOps F) (x : Lender F) : Lenders F → Lenders F
  | [] => [x]
  | y :: rest => if Lender.less ops x y then y :: insertBefore ops x rest else x :: y :: rest

/-! ## quote/quote.go -/

/-- MinAmount is the minimum amount allowed for a quote. -/
def MinAmount : Int := 1000

/-- MaxAmount is the maximum amount allowed for a quote. -/
def MaxAmount : Int := 15000

/-- The number of periods that interest is compounded to in a year, `12.0`. -/
def compoundFrequency {F : Type} (ops : FloatOps F) : F := ops.ofInt 12

/-- The structure for a quote response. -/
structure quote (F : Type) where
  lenders : Lenders F
  loanPeriodMonths : Int
  RequestedAmount : Int
  Rate : F
  MonthlyRepayment : F
  TotalRepayment : F

/-- The message of the error for an amount under `MinAmount`. -/
def errTooLow (amount : Int) : String :=
  "Loan amount of £" ++ toString amount ++ " is too low. Minimum loan amount is £"
    ++ toString MinAmount

/-- The message of the error for an amount over `MaxAmount`. -/
def errTooHigh (amount : Int) : String :=
  "Loan amount of £" ++ toString amount ++ " is too high. Maximum loan amount is £"
    ++ toString MaxAmount

/-- The message of the error for an amount that is not a multiple of 100. -/
def errNotMultiple : String := "Loan amount must be a multiple of £100"

/-- The message of the error of `calculate`. -/
def errInsufficient : String := "It is not possible to provide a quote at this time."

/-- The method validate: the error found, or `none`.  It only reads the receiver.
Go's `%` truncates towards zero. -/
def quote.validate {F : Type} (q : quote F) : Option String :=
  if q.RequestedAmount < MinAmount then
    some (errTooLow q.RequestedAmount)
  else if q.RequestedAmount > MaxAmount then
    some (errTooHigh q.RequestedAmount)
  else if Int.tmod q.RequestedAmount 100 ≠ 0 then
    some errNotMultiple
  else
    none

/-- The function calculateMonthlyRate, the PMT formula. -/
def calculateMonthlyRate {F : Type} (ops : FloatOps F) (annualRate loanPeriod amount : F) : F :=
  let compoundRate := ops.div annualRate (compoundFrequency ops)
  ops.div
    (ops.mul amount
      (ops.mul compoundRate (ops.pow (ops.add (ops.ofInt 1) compoundRate) loanPeriod)))
    (ops.sub (ops.pow (ops.add (ops.ofInt 1) compoundRate) loanPeriod) (ops.ofInt 1))

/-- The variables of the loop of `calculate`; `drawn` records the value of the
local `amount` at each iteration, first iteration first. -/
structure LoopState (F : Type) where
  balance : Int
  blendedRate : F
  MonthlyRepayment : F
  drawn : List Int

/-- The loop `for _, l := range q.lenders` of `calculate`, with its `break`. -/
def calculateLoop {F : Type} (ops : FloatOps F) (fPeriod : F) :
    Lenders F → LoopState F → LoopState F
  | [], s => s
  | l :: rest, s =>
    let amount := (l.Borrow s.balance).1
    let fAmount := ops.ofInt amount
    let s1 : LoopState F :=
      { balance := wrapInt64 (s.balance - amount)
        blendedRate := ops.add s.blendedRate (ops.mul fAmount l.Rate)
        MonthlyRepayment :=
          ops.add s.MonthlyRepayment (calculateMonthlyRate ops l.Rate fPeriod fAmount)
        drawn := s.drawn ++ [amount] }
    if s1.balance = 0 then s1 else calculateLoop ops fPeriod rest s1

/-- The state of the loop of `calculate` when it is entered. -/
def quote.loopInit {F : Type} (ops : FloatOps F) (q : quote F) : LoopState F :=
  { balance := q.RequestedAmount
    blendedRate := ops.ofInt 0
    MonthlyRepayment := q.MonthlyRepayment
    drawn := [] }

/-- The method calculate: the receiver as the call leaves it, and the error or `none`. -/
def quote.calculate {F : Type} (ops : FloatOps F) (sortFn : Lenders F → Lenders F)
    (q : quote F) : quote F × Option String :=
  let q1 : quote F := { q with lenders := sortFn q.lenders }
  let fPeriod := ops.ofInt q1.loanPeriodMonths
  let s := calculateLoop ops fPeriod q1.lenders (q1.loopInit ops)
  let q2 : quote F := { q1 with MonthlyRepayment := s.MonthlyRepayment }
  if s.balance > 0 then
    (q2, some errInsufficient)
  else
    ({ q2 with
        TotalRepayment := ops.mul fPeriod q2.MonthlyRepayment
        Rate := ops.div s.blendedRate (ops.ofInt q2.RequestedAmount) }, none)

/-- NewQuote: the quote or the error, and the content of the caller's lender
slice after the call (the quote shares the slice it is given). -/
def NewQuote {F : Type} (ops : FloatOps F) (sortFn : Lenders F → Lenders F)
    (amount loanPeriod : Int) (lenders : Lenders F) : Except String (quote F) × Lenders F :=
  let q : quote F :=
    { RequestedAmount := amount
      lenders := lenders
      loanPeriodMonths := loanPeriod
      Rate := ops.ofInt 0
      MonthlyRepayment := ops.ofInt 0
      TotalRepayment := ops.ofInt 0 }
  match q.validate with
  | some err => (Except.error err, q.lenders)
  | none =>
    match q.calculate ops sortFn with
    | (q1, some err) => (Except.error err, q1.lenders)
    | (q1, none) => (Except.ok q1, q1.lenders)

/-! ## The amounts drawn -/

/-- The values of the local `amount` over the iterations of the loop in the call
`NewQuote(amount, loanPeriod, lenders)`, when the call reaches `calculate`. -/
def NewQuote.drawn {F : Type} (ops : FloatOps F) (sortFn : Lenders F → Lenders F)
    (amount loanPeriod : Int) (lenders : Lenders F) : List Int :=
  (calculateLoop ops (ops.ofInt loanPeriod) (sortFn lenders)
    { balance := amount, blendedRate := ops.ofInt 0, MonthlyRepayment := ops.ofInt 0,
      drawn := [] }).drawn

/-! ## The allocation as the specification describes it -/

/-- Step 3 of the algorithm of the specification: going through the ranked lenders with the
remaining balance, each lender consulted is paired with `drawn = min(remaining, available)`,
the remaining balance (a Go `int`) goes down by `drawn`, and the iteration stops once it is
zero. -/
def allocation {F : Type} : Int → Lenders F → List (Lender F × Int)
  | _, [] => []
  | remaining, l :: rest =>
    let drawn := min remaining l.Available
    (l, drawn) ::
      (if wrapInt64 (remaining - drawn) = 0 then []
        else allocation (wrapInt64 (remaining - drawn)) rest)

/-- The sum of `drawn_i * rate_i` over an allocation, from `0.0`, in the order of the list. -/
def weightedRateSum {F : Type} (ops : FloatOps F) (al : List (Lender F × Int)) : F :=
  al.foldl (fun acc p => ops.add acc (ops.mul (ops.ofInt p.2) p.1.Rate)) (ops.ofInt 0)

/-- The annuity contribution of the specification:
`drawn * (m * (1 + m)^term) / ((1 + m)^term - 1)` with `m = rate / 12`. -/
def annuityContribution {F : Type} (ops : FloatOps F) (term : F) (p : Lender F × Int) : F :=
  let m := ops.div p.1.Rate (ops.ofInt 12)
  ops.div
    (ops.mul (ops.ofInt p.2) (ops.mul m (ops.pow (ops.add (ops.ofInt 1) m) term)))
    (ops.sub (ops.pow (ops.add (ops.ofInt 1) m) term) (ops.ofInt 1))

/-- The sum of the annuity contributions over an allocation, from `0.0`, in the order of the list.
-/
def contributionSum {F : Type} (ops : FloatOps F) (term : F) (al : List (Lender F × Int)) : F :=
  al.foldl (fun acc p => ops.add acc (annuityContribution ops term p)) (ops.ofInt 0)

/-! ## The ranking keys -/

/-- The two fields that `Less` compares and that the loop of `calculate` reads. -/
def Lender.key {F : Type} (l : Lender F) : F × Int := (l.Rate, l.Available)

/-- The order in which a sorted slice may hold two lenders: the second is not `Less` than the
first. -/
def Lender.notAfter {F : Type} (ops : FloatOps F) (a b : Lender F) : Prop :=
  Lender.less ops b a = false

/-- The two-key order on keys: lower rate first, then more available first. -/
def keyNotAfter {F : Type} (ops : FloatOps F) (a b : F × Int) : Prop :=
  ops.lt a.1 b.1 = true ∨ (a.1 = b.1 ∧ a.2 ≥ b.2)

/-! ## The balance of a loan -/

/-- The balance of a loan of `P` after `k` monthly payments of `p` at the monthly rate `m`:
`B_0 = P`, `B_{k+1} = B_k * (1 + m) - p`. -/
def balanceAfter (m p P : ℚ) : Nat → ℚ
  | 0 => P
  | k + 1 => balanceAfter m p P k * (1 + m) - p

/-! ## What a message contains -/

/-- The text `part` occurs in the message `msg`. -/
def occursIn (part msg : String) : Prop := part.data <:+: msg.data

instance occursInDecidable (part msg : String) : Decidable (occursIn part msg) :=
  inferInstanceAs (Decidable (part.data <:+: msg.data))

/-! ## The text of a quote -/

/-- The empty slice of `var s []string`. -/
def noLines : List String := []

/-- The method String: the four lines of a quote, joined by line breaks.  The argument
`fmtF prec x` is the library formatting `fmt.Sprintf("%.<prec>f", x)` of a float64. -/
def quote.String {F : Type} (ops : FloatOps F) (fmtF : Nat → F → String) (q : quote F) :
    String :=
  let s := noLines
  let s := s ++ ["Requested amount: £" ++ toString q.RequestedAmount]
  let s := s ++ ["Rate: " ++ fmtF 1 (ops.mul q.Rate (ops.ofInt 100)) ++ "%"]
  let s := s ++ ["Monthly repayment: £" ++ fmtF 2 q.MonthlyRepayment]
  let s := s ++ ["Total repayment: £" ++ fmtF 2 q.TotalRepayment]
  String.intercalate "\n" s

/-- The text `s` with zeros in front up to the given width. -/
def padZeros (width : Nat) (s : String) : String :=
  String.mk (List.replicate (width - s.length) '0') ++ s

/-- The formatting `%.<prec>f` of a rational: the value rounded to `prec` decimals, a tie going
to the even digit. -/
def formatFixed (prec : Nat) (x : ℚ) : String :=
  let n := roundHalfEven (|x| * 10 ^ prec)
  let body := toString (n / 10 ^ prec) ++
    (if prec = 0 then "" else "." ++ padZeros prec (toString (n % 10 ^ prec)))
  if x < 0 then "-" ++ body else body

/-! ## lender/csv.go -/

/-- The index of the Name field. -/
def csvNameIndex : Nat := 0

/-- The index of the Rate field. -/
def csvRateIndex : Nat := 1

/-- The index of the Amount field. -/
def csvAmountIndex : Nat := 2

/-- FieldParseError is the error of an import; the cause is the message of the library error. -/
structure FieldParseError where
  Cause : String
  LineNo : Int
  Field : String
deriving DecidableEq

/-- The method Error of a FieldParseError. -/
def FieldParseError.Error (l : FieldParseError) : String :=
  "Error unmarshalling " ++ l.Field ++ " field on line " ++ toString l.LineNo
    ++ ". Cause: " ++ l.Cause

/-- NewFieldParseError creates a field parse error. -/
def NewFieldParseError (lineNo : Int) (field : String) (cause : String) : FieldParseError :=
  { LineNo := lineNo, Field := field, Cause := cause }

/-- The field of a record at an index; the reader gives every record three fields. -/
def field (record : List String) (i : Nat) : String := record.getD i ""

/-- The loop of ImportCSV over the records read from the file, with the variables `lineNo`
and `lenders`; it gives the two values that ImportCSV returns.  The arguments `parseFloat` and
`atoi` are the library functions `strconv.ParseFloat(s, 64)` and `strconv.Atoi`. -/
def importLoop {F : Type} (parseFloat : String → Except String F)
    (atoi : String → Except String Int) :
    List (List String) → Int → Lenders F → Lenders F × Option FieldParseError
  | [], _, lenders => (lenders, none)
  | record :: rest, lineNo, lenders =>
    if lineNo > 1 then
      match parseFloat (field record csvRateIndex) with
      | Except.error err => ([], some (NewFieldParseError lineNo "rate" err))
      | Except.ok rate =>
        match atoi (field record csvAmountIndex) with
        | Except.error err => ([], some (NewFieldParseError lineNo "available" err))
        | Except.ok available =>
          importLoop parseFloat atoi rest (lineNo + 1)
            (lenders ++ [{ Name := field record csvNameIndex, Rate := rate,
                           Available := available }])
    else
      importLoop parseFloat atoi rest (lineNo + 1) lenders

/-- ImportCSV from the point where the file has been read into records. -/
def ImportCSV {F : Type} (parseFloat : String → Except String F)
    (atoi : String → Except String Int) (rawCSVdata : List (List String)) :
    Lenders F × Option FieldParseError :=
  importLoop parseFloat atoi rawCSVdata 1 []

/-- The lender that a record stands for, when its rate and its amount can both be parsed. -/
def lenderOfRecord {F : Type} (parseFloat : String → Except String F)
    (atoi : String → Except String Int) (record : List String) : Option (Lender F) :=
  match parseFloat (field record 1), atoi (field record 2) with
  | Except.ok rate, Except.ok available => some ⟨field record 0, rate, available⟩
  | _, _ => none

/-- A stand-in for `strconv.ParseFloat` on the texts of the test files. -/
def sampleParseFloat (s : String) : Except String ℚ :=
  if s = "0.075" then Except.ok (75 / 1000)
  else if s = "0.069" then Except.ok (69 / 1000)
  else Except.error ("strconv.ParseFloat: parsing \"" ++ s ++ "\": invalid syntax")

/-- A stand-in for `strconv.Atoi` on the texts of the test files. -/
def sampleAtoi (s : String) : Except String Int :=
  match s.toInt? with
  | some n => Except.ok n
  | none => Except.error ("strconv.Atoi: parsing \"" ++ s ++ "\": invalid syntax")

/-- The monthly payment per unit of amount in exact arithmetic, for a term `t` and an annual
rate: `m * (1 + m)^t / ((1 + m)^t - 1)` with `m = rate / 12`. -/
def annuityFactor (t rate : ℚ) : ℚ :=
  (rate / 12 * exactOps.pow (1 + rate / 12) t) / (exactOps.pow (1 + rate / 12) t - 1)

/-- What drawing the whole available of a lender costs against the rate `r`, for a lender
below that rate: `available * (rate - r)`, and nothing for a lender at or above it. -/
def gainBelow (r : ℚ) (l : Lender ℚ) : ℚ :=
  if l.Rate < r then (l.Available : ℚ) * (l.Rate - r) else 0

/-! ## Validation -/

/-- Go's truncated remainder by 100 is zero exactly on the multiples of 100. -/
theorem tmod_hundred_eq_zero_iff (a : Int) : Int.tmod a 100 = 0 ↔ (100 : Int) ∣ a :=
  ⟨fun h => Int.dvd_of_tmod_eq_zero h, fun h => Int.tmod_eq_zero_of_dvd h⟩

/-- An amount in range that is a multiple of 100 passes validate. -/
theorem validate_of_valid {F : Type} (q : quote F)
    (h : (1000 ≤ q.RequestedAmount ∧ q.RequestedAmount ≤ 15000) ∧
      (100 : Int) ∣ q.RequestedAmount) : q.validate = none := by
  unfold quote.validate MinAmount MaxAmount
  rw [if_neg (by omega), if_neg (by omega),
    if_neg (not_not.mpr ((tmod_hundred_eq_zero_iff _).mpr h.2))]

/-- An amount that passes validate is in range and a multiple of 100. -/
theorem valid_of_validate {F : Type} (q : quote F) (h : q.validate = none) :
    (1000 ≤ q.RequestedAmount ∧ q.RequestedAmount ≤ 15000) ∧
      (100 : Int) ∣ q.RequestedAmount := by
  unfold quote.validate MinAmount MaxAmount at h
  split_ifs at h with h1 h2 h3
  exact ⟨⟨by omega, by omega⟩, (tmod_hundred_eq_zero_iff _).mp (not_not.mp h3)⟩

/-- C1: for every integer amount, validate returns no error if and only if
1000 <= amount <= 15000 and the amount is an exact multiple of 100. -/
theorem validate_none_iff {F : Type} (q : quote F) :
    q.validate = none ↔
      (1000 ≤ q.RequestedAmount ∧ q.RequestedAmount ≤ 15000) ∧ 100 ∣ q.RequestedAmount := by
  unfold quote.validate MinAmount MaxAmount
  split_ifs with h1 h2 h3
  · constructor
    · intro h
      exact absurd h (by simp)
    · intro h
      omega
  · constructor
    · intro h
      exact absurd h (by simp)
    · intro h
      omega
  · constructor
    · intro h
      exact absurd h (by simp)
    · intro h
      exact absurd ((tmod_hundred_eq_zero_iff _).mpr h.2) h3
  · constructor
    · intro _
      exact ⟨⟨by omega, by omega⟩, (tmod_hundred_eq_zero_iff _).mp (not_not.mp h3)⟩
    · intro _
      rfl

/-- C1 on the amounts of the tests: 999, 15001 and 1010 are rejected, 1100 is accepted. -/
theorem validate_none_iff_witness :
    (⟨[], 36, 999, 0, 0, 0⟩ : quote ℚ).validate ≠ none ∧
    (⟨[], 36, 15001, 0, 0, 0⟩ : quote ℚ).validate ≠ none ∧
    (⟨[], 36, 1010, 0, 0, 0⟩ : quote ℚ).validate ≠ none ∧
    (⟨[], 36, 1100, 0, 0, 0⟩ : quote ℚ).validate = none :=
  ⟨fun h => absurd ((validate_none_iff _).mp h) (by decide), by decide, by decide,
    (validate_none_iff (⟨[], 36, 1100, 0, 0, 0⟩ : quote ℚ)).mpr (by decide)⟩

/-! ## The comparisons of float64 -/

/-- The comparison `!=` of float64 is symmetric. -/
theorem Float64.ne_comm (x y : Float64) : Float64.ne x y = Float64.ne y x := by
  cases x <;> cases y <;> simp [Float64.ne, eq_comm]

/-- The comparison `<` of float64 is never true both ways. -/
theorem Float64.lt_asymm (x y : Float64) (h : Float64.lt x y = true) :
    Float64.lt y x = false := by
  cases x <;> cases y <;> simp_all [Float64.lt]
  exact le_of_lt h

/-- No float64 compares `<` with NaN. -/
theorem Float64.ne_nan_of_lt (x y : Float64) (h : Float64.lt x y = true) :
    x ≠ Float64.nan ∧ y ≠ Float64.nan := by
  cases x <;> cases y <;> simp_all [Float64.lt]

/-- On the float64 values that are not NaN, `<` and `!=` are the comparisons of a linear
order. -/
theorem float64Ops_orderedOn (pow : Float64 → Float64 → Float64) :
    OrderedOn (float64Ops pow) (fun x => x ≠ Float64.nan) where
  ne_iff := by
    intro x y hx hy
    show Float64.ne x y = true ↔ x ≠ y
    cases x <;> cases y <;> simp_all [Float64.ne]
  lt_irrefl := by
    intro x _
    show Float64.lt x x = false
    cases x <;> simp [Float64.lt]
  lt_trans := by
    intro x y z _ _ _ h1 h2
    show Float64.lt x z = true
    change Float64.lt x y = true at h1
    change Float64.lt y z = true at h2
    cases x <;> cases y <;> cases z <;> simp_all [Float64.lt]
    exact lt_trans h1 h2
  lt_total := by
    intro x y hx hy hxy
    show Float64.lt x y = true ∨ Float64.lt y x = true
    cases x <;> cases y <;> simp_all [Float64.lt]

/-- In the rationals `<` and `!=` are the comparisons of a linear order. -/
theorem exactOps_orderedOn : OrderedOn exactOps (fun _ => True) where
  ne_iff := by
    intro x y _ _
    simp [exactOps]
  lt_irrefl := by
    intro x _
    simp [exactOps]
  lt_trans := by
    intro x y z _ _ _ h1 h2
    simp only [exactOps, decide_eq_true_eq] at h1 h2 ⊢
    exact lt_trans h1 h2
  lt_total := by
    intro x y _ _ hxy
    simp only [exactOps, decide_eq_true_eq]
    exact lt_or_gt_of_ne hxy

/-! ## The order of `Less` -/

/-- With comparisons of a linear order, `<` is never true both ways. -/
theorem OrderedOn.not_lt_of_lt {F : Type} {ops : FloatOps F} {ok : F → Prop}
    (ho : OrderedOn ops ok) (x y : F) (hx : ok x) (hy : ok y) (h : ops.lt x y = true) :
    ops.lt y x = false := by
  by_contra hc
  have h1 : ops.lt y x = true := by simpa using hc
  have h2 := ho.lt_trans x y x hx hy hx h h1
  rw [ho.lt_irrefl x hx] at h2
  exact absurd h2 (by simp)

/-- The lender `b` is not `Less` than `a` exactly when `a` has the lower rate, or the same rate
and at least as much available. -/
theorem Lender.less_eq_false_iff {F : Type} {ops : FloatOps F} {ok : F → Prop}
    (ho : OrderedOn ops ok) (a b : Lender F) (ha : ok a.Rate) (hb : ok b.Rate) :
    Lender.less ops b a = false ↔
      ops.lt a.Rate b.Rate = true ∨ (a.Rate = b.Rate ∧ a.Available ≥ b.Available) := by
  unfold Lender.less
  by_cases h : b.Rate = a.Rate
  · have hne : ops.ne b.Rate a.Rate = false := by
      have := (ho.ne_iff b.Rate a.Rate hb ha).not.mpr (not_not.mpr h)
      simpa using this
    have hlt : ops.lt a.Rate b.Rate = false := by
      rw [h]
      exact ho.lt_irrefl a.Rate ha
    rw [hne, hlt]
    simp [h]
  · have hne : ops.ne b.Rate a.Rate = true := (ho.ne_iff b.Rate a.Rate hb ha).mpr h
    simp only [hne, if_true]
    constructor
    · intro hf
      rcases ho.lt_total a.Rate b.Rate ha hb (fun e => h e.symm) with h1 | h1
      · exact Or.inl h1
      · rw [hf] at h1
        exact absurd h1 (by simp)
    · rintro (hlt | ⟨e, _⟩)
      · exact ho.not_lt_of_lt a.Rate b.Rate ha hb hlt
      · exact absurd e.symm h

/-- The order `notAfter` of two lenders is the two-key order of their keys. -/
theorem Lender.notAfter_iff_key {F : Type} {ops : FloatOps F} {ok : F → Prop}
    (ho : OrderedOn ops ok) (a b : Lender F) (ha : ok a.Rate) (hb : ok b.Rate) :
    Lender.notAfter ops a b ↔ keyNotAfter ops a.key b.key :=
  Lender.less_eq_false_iff ho a b ha hb

/-- Of two lenders, one is not `Less` than the other. -/
theorem Lender.notAfter_total {F : Type} {ops : FloatOps F} {ok : F → Prop}
    (ho : OrderedOn ops ok) (a b : Lender F) (ha : ok a.Rate) (hb : ok b.Rate) :
    Lender.notAfter ops a b ∨ Lender.notAfter ops b a := by
  unfold Lender.notAfter
  rw [Lender.less_eq_false_iff ho a b ha hb, Lender.less_eq_false_iff ho b a hb ha]
  by_cases h : a.Rate = b.Rate
  · rcases le_total a.Available b.Available with h1 | h1
    · exact Or.inr (Or.inr ⟨h.symm, h1⟩)
    · exact Or.inl (Or.inr ⟨h, h1⟩)
  · rcases ho.lt_total a.Rate b.Rate ha hb h with h1 | h1
    · exact Or.inl (Or.inl h1)
    · exact Or.inr (Or.inl h1)

/-- The order of a sorted slice is transitive. -/
theorem Lender.notAfter_trans {F : Type} {ops : FloatOps F} {ok : F → Prop}
    (ho : OrderedOn ops ok) (a b c : Lender F) (ha : ok a.Rate) (hb : ok b.Rate)
    (hc : ok c.Rate) (hab : Lender.notAfter ops a b) (hbc : Lender.notAfter ops b c) :
    Lender.notAfter ops a c := by
  unfold Lender.notAfter at *
  rw [Lender.less_eq_false_iff ho a b ha hb] at hab
  rw [Lender.less_eq_false_iff ho b c hb hc] at hbc
  rw [Lender.less_eq_false_iff ho a c ha hc]
  rcases hab with h1 | ⟨h1, h2⟩
  · rcases hbc with h3 | ⟨h3, _⟩
    · exact Or.inl (ho.lt_trans _ _ _ ha hb hc h1 h3)
    · exact Or.inl (h3 ▸ h1)
  · rcases hbc with h3 | ⟨h3, h4⟩
    · exact Or.inl (h1 ▸ h3)
    · exact Or.inr ⟨h1.trans h3, le_trans h4 h2⟩

/-- On a slice whose rates are compared as in a linear order, `Less` describes a transitive
ordering, as `sort.Interface` asks. -/
theorem Lenders.ordering_of_orderedOn {F : Type} {ops : FloatOps F} {ok : F → Prop}
    (ho : OrderedOn ops ok) (data : Lenders F) (hok : ∀ l ∈ data, ok l.Rate) :
    Lenders.Ordering ops data := by
  refine ⟨?_, ?_, ?_⟩
  · intro a ha
    exact (Lender.less_eq_false_iff ho a a (hok a ha) (hok a ha)).mpr (Or.inr ⟨rfl, le_refl _⟩)
  · intro a ha b hb c hc hab hbc
    by_contra hac
    have hca : Lender.notAfter ops c a := by
      unfold Lender.notAfter
      simpa using hac
    have hab1 : Lender.notAfter ops a b := by
      rcases Lender.notAfter_total ho a b (hok a ha) (hok b hb) with h | h
      · exact h
      · unfold Lender.notAfter at h
        rw [hab] at h
        exact absurd h (by simp)
    have hcb := Lender.notAfter_trans ho c a b (hok c hc) (hok a ha) (hok b hb) hca hab1
    unfold Lender.notAfter at hcb
    rw [hbc] at hcb
    exact absurd hcb (by simp)
  · intro a ha b hb c hc hab hbc
    exact Lender.notAfter_trans ho c b a (hok c hc) (hok b hb) (hok a ha) hbc hab

/-! ## The insertion sort of the library -/

/-- On indices in range `Less` is `Lender.less` of the two elements. -/
theorem Lenders.Less_eq {F : Type} (ops : FloatOps F) (slice : Lenders F) (i j : Nat)
    (hi : i < slice.length) (hj : j < slice.length) :
    Lenders.Less ops slice i j = Lender.less ops slice[i] slice[j] := by
  unfold Lenders.Less
  rw [List.getElem?_eq_getElem hi, List.getElem?_eq_getElem hj]

/-- The result of `Less` on an element and the one before it. -/
theorem Lenders.Less_adjacent {F : Type} (ops : FloatOps F) (p s : Lenders F)
    (y x : Lender F) :
    Lenders.Less ops (p ++ y :: x :: s) (p.length + 1) p.length = Lender.less ops x y := by
  unfold Lenders.Less
  have h1 : (p ++ y :: x :: s)[p.length + 1]? = some x := by
    rw [List.getElem?_append_right (by omega)]
    simp
  have h0 : (p ++ y :: x :: s)[p.length]? = some y := by
    rw [List.getElem?_append_right (le_refl _)]
    simp
  rw [h1, h0]

/-- The method `Swap` on an element and the one before it exchanges the two. -/
theorem Lenders.Swap_adjacent {F : Type} (p s : Lenders F) (y x : Lender F) :
    Lenders.Swap (p ++ y :: x :: s) (p.length + 1) p.length = p ++ x :: y :: s := by
  unfold Lenders.Swap
  have h1 : (p ++ y :: x :: s)[p.length + 1]? = some x := by
    rw [List.getElem?_append_right (by omega)]
    simp
  have h0 : (p ++ y :: x :: s)[p.length]? = some y := by
    rw [List.getElem?_append_right (le_refl _)]
    simp
  rw [h1, h0]
  simp

/-- The insertion adds one lender. -/
theorem insertBefore_length {F : Type} (ops : FloatOps F) (x : Lender F) (rp : Lenders F) :
    (insertBefore ops x rp).length = rp.length + 1 := by
  induction rp with
  | nil => simp [insertBefore]
  | cons y t ih =>
    simp only [insertBefore]
    split_ifs
    · simp [ih]
    · simp

/-- The insertion holds the lender inserted and the lenders that were there. -/
theorem insertBefore_perm {F : Type} (ops : FloatOps F) (x : Lender F) (rp : Lenders F) :
    (insertBefore ops x rp).Perm (x :: rp) := by
  induction rp with
  | nil => simp [insertBefore]
  | cons y t ih =>
    simp only [insertBefore]
    split_ifs
    · exact (List.Perm.cons y ih).trans (List.Perm.swap x y t)
    · exact List.Perm.refl _

/-- The inner loop of `insertionSort` at the element `x` of index `i`, on the slice whose first
`i` lenders are `rp` read backwards. -/
theorem insertionInner_eq {F : Type} (ops : FloatOps F) (rp : Lenders F) :
    ∀ (s : Lenders F) (x : Lender F),
      insertionInner ops rp.length (rp.reverse ++ x :: s)
        = (insertBefore ops x rp).reverse ++ s := by
  induction rp with
  | nil =>
    intro s x
    simp [insertionInner, insertBefore]
  | cons y t ih =>
    intro s x
    have hd : (y :: t).reverse ++ x :: s = t.reverse ++ y :: x :: s := by simp
    have hl : (y :: t).length = t.reverse.length + 1 := by simp
    rw [hd, hl]
    simp only [insertionInner, Lenders.Less_adjacent, Lenders.Swap_adjacent, insertBefore]
    split_ifs with h
    · have h1 := ih (y :: s) x
      rw [List.length_reverse, h1]
      simp
    · simp

/-- The outer loop of `insertionSort` from the index `i`, on the slice whose first `i` lenders
are `rp` read backwards: it inserts the remaining lenders one after the other. -/
theorem insertionOuter_eq {F : Type} (ops : FloatOps F) (s : Lenders F) :
    ∀ rp : Lenders F,
      insertionOuter ops s.length rp.length (rp.reverse ++ s)
        = (s.foldl (fun acc x => insertBefore ops x acc) rp).reverse := by
  induction s with
  | nil =>
    intro rp
    simp [insertionOuter]
  | cons x s ih =>
    intro rp
    simp only [List.length_cons, insertionOuter, List.foldl_cons]
    rw [insertionInner_eq]
    have h1 := ih (insertBefore ops x rp)
    rw [insertBefore_length] at h1
    exact h1

/-- The insertion sort inserts the lenders of the slice one after the other, each before the
lenders already placed that it is `Less` than. -/
theorem insertionSort_eq {F : Type} (ops : FloatOps F) (data : Lenders F) :
    insertionSort ops data
      = (data.foldl (fun acc x => insertBefore ops x acc) []).reverse := by
  cases data with
  | nil => simp [insertionSort, Lenders.Len, insertionOuter]
  | cons x s =>
    have h1 := insertionOuter_eq ops s [x]
    simp only [List.length_singleton, List.reverse_singleton, List.singleton_append] at h1
    unfold insertionSort Lenders.Len
    simp only [List.length_cons, Nat.add_sub_cancel, List.foldl_cons, insertBefore]
    exact h1

/-- Inserting the lenders of `s` gives the lenders of `s` and those that were there. -/
theorem foldl_insertBefore_perm {F : Type} (ops : FloatOps F) (s : Lenders F) :
    ∀ rp : Lenders F, (s.foldl (fun acc x => insertBefore ops x acc) rp).Perm (s ++ rp) := by
  induction s with
  | nil => intro rp; simp
  | cons x s ih =>
    intro rp
    simp only [List.foldl_cons, List.cons_append]
    exact ((ih _).trans (List.Perm.append_left s (insertBefore_perm ops x rp))).trans
      List.perm_middle

/-- The insertion sort, which moves lenders with `Swap` only, leaves the same lenders in the
slice. -/
theorem insertionSort_perm {F : Type} (ops : FloatOps F) (data : Lenders F) :
    (insertionSort ops data).Perm data := by
  rw [insertionSort_eq]
  have h := foldl_insertBefore_perm ops data []
  rw [List.append_nil] at h
  exact (List.reverse_perm _).trans h

/-- When `Less` describes a transitive ordering, an insertion keeps the lenders placed so far in
order. -/
theorem insertBefore_pairwise {F : Type} (ops : FloatOps F) (data : Lenders F)
    (hord : Lenders.Ordering ops data) (x : Lender F) (hx : x ∈ data) (rp : Lenders F) :
    (∀ z ∈ rp, z ∈ data) → rp.Pairwise (fun u v => Lender.less ops u v = false) →
      (insertBefore ops x rp).Pairwise (fun u v => Lender.less ops u v = false) := by
  induction rp with
  | nil => intro _ _; simp [insertBefore]
  | cons y t ih =>
    intro hmem h
    have hy : y ∈ data := hmem y (List.mem_cons_self _ _)
    have ht : ∀ z ∈ t, z ∈ data := fun z hz => hmem z (List.mem_cons_of_mem _ hz)
    obtain ⟨hyt, htp⟩ := List.pairwise_cons.mp h
    simp only [insertBefore]
    split_ifs with hlt
    · rw [List.pairwise_cons]
      refine ⟨?_, ih ht htp⟩
      intro z hz
      rcases List.mem_cons.mp ((insertBefore_perm ops x t).mem_iff.mp hz) with hzx | hzt
      · rw [hzx]
        by_contra hc
        have hc1 : Lender.less ops y x = true := by simpa using hc
        have h2 := hord.2.1 x hx y hy x hx hlt hc1
        rw [hord.1 x hx] at h2
        exact absurd h2 (by simp)
      · exact hyt z hzt
    · have hxy : Lender.less ops x y = false := by simpa using hlt
      rw [List.pairwise_cons]
      refine ⟨?_, h⟩
      intro z hz
      rcases List.mem_cons.mp hz with hzy | hzt
      · rw [hzy]
        exact hxy
      · exact hord.2.2 x hx y hy z (ht z hzt) hxy (hyt z hzt)

/-- When `Less` describes a transitive ordering, inserting the lenders of `s` keeps the order. -/
theorem foldl_insertBefore_pairwise {F : Type} (ops : FloatOps F) (data : Lenders F)
    (hord : Lenders.Ordering ops data) (s : Lenders F) :
    ∀ rp : Lenders F, (∀ z ∈ s, z ∈ data) → (∀ z ∈ rp, z ∈ data) →
      rp.Pairwise (fun u v => Lender.less ops u v = false) →
      (s.foldl (fun acc x => insertBefore ops x acc) rp).Pairwise
        (fun u v => Lender.less ops u v = false) := by
  induction s with
  | nil => intro rp _ _ h; simpa using h
  | cons x s ih =>
    intro rp hs hrp h
    simp only [List.foldl_cons]
    have hx : x ∈ data := hs x (List.mem_cons_self _ _)
    refine ih _ (fun z hz => hs z (List.mem_cons_of_mem _ hz)) ?_
      (insertBefore_pairwise ops data hord x hx rp hrp h)
    intro z hz
    rcases List.mem_cons.mp ((insertBefore_perm ops x rp).mem_iff.mp hz) with hzx | hzr
    · rw [hzx]
      exact hx
    · exact hrp z hzr

/-- When `Less` describes a transitive ordering on the slice, the insertion sort leaves every
lender `notAfter` the later ones. -/
theorem insertionSort_pairwise {F : Type} (ops : FloatOps F) (data : Lenders F)
    (hord : Lenders.Ordering ops data) :
    (insertionSort ops data).Pairwise (Lender.notAfter ops) := by
  rw [insertionSort_eq, List.pairwise_reverse]
  exact foldl_insertBefore_pairwise ops data hord data [] (fun _ h => h) (by simp)
    List.Pairwise.nil

/-- A slice in which every lender is `notAfter` the later ones is sorted by `Less`. -/
theorem Lenders.Less_false_of_pairwise {F : Type} (ops : FloatOps F) (slice : Lenders F)
    (h : slice.Pairwise (Lender.notAfter ops)) (i j : Nat) (hij : i < j)
    (hj : j < Lenders.Len slice) : Lenders.Less ops slice j i = false := by
  unfold Lenders.Len at hj
  have hi : i < slice.length := lt_trans hij hj
  rw [Lenders.Less_eq ops slice j i hj hi]
  exact (List.pairwise_iff_getElem.mp h) i j hi hj hij

/-- The insertion sort of the library meets the contract of `sort.Sort`. -/
theorem insertionSort_contract {F : Type} (ops : FloatOps F) :
    SortContract ops (insertionSort ops) where
  perm := insertionSort_perm ops
  sorted := fun data hord i j hij hj =>
    Lenders.Less_false_of_pairwise ops (insertionSort ops data)
      (insertionSort_pairwise ops data hord) i j hij hj

/-- A slice sorted by `Less`, as the contract gives it for rates compared as in a linear order,
has every lender `notAfter` the later ones. -/
theorem SortContract.pairwise {F : Type} {ops : FloatOps F} {sortFn : Lenders F → Lenders F}
    {ok : F → Prop} (hs : SortContract ops sortFn) (ho : OrderedOn ops ok) (data : Lenders F)
    (hok : ∀ l ∈ data, ok l.Rate) :
    (sortFn data).Pairwise (Lender.notAfter ops) := by
  rw [List.pairwise_iff_getElem]
  intro i j hi hj hij
  have h := hs.sorted data (Lenders.ordering_of_orderedOn ho data hok) i j hij hj
  rw [Lenders.Less_eq ops _ j i hj hi] at h
  exact h

/-- When `Less` is never true both ways, an insertion keeps every lender not `Less` than the
one placed just before it. -/
theorem insertBefore_chain {F : Type} (ops : FloatOps F)
    (hasym : ∀ a b : Lender F, Lender.less ops a b = true → Lender.less ops b a = false)
    (x : Lender F) (rp : Lenders F) :
    rp.Chain' (fun u v => Lender.less ops u v = false) →
      (insertBefore ops x rp).Chain' (fun u v => Lender.less ops u v = false) := by
  induction rp with
  | nil => intro _; simp [insertBefore]
  | cons y t ih =>
    intro h
    simp only [insertBefore]
    split_ifs with hlt
    · rw [List.chain'_cons']
      refine ⟨?_, ih h.tail⟩
      intro z hz
      cases t with
      | nil =>
        simp only [insertBefore, List.head?_cons, Option.mem_def, Option.some.injEq] at hz
        rw [← hz]
        exact hasym x y hlt
      | cons w t1 =>
        simp only [insertBefore] at hz
        split_ifs at hz with hw
        · simp only [List.head?_cons, Option.mem_def, Option.some.injEq] at hz
          rw [← hz]
          exact (List.chain'_cons.mp h).1
        · simp only [List.head?_cons, Option.mem_def, Option.some.injEq] at hz
          rw [← hz]
          exact hasym x y hlt
    · rw [List.chain'_cons]
      exact ⟨by simpa using hlt, h⟩

/-- The same for the insertion of the lenders of `s`. -/
theorem foldl_insertBefore_chain {F : Type} (ops : FloatOps F)
    (hasym : ∀ a b : Lender F, Lender.less ops a b = true → Lender.less ops b a = false)
    (s : Lenders F) :
    ∀ rp : Lenders F, rp.Chain' (fun u v => Lender.less ops u v = false) →
      (s.foldl (fun acc x => insertBefore ops x acc) rp).Chain'
        (fun u v => Lender.less ops u v = false) := by
  induction s with
  | nil => intro rp h; simpa using h
  | cons x s ih =>
    intro rp h
    simp only [List.foldl_cons]
    exact ih _ (insertBefore_chain ops hasym x rp h)

/-- On a slice in which no lender is `Less` than the one before it, no insertion moves a
lender. -/
theorem foldl_insertBefore_of_chain {F : Type} (ops : FloatOps F) (s : Lenders F) :
    ∀ rp : Lenders F, (s.reverse ++ rp).Chain' (fun u v => Lender.less ops u v = false) →
      s.foldl (fun acc x => insertBefore ops x acc) rp = s.reverse ++ rp := by
  induction s with
  | nil => intro rp _; simp
  | cons x s ih =>
    intro rp h
    simp only [List.reverse_cons, List.append_assoc, List.singleton_append] at h
    simp only [List.foldl_cons]
    have hx : insertBefore ops x rp = x :: rp := by
      cases rp with
      | nil => rfl
      | cons y t =>
        have h2 : (x :: y :: t).Chain' (fun u v => Lender.less ops u v = false) :=
          h.right_of_append
        have hxy : Lender.less ops x y = false := (List.chain'_cons.mp h2).1
        simp [insertBefore, hxy]
    rw [hx, ih (x :: rp) h]
    simp

/-- When `Less` is never true both ways, the insertion sort leaves a slice that it has sorted as
it is. -/
theorem insertionSort_idem {F : Type} (ops : FloatOps F)
    (hasym : ∀ a b : Lender F, Lender.less ops a b = true → Lender.less ops b a = false)
    (data : Lenders F) :
    insertionSort ops (insertionSort ops data) = insertionSort ops data := by
  have hc := foldl_insertBefore_chain ops hasym data [] List.chain'_nil
  rw [insertionSort_eq ops data, insertionSort_eq ops,
    foldl_insertBefore_of_chain ops _ [] (by simpa using hc)]
  simp

/-- The `Less` of float64 rates is never true both ways, NaN rates included. -/
theorem float64_less_asymm (pow : Float64 → Float64 → Float64) (a b : Lender Float64)
    (h : Lender.less (float64Ops pow) a b = true) : Lender.less (float64Ops pow) b a = false := by
  unfold Lender.less at h ⊢
  simp only [float64Ops] at h ⊢
  rw [Float64.ne_comm b.Rate a.Rate]
  by_cases hne : Float64.ne a.Rate b.Rate = true
  · rw [if_pos hne] at h ⊢
    exact Float64.lt_asymm _ _ h
  · rw [if_neg hne] at h ⊢
    simp only [decide_eq_true_eq, decide_eq_false_iff_not] at h ⊢
    omega

/-! ## Ranking -/

/-- C5 fails as stated: a rate can be NaN (`strconv.ParseFloat` accepts the text `NaN`), and
NaN compares `!=` to every rate and `<` to none.  In the pool a (0.05, 100), n (NaN, 100),
b (0.03, 100) no lender is `Less` than the one before it, so the sort leaves the slice as it
is: a comes before b, and neither rate_a < rate_b nor rate_a = rate_b holds. -/
theorem sort_nan_rate_counterexample :
    insertionSort (float64Ops mathPow)
        [⟨"a", Float64.ofRat (5 / 100), 100⟩, ⟨"n", Float64.nan, 100⟩,
          ⟨"b", Float64.ofRat (3 / 100), 100⟩]
      = [⟨"a", Float64.ofRat (5 / 100), 100⟩, ⟨"n", Float64.nan, 100⟩,
          ⟨"b", Float64.ofRat (3 / 100), 100⟩] ∧
    ∃ (i j : Nat) (a b : Lender Float64), i < j ∧
      (insertionSort (float64Ops mathPow)
        [⟨"a", Float64.ofRat (5 / 100), 100⟩, ⟨"n", Float64.nan, 100⟩,
          ⟨"b", Float64.ofRat (3 / 100), 100⟩])[i]? = some a ∧
      (insertionSort (float64Ops mathPow)
        [⟨"a", Float64.ofRat (5 / 100), 100⟩, ⟨"n", Float64.nan, 100⟩,
          ⟨"b", Float64.ofRat (3 / 100), 100⟩])[j]? = some b ∧
      Float64.lt a.Rate b.Rate = false ∧ Float64.ne a.Rate b.Rate = true ∧
      ¬ (Float64.lt a.Rate b.Rate = true ∨ (a.Rate = b.Rate ∧ a.Available ≥ b.Available)) :=
  ⟨by decide!, 0, 2, ⟨"a", Float64.ofRat (5 / 100), 100⟩, ⟨"b", Float64.ofRat (3 / 100), 100⟩,
    by decide, by decide!, by decide!, by decide!, by decide!, by decide!⟩

/-- C5, amended: ranking a pool (sorting it with Less) yields a permutation of the input, and,
when no rate of the pool is NaN, a permutation in which, for all positions i < j,
rate_i < rate_j, or rate_i = rate_j and available_i >= available_j.  The sort is the insertion
sort of the library, which moves the lenders with Swap as Less directs. -/
theorem sort_perm_and_two_key_order (pow : Float64 → Float64 → Float64)
    (lenders : Lenders Float64) :
    (insertionSort (float64Ops pow) lenders).Perm lenders ∧
    ((∀ l ∈ lenders, l.Rate ≠ Float64.nan) →
      ∀ (i j : Nat) (a b : Lender Float64), i < j →
        (insertionSort (float64Ops pow) lenders)[i]? = some a →
        (insertionSort (float64Ops pow) lenders)[j]? = some b →
        Float64.lt a.Rate b.Rate = true ∨ (a.Rate = b.Rate ∧ a.Available ≥ b.Available)) := by
  refine ⟨insertionSort_perm _ lenders, ?_⟩
  intro hnan i j a b hij ha hb
  obtain ⟨hi, hai⟩ := List.getElem?_eq_some.mp ha
  obtain ⟨hj, hbj⟩ := List.getElem?_eq_some.mp hb
  have hp := insertionSort_pairwise (float64Ops pow) lenders
    (Lenders.ordering_of_orderedOn (float64Ops_orderedOn pow) lenders hnan)
  have h := (List.pairwise_iff_getElem.mp hp) i j hi hj hij
  rw [hai, hbj] at h
  have hma : a ∈ lenders :=
    (insertionSort_perm _ lenders).mem_iff.mp (List.mem_iff_getElem?.mpr ⟨i, ha⟩)
  have hmb : b ∈ lenders :=
    (insertionSort_perm _ lenders).mem_iff.mp (List.mem_iff_getElem?.mpr ⟨j, hb⟩)
  exact (Lender.less_eq_false_iff (float64Ops_orderedOn pow) a b (hnan a hma) (hnan b hmb)).mp h

/-- C5, amended, on the example of the tests: mid (0.05, 200), high (0.05, 100),
low (0.03, 100) ranks to low, mid, high. -/
theorem sort_perm_and_two_key_order_witness :
    insertionSort (float64Ops mathPow)
        [⟨"mid", Float64.ofRat (5 / 100), 200⟩, ⟨"high", Float64.ofRat (5 / 100), 100⟩,
          ⟨"low", Float64.ofRat (3 / 100), 100⟩]
      = [⟨"low", Float64.ofRat (3 / 100), 100⟩, ⟨"mid", Float64.ofRat (5 / 100), 200⟩,
          ⟨"high", Float64.ofRat (5 / 100), 100⟩] ∧
    (insertionSort (float64Ops mathPow)
        [⟨"mid", Float64.ofRat (5 / 100), 200⟩, ⟨"high", Float64.ofRat (5 / 100), 100⟩,
          ⟨"low", Float64.ofRat (3 / 100), 100⟩]).Perm
      [⟨"mid", Float64.ofRat (5 / 100), 200⟩, ⟨"high", Float64.ofRat (5 / 100), 100⟩,
          ⟨"low", Float64.ofRat (3 / 100), 100⟩] ∧
    (Float64.lt (Float64.ofRat (3 / 100)) (Float64.ofRat (5 / 100)) = true ∨
      (Float64.ofRat (3 / 100) = Float64.ofRat (5 / 100) ∧ (100 : Int) ≥ 200)) :=
  ⟨by decide!,
    (sort_perm_and_two_key_order mathPow
      [⟨"mid", Float64.ofRat (5 / 100), 200⟩, ⟨"high", Float64.ofRat (5 / 100), 100⟩,
        ⟨"low", Float64.ofRat (3 / 100), 100⟩]).1,
    (sort_perm_and_two_key_order mathPow
      [⟨"mid", Float64.ofRat (5 / 100), 200⟩, ⟨"high", Float64.ofRat (5 / 100), 100⟩,
        ⟨"low", Float64.ofRat (3 / 100), 100⟩]).2 (by decide!) 0 1
      ⟨"low", Float64.ofRat (3 / 100), 100⟩ ⟨"mid", Float64.ofRat (5 / 100), 200⟩
      (by decide) (by decide!) (by decide!)⟩

/-! ## Borrow -/

/-- The amount that Borrow returns. -/
theorem Lender.Borrow_fst {F : Type} (l : Lender F) (amount : Int) :
    (l.Borrow amount).1 = min amount l.Available := by
  unfold Lender.Borrow
  split_ifs with h
  · exact (min_eq_right (le_of_lt h)).symm
  · exact (min_eq_left (not_lt.mp h)).symm

/-- C6: for every lender and every integer amount, Borrow returns min(amount, Available) and
leaves the lender unchanged. -/
theorem Borrow_eq_min {F : Type} (l : Lender F) (amount : Int) :
    l.Borrow amount = (min amount l.Available, l) := by
  unfold Lender.Borrow
  split_ifs with h
  · rw [min_eq_right (le_of_lt h)]
  · rw [min_eq_left (not_lt.mp h)]

/-! ## The errors of validate -/

/-- The decimal form of `MinAmount`. -/
theorem toString_MinAmount : toString MinAmount = "1000" := by decide

/-- The decimal form of `MaxAmount`. -/
theorem toString_MaxAmount : toString MaxAmount = "15000" := by decide

/-- The 'too low' message is never the 'multiple of 100' message. -/
theorem errTooLow_ne_errNotMultiple (a : Int) : errTooLow a ≠ errNotMultiple := by
  intro h
  have h1 := congrArg String.data h
  simp [errTooLow, errNotMultiple, String.data_append] at h1

/-- The 'too high' message is never the 'multiple of 100' message. -/
theorem errTooHigh_ne_errNotMultiple (a : Int) : errTooHigh a ≠ errNotMultiple := by
  intro h
  have h1 := congrArg String.data h
  simp [errTooHigh, errNotMultiple, String.data_append] at h1

/-- The 'too low' message is never the 'too high' message, whatever the two amounts. -/
theorem errTooLow_ne_errTooHigh (a b : Int) : errTooLow a ≠ errTooHigh b := by
  intro h
  unfold errTooLow errTooHigh at h
  rw [toString_MinAmount, toString_MaxAmount] at h
  have h1 := congrArg (fun s => s.data.reverse.take 5) h
  simp [String.data_append] at h1

/-- The result of validate depends on the requested amount only. -/
theorem validate_congr {F : Type} (q q1 : quote F)
    (h : q.RequestedAmount = q1.RequestedAmount) : q.validate = q1.validate := by
  unfold quote.validate
  rw [h]

/-- C7: validation errors are classified by kind, the range check first: every amount < 1000
gets the 'too low' error, every amount > 15000 the 'too high' error, and the 'multiple of 100'
error is returned exactly when 1000 <= amount <= 15000 and the amount is not a multiple of 100;
the three errors are pairwise different. -/
theorem validate_error_kinds {F : Type} (q : quote F) :
    (q.RequestedAmount < 1000 → q.validate = some (errTooLow q.RequestedAmount)) ∧
    (q.RequestedAmount > 15000 → q.validate = some (errTooHigh q.RequestedAmount)) ∧
    (q.validate = some errNotMultiple ↔
      (1000 ≤ q.RequestedAmount ∧ q.RequestedAmount ≤ 15000) ∧ ¬ (100 : Int) ∣ q.RequestedAmount) ∧
    (∀ a b : Int, errTooLow a ≠ errTooHigh b ∧ errTooLow a ≠ errNotMultiple ∧
      errTooHigh b ≠ errNotMultiple) := by
  refine ⟨?_, ?_, ?_, ?_⟩
  · intro h
    unfold quote.validate MinAmount
    rw [if_pos h]
  · intro h
    unfold quote.validate MinAmount MaxAmount
    rw [if_neg (by omega), if_pos h]
  · unfold quote.validate MinAmount MaxAmount
    split_ifs with h1 h2 h3
    · constructor
      · intro h
        exact absurd (Option.some.inj h) (errTooLow_ne_errNotMultiple _)
      · intro h
        omega
    · constructor
      · intro h
        exact absurd (Option.some.inj h) (errTooHigh_ne_errNotMultiple _)
      · intro h
        omega
    · constructor
      · intro _
        exact ⟨⟨by omega, by omega⟩, fun hd => h3 ((tmod_hundred_eq_zero_iff _).mpr hd)⟩
      · intro _
        rfl
    · constructor
      · intro h
        exact absurd h (by simp)
      · intro h
        exact absurd ((tmod_hundred_eq_zero_iff _).mp (by simpa using h3)) h.2
  · intro a b
    exact ⟨errTooLow_ne_errTooHigh a b, errTooLow_ne_errNotMultiple a,
      errTooHigh_ne_errNotMultiple b⟩

/-- C7 on the amounts 999, 15001 and 1050, with the messages written out. -/
theorem validate_error_kinds_witness :
    (999 : Int) < 1000 ∧
    (⟨[], 36, 999, 0, 0, 0⟩ : quote ℚ).validate
      = some "Loan amount of £999 is too low. Minimum loan amount is £1000" ∧
    (⟨[], 36, 15001, 0, 0, 0⟩ : quote ℚ).validate
      = some "Loan amount of £15001 is too high. Maximum loan amount is £15000" ∧
    (⟨[], 36, 1050, 0, 0, 0⟩ : quote ℚ).validate
      = some "Loan amount must be a multiple of £100" :=
  ⟨by decide,
    ((validate_error_kinds (⟨[], 36, 999, 0, 0, 0⟩ : quote ℚ)).1 (by decide)).trans (by decide),
    by decide, by decide⟩

/-! ## NewQuote and the caller's slice -/

/-- C8: validation fails fast.  For every amount that fails validation there is one error
that NewQuote returns, with no quote, for every lender pool and term; the library sort has no
part in the result and the caller's slice is as it was. -/
theorem NewQuote_validation_fails_fast {F : Type} (ops : FloatOps F)
    (amount : Int) (q : quote F) (hq : q.RequestedAmount = amount) (hv : q.validate ≠ none) :
    ∃ err, q.validate = some err ∧
      ∀ (sortFn : Lenders F → Lenders F) (loanPeriod : Int) (lenders : Lenders F),
        NewQuote ops sortFn amount loanPeriod lenders = (Except.error err, lenders) := by
  obtain ⟨err, herr⟩ := Option.ne_none_iff_exists'.mp hv
  refine ⟨err, herr, ?_⟩
  intro sortFn loanPeriod lenders
  unfold NewQuote
  have h1 : quote.validate
      ({ RequestedAmount := amount, lenders := lenders, loanPeriodMonths := loanPeriod,
         Rate := ops.ofInt 0, MonthlyRepayment := ops.ofInt 0,
         TotalRepayment := ops.ofInt 0 } : quote F) = some err := by
    rw [← herr]
    exact validate_congr _ _ hq.symm
  simp only [h1]

/-- C8 on the example of the tests: amount 999 with lenders (0.05, 1000) and (0.05, 200). -/
theorem NewQuote_validation_fails_fast_witness :
    NewQuote (float64Ops mathPow) (insertionSort (float64Ops mathPow)) 999 36
        [⟨"", Float64.ofRat (1 / 20), 1000⟩, ⟨"", Float64.ofRat (1 / 20), 200⟩]
      = (Except.error "Loan amount of £999 is too low. Minimum loan amount is £1000",
          [⟨"", Float64.ofRat (1 / 20), 1000⟩, ⟨"", Float64.ofRat (1 / 20), 200⟩]) := by
  obtain ⟨err, herr, hall⟩ :=
    NewQuote_validation_fails_fast (float64Ops mathPow) 999
      (⟨[], 36, 999, Float64.fin 0, Float64.fin 0, Float64.fin 0⟩ : quote Float64) rfl
      (by decide)
  have hmsg : (⟨[], 36, 999, Float64.fin 0, Float64.fin 0, Float64.fin 0⟩ :
      quote Float64).validate
      = some "Loan amount of £999 is too low. Minimum loan amount is £1000" := by decide
  rw [hmsg] at herr
  rw [hall, ← Option.some.inj herr]

/-! ## The loop of calculate -/

/-- The amounts recorded by the loop are those of the allocation of the specification. -/
theorem calculateLoop_drawn {F : Type} (ops : FloatOps F) (fPeriod : F) (ls : Lenders F) :
    ∀ s : LoopState F, (calculateLoop ops fPeriod ls s).drawn
      = s.drawn ++ (allocation s.balance ls).map Prod.snd := by
  induction ls with
  | nil => intro s; simp [calculateLoop, allocation]
  | cons l rest ih =>
    intro s
    simp only [calculateLoop, allocation, Lender.Borrow_fst]
    split_ifs with h
    · simp
    · rw [ih]
      simp

/-- The blended-rate accumulator of the loop is a left fold over the allocation. -/
theorem calculateLoop_blendedRate {F : Type} (ops : FloatOps F) (fPeriod : F) (ls : Lenders F) :
    ∀ s : LoopState F, (calculateLoop ops fPeriod ls s).blendedRate
      = (allocation s.balance ls).foldl
          (fun acc p => ops.add acc (ops.mul (ops.ofInt p.2) p.1.Rate)) s.blendedRate := by
  induction ls with
  | nil => intro s; simp [calculateLoop, allocation]
  | cons l rest ih =>
    intro s
    simp only [calculateLoop, allocation, Lender.Borrow_fst]
    split_ifs with h
    · simp
    · rw [ih]
      simp

/-- The monthly-repayment accumulator of the loop is a left fold over the allocation. -/
theorem calculateLoop_MonthlyRepayment {F : Type} (ops : FloatOps F) (fPeriod : F)
    (ls : Lenders F) :
    ∀ s : LoopState F, (calculateLoop ops fPeriod ls s).MonthlyRepayment
      = (allocation s.balance ls).foldl
          (fun acc p => ops.add acc (annuityContribution ops fPeriod p)) s.MonthlyRepayment := by
  induction ls with
  | nil => intro s; simp [calculateLoop, allocation]
  | cons l rest ih =>
    intro s
    simp only [calculateLoop, allocation, Lender.Borrow_fst]
    split_ifs with h
    · simp [annuityContribution, calculateMonthlyRate, compoundFrequency]
    · rw [ih]
      simp [annuityContribution, calculateMonthlyRate, compoundFrequency]

/-- The loop state at the end of the loop in the call of NewQuote. -/
theorem NewQuote_drawn_eq {F : Type} (ops : FloatOps F) (sortFn : Lenders F → Lenders F)
    (amount loanPeriod : Int) (lenders : Lenders F) :
    NewQuote.drawn ops sortFn amount loanPeriod lenders
      = (allocation amount (sortFn lenders)).map Prod.snd := by
  unfold NewQuote.drawn
  rw [calculateLoop_drawn]
  simp

/-- NewQuote on an amount that passes validation: the pool is sorted, and the outcome is
decided by the balance the loop leaves. -/
theorem NewQuote_of_valid {F : Type} (ops : FloatOps F) (sortFn : Lenders F → Lenders F)
    (amount loanPeriod : Int) (lenders : Lenders F)
    (hv : (1000 ≤ amount ∧ amount ≤ 15000) ∧ (100 : Int) ∣ amount) :
    NewQuote ops sortFn amount loanPeriod lenders =
      if (calculateLoop ops (ops.ofInt loanPeriod) (sortFn lenders)
          { balance := amount, blendedRate := ops.ofInt 0, MonthlyRepayment := ops.ofInt 0,
            drawn := [] }).balance > 0 then
        (Except.error errInsufficient, sortFn lenders)
      else
        (Except.ok
          { lenders := sortFn lenders
            loanPeriodMonths := loanPeriod
            RequestedAmount := amount
            Rate := ops.div (weightedRateSum ops (allocation amount (sortFn lenders)))
              (ops.ofInt amount)
            MonthlyRepayment :=
              contributionSum ops (ops.ofInt loanPeriod) (allocation amount (sortFn lenders))
            TotalRepayment := ops.mul (ops.ofInt loanPeriod)
              (contributionSum ops (ops.ofInt loanPeriod)
                (allocation amount (sortFn lenders))) },
          sortFn lenders) := by
  have h1 : quote.validate
      ({ RequestedAmount := amount, lenders := lenders, loanPeriodMonths := loanPeriod,
         Rate := ops.ofInt 0, MonthlyRepayment := ops.ofInt 0,
         TotalRepayment := ops.ofInt 0 } : quote F) = none :=
    validate_of_valid _ hv
  unfold NewQuote
  simp only [h1, quote.calculate, quote.loopInit]
  split_ifs with hb
  · rfl
  · simp only [weightedRateSum, contributionSum, calculateLoop_blendedRate,
      calculateLoop_MonthlyRepayment]

/-- NewQuote on an amount that fails validation returns the error of validate and leaves
the caller's slice as it is. -/
theorem NewQuote_of_invalid {F : Type} (ops : FloatOps F) (sortFn : Lenders F → Lenders F)
    (amount loanPeriod : Int) (lenders : Lenders F)
    (hv : ¬ ((1000 ≤ amount ∧ amount ≤ 15000) ∧ (100 : Int) ∣ amount)) :
    ∃ err, NewQuote ops sortFn amount loanPeriod lenders = (Except.error err, lenders) := by
  have h1 : quote.validate
      ({ RequestedAmount := amount, lenders := lenders, loanPeriodMonths := loanPeriod,
         Rate := ops.ofInt 0, MonthlyRepayment := ops.ofInt 0,
         TotalRepayment := ops.ofInt 0 } : quote F) ≠ none :=
    fun h => hv (valid_of_validate _ h)
  obtain ⟨err, herr⟩ := Option.ne_none_iff_exists'.mp h1
  refine ⟨err, ?_⟩
  unfold NewQuote
  simp only [herr]

/-- What a successful call of NewQuote returns: validation passed, the loop ended with no
balance left, and the fields of the quote are those that `calculate` sets. -/
theorem NewQuote_ok {F : Type} (ops : FloatOps F) (sortFn : Lenders F → Lenders F)
    (amount loanPeriod : Int) (lenders : Lenders F) (q : quote F)
    (h : (NewQuote ops sortFn amount loanPeriod lenders).1 = Except.ok q) :
    ((1000 ≤ amount ∧ amount ≤ 15000) ∧ (100 : Int) ∣ amount) ∧
    ¬ (calculateLoop ops (ops.ofInt loanPeriod) (sortFn lenders)
        { balance := amount, blendedRate := ops.ofInt 0, MonthlyRepayment := ops.ofInt 0,
          drawn := [] }).balance > 0 ∧
    q.RequestedAmount = amount ∧
    q.Rate = ops.div (weightedRateSum ops (allocation amount (sortFn lenders)))
      (ops.ofInt amount) ∧
    q.MonthlyRepayment
      = contributionSum ops (ops.ofInt loanPeriod) (allocation amount (sortFn lenders)) ∧
    q.TotalRepayment = ops.mul (ops.ofInt loanPeriod) q.MonthlyRepayment := by
  by_cases hv : (1000 ≤ amount ∧ amount ≤ 15000) ∧ (100 : Int) ∣ amount
  · refine ⟨hv, ?_⟩
    rw [NewQuote_of_valid ops sortFn amount loanPeriod lenders hv] at h
    by_cases hb : (calculateLoop ops (ops.ofInt loanPeriod) (sortFn lenders)
        { balance := amount, blendedRate := ops.ofInt 0, MonthlyRepayment := ops.ofInt 0,
          drawn := [] }).balance > 0
    · rw [if_pos hb] at h
      simp at h
    · refine ⟨hb, ?_⟩
      rw [if_neg hb] at h
      simp only [Except.ok.injEq] at h
      subst h
      exact ⟨rfl, rfl, rfl, rfl⟩
  · obtain ⟨err, herr⟩ := NewQuote_of_invalid ops sortFn amount loanPeriod lenders hv
    rw [herr] at h
    simp at h

/-! ## Pools with non-negative availables -/

/-- A value in the range of a Go `int` is not changed by the wrap-around. -/
theorem wrapInt64_of_range (x : Int) (h1 : -9223372036854775808 ≤ x)
    (h2 : x < 9223372036854775808) : wrapInt64 x = x := by
  unfold wrapInt64
  norm_num
  omega

/-- The lenders consulted are the first lenders of the ranked pool. -/
theorem allocation_fst {F : Type} (ls : Lenders F) :
    ∀ bal : Int, (allocation bal ls).map Prod.fst = ls.take (allocation bal ls).length := by
  induction ls with
  | nil => intro bal; simp [allocation]
  | cons l rest ih =>
    intro bal
    simp only [allocation]
    split_ifs with h
    · simp
    · simp [ih]

/-- On a pool with non-negative availables every amount drawn is between 0 and the lender's
available. -/
theorem allocation_bounds {F : Type} (ls : Lenders F) :
    ∀ bal : Int, (∀ l ∈ ls, 0 ≤ l.Available) → 0 ≤ bal → bal < 9223372036854775808 →
      ∀ p ∈ allocation bal ls, 0 ≤ p.2 ∧ p.2 ≤ p.1.Available := by
  induction ls with
  | nil => intro bal _ _ _ p hp; simp [allocation] at hp
  | cons l rest ih =>
    intro bal hnn h0 h1 p hp
    have hl : 0 ≤ l.Available := hnn l (List.mem_cons_self _ _)
    simp only [allocation, List.mem_cons] at hp
    rcases hp with hp | hp
    · subst hp
      exact ⟨le_min h0 hl, min_le_right _ _⟩
    · split_ifs at hp with h
      · simp at hp
      · have hd1 : min bal l.Available ≤ bal := min_le_left _ _
        have hd0 : 0 ≤ min bal l.Available := le_min h0 hl
        have hw : wrapInt64 (bal - min bal l.Available) = bal - min bal l.Available :=
          wrapInt64_of_range _ (by omega) (by omega)
        rw [hw] at hp
        exact ih _ (fun x hx => hnn x (List.mem_cons_of_mem _ hx)) (by omega) (by omega) p hp

/-- The waterfall: on a pool with non-negative availables that can fund the balance, the
allocation takes the full available of the first `k` lenders and the rest from lender `k`. -/
theorem allocation_waterfall {F : Type} (ls : Lenders F) :
    ∀ bal : Int, (∀ l ∈ ls, 0 ≤ l.Available) → 0 < bal → bal < 9223372036854775808 →
      bal ≤ (ls.map (fun l => l.Available)).sum →
      ∃ k, ∃ hk : k < ls.length,
        allocation bal ls = (ls.take k).map (fun l => (l, l.Available))
          ++ [(ls[k], bal - ((ls.take k).map (fun l => l.Available)).sum)] ∧
        0 < bal - ((ls.take k).map (fun l => l.Available)).sum ∧
        bal - ((ls.take k).map (fun l => l.Available)).sum ≤ ls[k].Available := by
  induction ls with
  | nil =>
    intro bal _ h0 _ hs
    simp at hs
    omega
  | cons l rest ih =>
    intro bal hnn h0 h1 hs
    have hl : 0 ≤ l.Available := hnn l (List.mem_cons_self _ _)
    simp only [List.map_cons, List.sum_cons] at hs
    by_cases hle : bal ≤ l.Available
    · refine ⟨0, by simp, ?_, ?_, ?_⟩
      · simp only [allocation, min_eq_left hle, sub_self]
        simp [wrapInt64]
      · simpa using h0
      · simpa using hle
    · have hlt : l.Available < bal := not_le.mp hle
      have hw : wrapInt64 (bal - l.Available) = bal - l.Available :=
        wrapInt64_of_range _ (by omega) (by omega)
      obtain ⟨k, hk, heq, hpos, hlek⟩ :=
        ih (bal - l.Available) (fun x hx => hnn x (List.mem_cons_of_mem _ hx))
          (by omega) (by omega) (by omega)
      refine ⟨k + 1, by simpa using hk, ?_, ?_, ?_⟩
      · simp only [allocation, min_eq_right (le_of_lt hlt), hw]
        rw [if_neg (by omega), heq]
        simp [sub_sub]
      · simp only [List.take_succ_cons, List.map_cons, List.sum_cons]
        omega
      · simp only [List.take_succ_cons, List.map_cons, List.sum_cons, List.getElem_cons_succ]
        omega

/-- On a pool with non-negative availables the loop ends with the part of the balance that
the pool cannot fund. -/
theorem calculateLoop_balance_nonneg {F : Type} (ops : FloatOps F) (fPeriod : F)
    (ls : Lenders F) :
    ∀ s : LoopState F, (∀ l ∈ ls, 0 ≤ l.Available) → 0 ≤ s.balance →
      s.balance < 9223372036854775808 →
      (calculateLoop ops fPeriod ls s).balance
        = max 0 (s.balance - (ls.map (fun l => l.Available)).sum) := by
  induction ls with
  | nil =>
    intro s _ h0 _
    simp [calculateLoop, h0]
  | cons l rest ih =>
    intro s hnn h0 h1
    have hl : 0 ≤ l.Available := hnn l (List.mem_cons_self _ _)
    have hrest : 0 ≤ (rest.map (fun l => l.Available)).sum :=
      List.sum_nonneg (by
        intro x hx
        obtain ⟨y, hy, rfl⟩ := List.mem_map.mp hx
        exact hnn y (List.mem_cons_of_mem _ hy))
    have hd1 : min s.balance l.Available ≤ s.balance := min_le_left _ _
    have hd0 : 0 ≤ min s.balance l.Available := le_min h0 hl
    have hw : wrapInt64 (s.balance - min s.balance l.Available)
        = s.balance - min s.balance l.Available :=
      wrapInt64_of_range _ (by omega) (by omega)
    simp only [calculateLoop, Lender.Borrow_fst, hw, List.map_cons, List.sum_cons]
    split_ifs with hz
    · rw [hz]
      have : s.balance ≤ l.Available := by
        rcases le_total s.balance l.Available with h | h
        · exact h
        · rw [min_eq_right h] at hz
          omega
      rw [max_eq_left (by omega)]
    · rw [ih _ (fun x hx => hnn x (List.mem_cons_of_mem _ hx)) (by simp)
        (by simpa using by omega)]
      have hlt : l.Available < s.balance := by
        rcases lt_or_le l.Available s.balance with h | h
        · exact h
        · rw [min_eq_left h] at hz
          omega
      simp only [min_eq_right (le_of_lt hlt), sub_sub]

/-! ## Insufficient funds -/

/-- C2: for every valid amount, every positive term and every pool whose availables are all
non-negative, NewQuote fails with the insufficient-funds error if and only if the sum of the
availables is strictly less than the requested amount; otherwise it returns a quote. -/
theorem NewQuote_insufficient_iff {F : Type} (ops : FloatOps F)
    (sortFn : Lenders F → Lenders F) (amount loanPeriod : Int) (lenders : Lenders F)
    (hs : SortContract ops sortFn)
    (hv : (1000 ≤ amount ∧ amount ≤ 15000) ∧ (100 : Int) ∣ amount) (_hp : 0 < loanPeriod)
    (hnn : ∀ l ∈ lenders, 0 ≤ l.Available) :
    ((NewQuote ops sortFn amount loanPeriod lenders).1 = Except.error errInsufficient ↔
      (lenders.map (fun l => l.Available)).sum < amount) ∧
    (¬ (lenders.map (fun l => l.Available)).sum < amount →
      ∃ q, (NewQuote ops sortFn amount loanPeriod lenders).1 = Except.ok q) := by
  have hsum : ((sortFn lenders).map (fun l => l.Available)).sum
      = (lenders.map (fun l => l.Available)).sum :=
    ((hs.perm lenders).map _).sum_eq
  have hnn1 : ∀ l ∈ sortFn lenders, 0 ≤ l.Available :=
    fun l hl => hnn l ((hs.perm lenders).mem_iff.mp hl)
  have hbal := calculateLoop_balance_nonneg ops (ops.ofInt loanPeriod) (sortFn lenders)
    { balance := amount, blendedRate := ops.ofInt 0, MonthlyRepayment := ops.ofInt 0,
      drawn := [] } hnn1 (by simp only; omega) (by simp only; omega)
  simp only [hsum] at hbal
  rw [NewQuote_of_valid ops sortFn amount loanPeriod lenders hv, hbal]
  by_cases hlt : (lenders.map (fun l => l.Available)).sum < amount
  · have hpos : max 0 (amount - (lenders.map (fun l => l.Available)).sum) > 0 :=
      lt_max_of_lt_right (by omega)
    rw [if_pos hpos]
    exact ⟨⟨fun _ => hlt, fun _ => rfl⟩, fun h => absurd hlt h⟩
  · have hnpos : ¬ max 0 (amount - (lenders.map (fun l => l.Available)).sum) > 0 := by
      rw [max_eq_left (by omega)]
      exact lt_irrefl 0
    rw [if_neg hnpos]
    refine ⟨⟨fun h => ?_, fun h => absurd h hlt⟩, fun _ => ⟨_, rfl⟩⟩
    simp at h

/-- C2 on the example of the tests: 1300 against availables 1000 and 200 fails. -/
theorem NewQuote_insufficient_iff_witness :
    (NewQuote (float64Ops mathPow) (insertionSort (float64Ops mathPow)) 1300 36
      [⟨"", Float64.ofRat (1 / 100), 1000⟩, ⟨"", Float64.ofRat (1 / 100), 200⟩]).1
      = Except.error errInsufficient :=
  (NewQuote_insufficient_iff (float64Ops mathPow) (insertionSort (float64Ops mathPow)) 1300 36
    [⟨"", Float64.ofRat (1 / 100), 1000⟩, ⟨"", Float64.ofRat (1 / 100), 200⟩]
    (insertionSort_contract _) (by decide) (by decide) (by decide)).1.mpr
    (by decide)

/-! ## The blended rate and the repayments -/

/-- C3: for every amount for which NewQuote succeeds, the quote's Rate equals
sum(drawn_i * rate_i) / requestedAmount, the sum going in ranked order, from 0.0, over the
lenders that the loop draws from, with drawn_i = min(balance remaining before lender i,
available_i), which is the amount that the loop draws from lender i. -/
theorem Rate_eq_weighted_sum {F : Type} (ops : FloatOps F)
    (sortFn : Lenders F → Lenders F) (amount loanPeriod : Int) (lenders : Lenders F)
    (q : quote F) (h : (NewQuote ops sortFn amount loanPeriod lenders).1 = Except.ok q) :
    q.Rate = ops.div (weightedRateSum ops (allocation amount (sortFn lenders)))
      (ops.ofInt amount) ∧
    (allocation amount (sortFn lenders)).map Prod.snd
      = NewQuote.drawn ops sortFn amount loanPeriod lenders := by
  obtain ⟨_, _, _, hrate, _, _⟩ := NewQuote_ok ops sortFn amount loanPeriod lenders q h
  exact ⟨hrate, (NewQuote_drawn_eq ops sortFn amount loanPeriod lenders).symm⟩

/-- C3 on the example of the tests: 1200 over (0.051, 1000) and (0.069, 200) draws 1000 and
200, and (0.051 * 1000 + 0.069 * 200) / 1200 is the float64 0.054. -/
theorem Rate_eq_weighted_sum_witness :
    ∃ q, (NewQuote (float64Ops mathPow) (insertionSort (float64Ops mathPow)) 1200 36
        [⟨"", Float64.ofRat (51 / 1000), 1000⟩, ⟨"", Float64.ofRat (69 / 1000), 200⟩]).1
        = Except.ok q ∧
      q.Rate = Float64.ofRat (54 / 1000) ∧
      NewQuote.drawn (float64Ops mathPow) (insertionSort (float64Ops mathPow)) 1200 36
        [⟨"", Float64.ofRat (51 / 1000), 1000⟩, ⟨"", Float64.ofRat (69 / 1000), 200⟩]
        = [1000, 200] := by
  have hv := NewQuote_of_valid (float64Ops mathPow) (insertionSort (float64Ops mathPow)) 1200 36
    [⟨"", Float64.ofRat (51 / 1000), 1000⟩, ⟨"", Float64.ofRat (69 / 1000), 200⟩] (by decide)
  rw [if_neg (by decide!)] at hv
  have h := Rate_eq_weighted_sum (float64Ops mathPow) (insertionSort (float64Ops mathPow))
    1200 36 [⟨"", Float64.ofRat (51 / 1000), 1000⟩, ⟨"", Float64.ofRat (69 / 1000), 200⟩] _
    (congrArg Prod.fst hv)
  refine ⟨_, congrArg Prod.fst hv, ?_, ?_⟩
  · rw [h.1]
    decide!
  · rw [← h.2]
    decide!

/-- C4: for every request for which NewQuote succeeds, TotalRepayment is the product of the
term and MonthlyRepayment, and MonthlyRepayment is the sum, over the lenders drawn from, of
the contributions drawn_i * (m_i * (1 + m_i)^term) / ((1 + m_i)^term - 1) with
m_i = rate_i / 12. -/
theorem repayments_eq {F : Type} (ops : FloatOps F) (sortFn : Lenders F → Lenders F)
    (amount loanPeriod : Int) (lenders : Lenders F) (q : quote F)
    (h : (NewQuote ops sortFn amount loanPeriod lenders).1 = Except.ok q) :
    q.TotalRepayment = ops.mul (ops.ofInt loanPeriod) q.MonthlyRepayment ∧
    q.MonthlyRepayment
      = contributionSum ops (ops.ofInt loanPeriod) (allocation amount (sortFn lenders)) := by
  obtain ⟨_, _, _, _, hm, ht⟩ := NewQuote_ok ops sortFn amount loanPeriod lenders q h
  exact ⟨ht, hm⟩

/-- C4 on a request with a term of one month: 1000 from one lender at 12% a year is repaid
by one payment, which the float64 formula gives as 1009.9999999999991. -/
theorem repayments_eq_witness :
    ∃ q, (NewQuote (float64Ops mathPow) (insertionSort (float64Ops mathPow)) 1000 1
        [⟨"", Float64.ofRat (12 / 100), 1000⟩]).1 = Except.ok q ∧
      q.MonthlyRepayment = Float64.ofRat (10099999999999991 / 10000000000000) ∧
      q.TotalRepayment = Float64.ofRat (10099999999999991 / 10000000000000) := by
  have hv := NewQuote_of_valid (float64Ops mathPow) (insertionSort (float64Ops mathPow)) 1000 1
    [⟨"", Float64.ofRat (12 / 100), 1000⟩] (by decide)
  rw [if_neg (by decide!)] at hv
  have h := repayments_eq (float64Ops mathPow) (insertionSort (float64Ops mathPow)) 1000 1
    [⟨"", Float64.ofRat (12 / 100), 1000⟩] _ (congrArg Prod.fst hv)
  refine ⟨_, congrArg Prod.fst hv, ?_, ?_⟩
  · rw [h.2]
    decide!
  · rw [h.1, h.2]
    decide!

/-! ## The caller's slice -/

/-- C9 fails as stated: after NewQuote on 1000 with the lenders b (0.05, 1000), a (0.03, 1000)
in that order, the caller's slice holds a before b. -/
theorem NewQuote_reorders_counterexample :
    (NewQuote (float64Ops mathPow) (insertionSort (float64Ops mathPow)) 1000 36
        [⟨"b", Float64.ofRat (1 / 20), 1000⟩, ⟨"a", Float64.ofRat (3 / 100), 1000⟩]).2
      = [⟨"a", Float64.ofRat (3 / 100), 1000⟩, ⟨"b", Float64.ofRat (1 / 20), 1000⟩] ∧
    (NewQuote (float64Ops mathPow) (insertionSort (float64Ops mathPow)) 1000 36
        [⟨"b", Float64.ofRat (1 / 20), 1000⟩, ⟨"a", Float64.ofRat (3 / 100), 1000⟩]).2
      ≠ [⟨"b", Float64.ofRat (1 / 20), 1000⟩, ⟨"a", Float64.ofRat (3 / 100), 1000⟩] := by
  constructor
  · decide!
  · decide!

/-- C9, amended: after NewQuote returns, with a quote or an error, the caller's slice holds
the same lenders, each with its name, rate and available unchanged, none added and none
removed (a permutation of the input); it is in the input order when validation fails and in
ranked order, as the library sort leaves it, when validation passes. -/
theorem NewQuote_caller_slice {F : Type} (ops : FloatOps F)
    (sortFn : Lenders F → Lenders F) (hs : SortContract ops sortFn)
    (amount loanPeriod : Int) (lenders : Lenders F) :
    (NewQuote ops sortFn amount loanPeriod lenders).2.Perm lenders ∧
    (¬ ((1000 ≤ amount ∧ amount ≤ 15000) ∧ (100 : Int) ∣ amount) →
      (NewQuote ops sortFn amount loanPeriod lenders).2 = lenders) ∧
    ((1000 ≤ amount ∧ amount ≤ 15000) ∧ (100 : Int) ∣ amount →
      (NewQuote ops sortFn amount loanPeriod lenders).2 = sortFn lenders) := by
  have hvalid : (1000 ≤ amount ∧ amount ≤ 15000) ∧ (100 : Int) ∣ amount →
      (NewQuote ops sortFn amount loanPeriod lenders).2 = sortFn lenders := by
    intro hv
    rw [NewQuote_of_valid ops sortFn amount loanPeriod lenders hv]
    split_ifs <;> rfl
  have hinvalid : ¬ ((1000 ≤ amount ∧ amount ≤ 15000) ∧ (100 : Int) ∣ amount) →
      (NewQuote ops sortFn amount loanPeriod lenders).2 = lenders := by
    intro hv
    obtain ⟨err, herr⟩ := NewQuote_of_invalid ops sortFn amount loanPeriod lenders hv
    rw [herr]
  refine ⟨?_, hinvalid, hvalid⟩
  by_cases hv : (1000 ≤ amount ∧ amount ≤ 15000) ∧ (100 : Int) ∣ amount
  · rw [hvalid hv]
    exact hs.perm lenders
  · rw [hinvalid hv]

/-- C9, amended, on the same call: the caller's slice is a permutation of what it held. -/
theorem NewQuote_caller_slice_witness :
    (NewQuote (float64Ops mathPow) (insertionSort (float64Ops mathPow)) 1000 36
        [⟨"b", Float64.ofRat (1 / 20), 1000⟩, ⟨"a", Float64.ofRat (3 / 100), 1000⟩]).2.Perm
      [⟨"b", Float64.ofRat (1 / 20), 1000⟩, ⟨"a", Float64.ofRat (3 / 100), 1000⟩] :=
  (NewQuote_caller_slice (float64Ops mathPow) (insertionSort (float64Ops mathPow))
    (insertionSort_contract _) 1000 36
    [⟨"b", Float64.ofRat (1 / 20), 1000⟩, ⟨"a", Float64.ofRat (3 / 100), 1000⟩]).1

/-! ## The greedy waterfall -/

/-- C10: for every successful quote over a pool with non-negative availables there is a
position k in the ranked pool such that the amounts drawn are the full availables of the
lenders before k followed by the remaining balance for lender k, which is at most its
available, and nothing for the lenders after k; every amount drawn is between 0 and the
lender's available, and the amounts drawn sum to the requested amount. -/
theorem drawn_waterfall {F : Type} (ops : FloatOps F) (sortFn : Lenders F → Lenders F)
    (amount loanPeriod : Int) (lenders : Lenders F) (q : quote F)
    (hs : SortContract ops sortFn)
    (h : (NewQuote ops sortFn amount loanPeriod lenders).1 = Except.ok q)
    (hnn : ∀ l ∈ lenders, 0 ≤ l.Available) :
    ∃ k, ∃ hk : k < (sortFn lenders).length,
      NewQuote.drawn ops sortFn amount loanPeriod lenders
        = ((sortFn lenders).take k).map (fun l => l.Available)
          ++ [amount - (((sortFn lenders).take k).map (fun l => l.Available)).sum] ∧
      0 < amount - (((sortFn lenders).take k).map (fun l => l.Available)).sum ∧
      amount - (((sortFn lenders).take k).map (fun l => l.Available)).sum
        ≤ (sortFn lenders)[k].Available ∧
      (∀ (i : Nat) (d : Int) (l : Lender F),
        (NewQuote.drawn ops sortFn amount loanPeriod lenders)[i]? = some d →
        (sortFn lenders)[i]? = some l → 0 ≤ d ∧ d ≤ l.Available) ∧
      (NewQuote.drawn ops sortFn amount loanPeriod lenders).sum = amount := by
  obtain ⟨hv, hb, _⟩ := NewQuote_ok ops sortFn amount loanPeriod lenders q h
  have hnn1 : ∀ l ∈ sortFn lenders, 0 ≤ l.Available :=
    fun l hl => hnn l ((hs.perm lenders).mem_iff.mp hl)
  have hbal := calculateLoop_balance_nonneg ops (ops.ofInt loanPeriod) (sortFn lenders)
    { balance := amount, blendedRate := ops.ofInt 0, MonthlyRepayment := ops.ofInt 0,
      drawn := [] } hnn1 (by simp only; omega) (by simp only; omega)
  simp only at hbal
  rw [hbal] at hb
  have hfund : amount ≤ ((sortFn lenders).map (fun l => l.Available)).sum := by
    by_contra hlt
    exact hb (lt_max_of_lt_right (by omega))
  obtain ⟨k, hk, heq, hpos, hle⟩ :=
    allocation_waterfall (sortFn lenders) amount hnn1 (by omega) (by omega) hfund
  have hdrawn := NewQuote_drawn_eq ops sortFn amount loanPeriod lenders
  refine ⟨k, hk, ?_, hpos, hle, ?_, ?_⟩
  · rw [hdrawn, heq]
    simp [Function.comp_def]
  · intro i d l hd hl
    rw [hdrawn, List.getElem?_map] at hd
    obtain ⟨p, hp, hpd⟩ := Option.map_eq_some'.mp hd
    have hmem : p ∈ allocation amount (sortFn lenders) := List.mem_iff_getElem?.mpr ⟨i, hp⟩
    have hbd := allocation_bounds (sortFn lenders) amount hnn1 (by omega) (by omega) p hmem
    have hfst : ((allocation amount (sortFn lenders)).map Prod.fst)[i]? = some p.1 := by
      rw [List.getElem?_map, hp]
      rfl
    rw [allocation_fst, List.getElem?_take] at hfst
    split_ifs at hfst with hi
    · rw [hl] at hfst
      have hlp : l = p.1 := Option.some.inj hfst
      rw [← hpd, hlp]
      exact hbd
  · rw [hdrawn, heq]
    simp [Function.comp_def]

/-- C10 on 1200 over (0.069, 300), (0.051, 1000) and (0.07, 500): the lender at 0.051 is
drawn in full, the lender at 0.069 for the remaining 200, and the lender at 0.07 not at all. -/
theorem drawn_waterfall_witness :
    NewQuote.drawn (float64Ops mathPow) (insertionSort (float64Ops mathPow)) 1200 36
        [⟨"", Float64.ofRat (69 / 1000), 300⟩, ⟨"", Float64.ofRat (51 / 1000), 1000⟩,
          ⟨"", Float64.ofRat (7 / 100), 500⟩] = [1000, 200] ∧
    (NewQuote.drawn (float64Ops mathPow) (insertionSort (float64Ops mathPow)) 1200 36
        [⟨"", Float64.ofRat (69 / 1000), 300⟩, ⟨"", Float64.ofRat (51 / 1000), 1000⟩,
          ⟨"", Float64.ofRat (7 / 100), 500⟩]).sum = 1200 := by
  have hv := NewQuote_of_valid (float64Ops mathPow) (insertionSort (float64Ops mathPow)) 1200 36
    [⟨"", Float64.ofRat (69 / 1000), 300⟩, ⟨"", Float64.ofRat (51 / 1000), 1000⟩,
      ⟨"", Float64.ofRat (7 / 100), 500⟩] (by decide)
  rw [if_neg (by decide!)] at hv
  obtain ⟨_, _, _, _, _, _, hsum⟩ := drawn_waterfall (float64Ops mathPow)
    (insertionSort (float64Ops mathPow)) 1200 36
    [⟨"", Float64.ofRat (69 / 1000), 300⟩, ⟨"", Float64.ofRat (51 / 1000), 1000⟩,
      ⟨"", Float64.ofRat (7 / 100), 500⟩] _
    (insertionSort_contract _) (congrArg Prod.fst hv) (by decide)
  exact ⟨by decide!, hsum⟩

/-! ## The result does not depend on the input order -/

/-- Two keys that are each not after the other are equal. -/
theorem keyNotAfter_antisymm {F : Type} {ops : FloatOps F} {ok : F → Prop}
    (ho : OrderedOn ops ok) (a b : F × Int) (ha : ok a.1) (hb : ok b.1)
    (hab : keyNotAfter ops a b) (hba : keyNotAfter ops b a) : a = b := by
  unfold keyNotAfter at hab hba
  rcases hab with h1 | ⟨h1, h2⟩
  · rcases hba with h3 | ⟨h3, _⟩
    · have h4 := ho.not_lt_of_lt a.1 b.1 ha hb h1
      rw [h3] at h4
      exact absurd h4 (by simp)
    · rw [h3, ho.lt_irrefl a.1 ha] at h1
      exact absurd h1 (by simp)
  · rcases hba with h3 | ⟨_, h4⟩
    · rw [h1, ho.lt_irrefl b.1 hb] at h3
      exact absurd h3 (by simp)
    · exact Prod.ext h1 (le_antisymm h4 h2)

/-- Two sorted slices that hold the same lenders have the same sequence of keys. -/
theorem key_eq_of_perm_of_sorted {F : Type} {ops : FloatOps F} {ok : F → Prop}
    (ho : OrderedOn ops ok) (l1 l2 : Lenders F) (hok : ∀ l ∈ l1, ok l.Rate)
    (hp : l1.Perm l2) (h1 : l1.Pairwise (Lender.notAfter ops))
    (h2 : l2.Pairwise (Lender.notAfter ops)) :
    l1.map Lender.key = l2.map Lender.key := by
  have hok2 : ∀ l ∈ l2, ok l.Rate := fun l hl => hok l (hp.mem_iff.mpr hl)
  have hs1 : (l1.map Lender.key).Pairwise (keyNotAfter ops) :=
    List.pairwise_map.mpr (h1.imp_of_mem (fun {a b} ha hb h =>
      (Lender.notAfter_iff_key ho a b (hok a ha) (hok b hb)).mp h))
  have hs2 : (l2.map Lender.key).Pairwise (keyNotAfter ops) :=
    List.pairwise_map.mpr (h2.imp_of_mem (fun {a b} ha hb h =>
      (Lender.notAfter_iff_key ho a b (hok2 a ha) (hok2 b hb)).mp h))
  refine List.Perm.eq_of_sorted ?_ hs1 hs2 (hp.map _)
  intro a b ha hb hab hba
  obtain ⟨x, hx, rfl⟩ := List.mem_map.mp ha
  obtain ⟨y, hy, rfl⟩ := List.mem_map.mp hb
  exact keyNotAfter_antisymm ho _ _ (hok x hx) (hok2 y hy) hab hba

/-- The loop of calculate reads the keys of the lenders only. -/
theorem calculateLoop_congr_key {F : Type} (ops : FloatOps F) (fPeriod : F) (l1 : Lenders F) :
    ∀ (l2 : Lenders F) (s : LoopState F), l1.map Lender.key = l2.map Lender.key →
      calculateLoop ops fPeriod l1 s = calculateLoop ops fPeriod l2 s := by
  induction l1 with
  | nil =>
    intro l2 s h
    cases l2 with
    | nil => rfl
    | cons b t => simp at h
  | cons a rest ih =>
    intro l2 s h
    cases l2 with
    | nil => simp at h
    | cons b t =>
      simp only [List.map_cons, List.cons.injEq, Lender.key, Prod.mk.injEq] at h
      obtain ⟨⟨hr, ha⟩, ht⟩ := h
      simp only [calculateLoop, Lender.Borrow_fst, hr, ha]
      split_ifs with hz
      · rfl
      · exact ih t _ ht

/-- The weighted sum over the allocation is the blended-rate accumulator at the end of the loop. -/
theorem weightedRateSum_eq_loop {F : Type} (ops : FloatOps F) (fPeriod : F) (amount : Int)
    (ls : Lenders F) :
    weightedRateSum ops (allocation amount ls)
      = (calculateLoop ops fPeriod ls
          { balance := amount, blendedRate := ops.ofInt 0, MonthlyRepayment := ops.ofInt 0,
            drawn := [] }).blendedRate := by
  rw [calculateLoop_blendedRate]
  rfl

/-- The sum of the contributions over the allocation is the monthly-repayment accumulator at
the end of the loop. -/
theorem contributionSum_eq_loop {F : Type} (ops : FloatOps F) (fPeriod : F) (amount : Int)
    (ls : Lenders F) :
    contributionSum ops fPeriod (allocation amount ls)
      = (calculateLoop ops fPeriod ls
          { balance := amount, blendedRate := ops.ofInt 0, MonthlyRepayment := ops.ofInt 0,
            drawn := [] }).MonthlyRepayment := by
  rw [calculateLoop_MonthlyRepayment]
  rfl

/-- The error of NewQuote on an amount that fails validation is the same for every pool. -/
theorem NewQuote_invalid_error {F : Type} (ops : FloatOps F) (amount : Int)
    (hv : ¬ ((1000 ≤ amount ∧ amount ≤ 15000) ∧ (100 : Int) ∣ amount)) :
    ∃ err, ∀ (sortFn : Lenders F → Lenders F) (loanPeriod : Int) (lenders : Lenders F),
      NewQuote ops sortFn amount loanPeriod lenders = (Except.error err, lenders) := by
  have h1 : quote.validate
      ({ RequestedAmount := amount, lenders := [], loanPeriodMonths := 0,
         Rate := ops.ofInt 0, MonthlyRepayment := ops.ofInt 0,
         TotalRepayment := ops.ofInt 0 } : quote F) ≠ none :=
    fun h => hv (valid_of_validate _ h)
  obtain ⟨err, herr⟩ := Option.ne_none_iff_exists'.mp h1
  refine ⟨err, ?_⟩
  intro sortFn loanPeriod lenders
  have h2 : quote.validate
      ({ RequestedAmount := amount, lenders := lenders, loanPeriodMonths := loanPeriod,
         Rate := ops.ofInt 0, MonthlyRepayment := ops.ofInt 0,
         TotalRepayment := ops.ofInt 0 } : quote F) = some err := by
    rw [← herr]
    exact validate_congr _ _ rfl
  unfold NewQuote
  simp only [h2]

/-- On a valid amount the outcome of NewQuote is read off the state in which the loop ends:
two pools on which the loop ends in the same state give the same error or quotes with the same
Rate, MonthlyRepayment and TotalRepayment. -/
theorem NewQuote_eq_of_loop_eq {F : Type} (ops : FloatOps F)
    (sortFn : Lenders F → Lenders F) (amount loanPeriod : Int) (l1 l2 : Lenders F)
    (hv : (1000 ≤ amount ∧ amount ≤ 15000) ∧ (100 : Int) ∣ amount)
    (hl : calculateLoop ops (ops.ofInt loanPeriod) (sortFn l1)
        { balance := amount, blendedRate := ops.ofInt 0, MonthlyRepayment := ops.ofInt 0,
          drawn := [] }
      = calculateLoop ops (ops.ofInt loanPeriod) (sortFn l2)
        { balance := amount, blendedRate := ops.ofInt 0, MonthlyRepayment := ops.ofInt 0,
          drawn := [] }) :
    (∃ err, (NewQuote ops sortFn amount loanPeriod l1).1 = Except.error err ∧
        (NewQuote ops sortFn amount loanPeriod l2).1 = Except.error err) ∨
    (∃ q1 q2, (NewQuote ops sortFn amount loanPeriod l1).1 = Except.ok q1 ∧
        (NewQuote ops sortFn amount loanPeriod l2).1 = Except.ok q2 ∧
        q1.Rate = q2.Rate ∧ q1.MonthlyRepayment = q2.MonthlyRepayment ∧
        q1.TotalRepayment = q2.TotalRepayment) := by
  rw [NewQuote_of_valid ops sortFn amount loanPeriod l1 hv,
    NewQuote_of_valid ops sortFn amount loanPeriod l2 hv]
  rw [weightedRateSum_eq_loop ops (ops.ofInt loanPeriod) amount (sortFn l1),
    weightedRateSum_eq_loop ops (ops.ofInt loanPeriod) amount (sortFn l2),
    contributionSum_eq_loop ops (ops.ofInt loanPeriod) amount (sortFn l1),
    contributionSum_eq_loop ops (ops.ofInt loanPeriod) amount (sortFn l2), hl]
  by_cases hb : (calculateLoop ops (ops.ofInt loanPeriod) (sortFn l2)
      { balance := amount, blendedRate := ops.ofInt 0, MonthlyRepayment := ops.ofInt 0,
        drawn := [] }).balance > 0
  · rw [if_pos hb, if_pos hb]
    exact Or.inl ⟨errInsufficient, rfl, rfl⟩
  · rw [if_neg hb, if_neg hb]
    exact Or.inr ⟨_, _, rfl, rfl, rfl, rfl, rfl⟩

/-- C11 fails as stated: a rate can be NaN, and a lender with a NaN rate is neither `Less` than
another nor the other `Less` than it, so the sort leaves the pool a (0.05, 1000), n (NaN, 500),
b (0.03, 1000) as it is given.  In the order a, n, b the request of 1000 is drawn from a and
has the rate 0.05; in the order b, n, a it is drawn from b and has the rate 0.03. -/
theorem NewQuote_order_counterexample :
    List.Perm ([⟨"a", Float64.ofRat (5 / 100), 1000⟩, ⟨"n", Float64.nan, 500⟩,
        ⟨"b", Float64.ofRat (3 / 100), 1000⟩] : Lenders Float64)
      [⟨"b", Float64.ofRat (3 / 100), 1000⟩, ⟨"n", Float64.nan, 500⟩,
          ⟨"a", Float64.ofRat (5 / 100), 1000⟩] ∧
    ∃ q1 q2,
      (NewQuote (float64Ops mathPow) (insertionSort (float64Ops mathPow)) 1000 36
        [⟨"a", Float64.ofRat (5 / 100), 1000⟩, ⟨"n", Float64.nan, 500⟩,
            ⟨"b", Float64.ofRat (3 / 100), 1000⟩]).1 = Except.ok q1 ∧
      (NewQuote (float64Ops mathPow) (insertionSort (float64Ops mathPow)) 1000 36
        [⟨"b", Float64.ofRat (3 / 100), 1000⟩, ⟨"n", Float64.nan, 500⟩,
            ⟨"a", Float64.ofRat (5 / 100), 1000⟩]).1 = Except.ok q2 ∧
      q1.Rate = Float64.ofRat (5 / 100) ∧ q2.Rate = Float64.ofRat (3 / 100) ∧
      q1.Rate ≠ q2.Rate := by
  have hv1 := NewQuote_of_valid (float64Ops mathPow) (insertionSort (float64Ops mathPow)) 1000 36
    [⟨"a", Float64.ofRat (5 / 100), 1000⟩, ⟨"n", Float64.nan, 500⟩,
        ⟨"b", Float64.ofRat (3 / 100), 1000⟩] (by decide)
  rw [if_neg (by decide!)] at hv1
  have hv2 := NewQuote_of_valid (float64Ops mathPow) (insertionSort (float64Ops mathPow)) 1000 36
    [⟨"b", Float64.ofRat (3 / 100), 1000⟩, ⟨"n", Float64.nan, 500⟩,
        ⟨"a", Float64.ofRat (5 / 100), 1000⟩] (by decide)
  rw [if_neg (by decide!)] at hv2
  exact ⟨by decide!, _, _, congrArg Prod.fst hv1, congrArg Prod.fst hv2, by decide!, by decide!,
    by decide!⟩

/-- C11, amended: the result of NewQuote does not depend on the input order of the lenders when
no rate of the pool is NaN.  For every amount and term and any two lender sequences that are
permutations of each other, with no NaN rate, NewQuote either fails with the same error on
both, or returns on both a quote, the two with the same Rate, MonthlyRepayment and
TotalRepayment. -/
theorem NewQuote_perm_invariant (pow : Float64 → Float64 → Float64)
    (sortFn : Lenders Float64 → Lenders Float64) (hs : SortContract (float64Ops pow) sortFn)
    (amount loanPeriod : Int) (l1 l2 : Lenders Float64) (hp : l1.Perm l2)
    (hnan : ∀ l ∈ l1, l.Rate ≠ Float64.nan) :
    (∃ err, (NewQuote (float64Ops pow) sortFn amount loanPeriod l1).1 = Except.error err ∧
        (NewQuote (float64Ops pow) sortFn amount loanPeriod l2).1 = Except.error err) ∨
    (∃ q1 q2, (NewQuote (float64Ops pow) sortFn amount loanPeriod l1).1 = Except.ok q1 ∧
        (NewQuote (float64Ops pow) sortFn amount loanPeriod l2).1 = Except.ok q2 ∧
        q1.Rate = q2.Rate ∧ q1.MonthlyRepayment = q2.MonthlyRepayment ∧
        q1.TotalRepayment = q2.TotalRepayment) := by
  have ho := float64Ops_orderedOn pow
  by_cases hv : (1000 ≤ amount ∧ amount ≤ 15000) ∧ (100 : Int) ∣ amount
  · have hnan2 : ∀ l ∈ l2, l.Rate ≠ Float64.nan := fun l hl => hnan l (hp.mem_iff.mpr hl)
    have hperm : (sortFn l1).Perm (sortFn l2) :=
      ((hs.perm l1).trans hp).trans (hs.perm l2).symm
    have hnanS : ∀ l ∈ sortFn l1, l.Rate ≠ Float64.nan :=
      fun l hl => hnan l ((hs.perm l1).mem_iff.mp hl)
    have hkey := key_eq_of_perm_of_sorted ho (sortFn l1) (sortFn l2) hnanS hperm
      (hs.pairwise ho l1 hnan) (hs.pairwise ho l2 hnan2)
    exact NewQuote_eq_of_loop_eq (float64Ops pow) sortFn amount loanPeriod l1 l2 hv
      (calculateLoop_congr_key (float64Ops pow) ((float64Ops pow).ofInt loanPeriod) (sortFn l1)
        (sortFn l2) _ hkey)
  · obtain ⟨err, herr⟩ := NewQuote_invalid_error (float64Ops pow) amount hv
    exact Or.inl ⟨err, by rw [herr sortFn loanPeriod l1], by rw [herr sortFn loanPeriod l2]⟩

/-- C11, amended, on two orders of a pool in which two lenders tie on rate and available: 1200
over x (0.05, 500), y (0.05, 500), z (0.03, 1000) is drawn from z and from one of x and y, and
both orders give a quote with the same three values (the rate is 0.03333333333333333). -/
theorem NewQuote_perm_invariant_witness :
    (∃ q, (NewQuote (float64Ops mathPow) (insertionSort (float64Ops mathPow)) 1200 36
        [⟨"x", Float64.ofRat (1 / 20), 500⟩, ⟨"y", Float64.ofRat (1 / 20), 500⟩,
            ⟨"z", Float64.ofRat (3 / 100), 1000⟩]).1 = Except.ok q ∧
      q.Rate = Float64.ofRat (3333333333333333 / 100000000000000000)) ∧
    ∃ q1 q2,
      (NewQuote (float64Ops mathPow) (insertionSort (float64Ops mathPow)) 1200 36
        [⟨"x", Float64.ofRat (1 / 20), 500⟩, ⟨"y", Float64.ofRat (1 / 20), 500⟩,
            ⟨"z", Float64.ofRat (3 / 100), 1000⟩]).1 = Except.ok q1 ∧
      (NewQuote (float64Ops mathPow) (insertionSort (float64Ops mathPow)) 1200 36
        [⟨"z", Float64.ofRat (3 / 100), 1000⟩, ⟨"y", Float64.ofRat (1 / 20), 500⟩,
            ⟨"x", Float64.ofRat (1 / 20), 500⟩]).1 = Except.ok q2 ∧
      q1.Rate = q2.Rate ∧ q1.MonthlyRepayment = q2.MonthlyRepayment ∧
      q1.TotalRepayment = q2.TotalRepayment := by
  have hv := NewQuote_of_valid (float64Ops mathPow) (insertionSort (float64Ops mathPow)) 1200 36
    [⟨"x", Float64.ofRat (1 / 20), 500⟩, ⟨"y", Float64.ofRat (1 / 20), 500⟩,
        ⟨"z", Float64.ofRat (3 / 100), 1000⟩] (by decide)
  rw [if_neg (by decide!)] at hv
  refine ⟨⟨_, congrArg Prod.fst hv, by decide!⟩, ?_⟩
  rcases NewQuote_perm_invariant mathPow (insertionSort (float64Ops mathPow))
    (insertionSort_contract _) 1200 36
    [⟨"x", Float64.ofRat (1 / 20), 500⟩, ⟨"y", Float64.ofRat (1 / 20), 500⟩,
        ⟨"z", Float64.ofRat (3 / 100), 1000⟩]
    [⟨"z", Float64.ofRat (3 / 100), 1000⟩, ⟨"y", Float64.ofRat (1 / 20), 500⟩,
        ⟨"x", Float64.ofRat (1 / 20), 500⟩]
    (by decide!) (by decide!) with ⟨err, h1, _⟩ | h
  · rw [congrArg Prod.fst hv] at h1
    simp at h1
  · exact h

/-! ## Ranking a ranked pool -/

/-- C12: ranking is idempotent.  For every lender pool, a NaN rate included, ranking the
already-ranked pool yields exactly the same sequence as ranking once: after the insertion sort
no lender is `Less` than the one before it, and on such a slice the sort swaps nothing. -/
theorem sort_idempotent (pow : Float64 → Float64 → Float64) (lenders : Lenders Float64) :
    insertionSort (float64Ops pow) (insertionSort (float64Ops pow) lenders)
      = insertionSort (float64Ops pow) lenders :=
  insertionSort_idem (float64Ops pow) (float64_less_asymm pow) lenders

/-- C12 on two pools: x (0.05, 500), y (0.05, 500), which tie on both keys, stay in the order
x, y; and mid (0.05, 200), high (0.05, 100), low (0.03, 100) are ranked low, mid, high;
ranking again changes neither. -/
theorem sort_idempotent_witness :
    insertionSort (float64Ops mathPow)
        [⟨"x", Float64.ofRat (1 / 20), 500⟩, ⟨"y", Float64.ofRat (1 / 20), 500⟩]
      = [⟨"x", Float64.ofRat (1 / 20), 500⟩, ⟨"y", Float64.ofRat (1 / 20), 500⟩] ∧
    insertionSort (float64Ops mathPow)
        (insertionSort (float64Ops mathPow)
          [⟨"x", Float64.ofRat (1 / 20), 500⟩, ⟨"y", Float64.ofRat (1 / 20), 500⟩])
      = insertionSort (float64Ops mathPow)
          [⟨"x", Float64.ofRat (1 / 20), 500⟩, ⟨"y", Float64.ofRat (1 / 20), 500⟩] ∧
    insertionSort (float64Ops mathPow)
        (insertionSort (float64Ops mathPow)
          [⟨"mid", Float64.ofRat (5 / 100), 200⟩, ⟨"high", Float64.ofRat (5 / 100), 100⟩,
            ⟨"low", Float64.ofRat (3 / 100), 100⟩])
      = [⟨"low", Float64.ofRat (3 / 100), 100⟩, ⟨"mid", Float64.ofRat (5 / 100), 200⟩,
          ⟨"high", Float64.ofRat (5 / 100), 100⟩] :=
  ⟨by decide!, sort_idempotent mathPow _,
    (sort_idempotent mathPow _).trans (by decide!)⟩

/-! ## The annuity formula -/

/-- In exact arithmetic `math.Pow` at the float of a natural number is the power. -/
theorem exactOps_pow_ofInt (x : ℚ) (n : Nat) :
    exactOps.pow x (exactOps.ofInt (n : Int)) = x ^ n := by
  show x ^ (Rat.floor ((n : Int) : ℚ)) = x ^ n
  have h : Rat.floor ((n : Int) : ℚ) = (n : Int) := by
    show ⌊((n : Int) : ℚ)⌋ = (n : Int)
    exact Int.floor_intCast _
  rw [h, zpow_natCast]

/-- In exact arithmetic `math.Pow` at the float of an integer is the power, also for a negative
exponent. -/
theorem exactOps_pow_ofInt_int (x : ℚ) (n : Int) :
    exactOps.pow x (exactOps.ofInt n) = x ^ n := by
  show x ^ (Rat.floor ((n : Int) : ℚ)) = x ^ n
  have h : Rat.floor ((n : Int) : ℚ) = n := by
    show ⌊((n : Int) : ℚ)⌋ = n
    exact Int.floor_intCast _
  rw [h]

/-- The value of calculateMonthlyRate in exact arithmetic, for a term of `n` months. -/
theorem calculateMonthlyRate_exact (r P : ℚ) (n : Nat) :
    calculateMonthlyRate exactOps r (exactOps.ofInt (n : Int)) P
      = P * (r / 12 * (1 + r / 12) ^ n) / ((1 + r / 12) ^ n - 1) := by
  unfold calculateMonthlyRate compoundFrequency
  simp only [exactOps_pow_ofInt]
  simp [exactOps]

/-- The balance after `k` payments in closed form, cleared of the division by `m`. -/
theorem balanceAfter_closed (m p P : ℚ) (k : Nat) :
    m * balanceAfter m p P k = m * P * (1 + m) ^ k - p * ((1 + m) ^ k - 1) := by
  induction k with
  | zero => simp [balanceAfter]
  | succ k ih =>
    simp only [balanceAfter, pow_succ]
    have h : m * (balanceAfter m p P k * (1 + m) - p)
        = (m * balanceAfter m p P k) * (1 + m) - m * p := by ring
    rw [h, ih]
    ring

/-- C13 fails as stated: calculateMonthlyRate works in float64, and its result is the payment
only up to rounding.  For P = 1000, r = 0.12 and n = 1 the float64 formula gives
p = 1009.9999999999991, and the balance after the one payment, B_1 = 1000 * (1 + m) - p, is
not 0: it is about 9.09e-13, both with m = r / 12 in exact arithmetic and with every step in
float64. -/
theorem annuity_rounding_counterexample :
    Float64.ofRat (12 / 100) = Float64.fin (1080863910568919 / 9007199254740992) ∧
    calculateMonthlyRate (float64Ops mathPow) (Float64.ofRat (12 / 100))
        ((float64Ops mathPow).ofInt 1) ((float64Ops mathPow).ofInt 1000)
      = Float64.fin (1110506744053759 / 1099511627776) ∧
    Float64.fin (1110506744053759 / 1099511627776)
      = Float64.ofRat (10099999999999991 / 10000000000000) ∧
    balanceAfter (1080863910568919 / 9007199254740992 / 12)
        (1110506744053759 / 1099511627776) 1000 1 ≠ 0 ∧
    Float64.sub
        (Float64.mul (Float64.fin 1000)
          (Float64.add (Float64.fin 1)
            (Float64.div (Float64.ofRat (12 / 100)) (Float64.fin 12))))
        (Float64.fin (1110506744053759 / 1099511627776))
      = Float64.fin (1 / 1099511627776) :=
  ⟨by decide!, by decide!, by decide!, by decide!, by decide!⟩

/-- C13, amended: in exact arithmetic the contribution is the fixed payment that repays the
principal with compound interest.  For every amount P, annual rate r > 0 and term n >= 1, with
m = r / 12 and p the value of the formula of calculateMonthlyRate(r, n, P) without rounding,
the balance sequence B_0 = P, B_{k+1} = B_k * (1 + m) - p has B_n = 0. -/
theorem annuity_repays_principal (P r : ℚ) (n : Nat) (hr : 0 < r) (hn : 1 ≤ n) :
    balanceAfter (r / 12) (calculateMonthlyRate exactOps r (exactOps.ofInt (n : Int)) P) P n
      = 0 := by
  have hm : (0 : ℚ) < r / 12 := by positivity
  have hq : (1 : ℚ) < (1 + r / 12) ^ n := one_lt_pow₀ (by linarith) (by omega)
  have hd : (1 + r / 12) ^ n - 1 ≠ 0 := ne_of_gt (by linarith)
  have hclosed := balanceAfter_closed (r / 12)
    (calculateMonthlyRate exactOps r (exactOps.ofInt (n : Int)) P) P n
  rw [calculateMonthlyRate_exact, div_mul_cancel₀ _ hd] at hclosed
  have hzero : r / 12 * balanceAfter (r / 12)
      (calculateMonthlyRate exactOps r (exactOps.ofInt (n : Int)) P) P n = 0 := by
    rw [calculateMonthlyRate_exact, hclosed]
    ring
  rcases mul_eq_zero.mp hzero with h | h
  · exact absurd h (ne_of_gt hm)
  · exact h

/-- C13, amended, on 1000 at 12% a year in exact arithmetic: one payment of 1010 repays it in one
month, and two payments of 101000 / 201 repay it in two. -/
theorem annuity_repays_principal_witness :
    calculateMonthlyRate exactOps (12 / 100) (exactOps.ofInt 1) 1000 = 1010 ∧
    balanceAfter (12 / 100 / 12)
      (calculateMonthlyRate exactOps (12 / 100) (exactOps.ofInt ((2 : Nat) : Int)) 1000) 1000 2
      = 0 :=
  ⟨by decide!, annuity_repays_principal 1000 (12 / 100) 2 (by decide!) (by decide)⟩

/-! ## The zero-rate lender -/

/-- The float64 of the integers 0, 1 and 12. -/
theorem float64Ops_ofInt_small (pow : Float64 → Float64 → Float64) :
    (float64Ops pow).ofInt 0 = Float64.fin 0 ∧ (float64Ops pow).ofInt 1 = Float64.fin 1 ∧
    (float64Ops pow).ofInt 12 = Float64.fin 12 := by
  refine ⟨?_, ?_, ?_⟩
  · show Float64.ofRat ((0 : Int) : ℚ) = Float64.fin 0
    decide!
  · show Float64.ofRat ((1 : Int) : ℚ) = Float64.fin 1
    decide!
  · show Float64.ofRat ((12 : Int) : ℚ) = Float64.fin 12
    decide!

/-- A sum with a NaN term is NaN. -/
theorem Float64.add_nan (x : Float64) :
    Float64.add x Float64.nan = Float64.nan ∧ Float64.add Float64.nan x = Float64.nan := by
  cases x <;> simp [Float64.add]

/-- A product with a NaN factor is NaN. -/
theorem Float64.mul_nan (x : Float64) : Float64.mul x Float64.nan = Float64.nan := by
  cases x <;> simp [Float64.mul]

/-- NaN compares `!=` to every float64. -/
theorem Float64.nan_ne (y : Float64) : Float64.ne Float64.nan y = true := by
  cases y <;> simp [Float64.ne]

/-- On a rate of zero the formula of calculateMonthlyRate is `amount * (0 * 1) / (1 - 1)`,
which is NaN in float64 for every amount and every term, `math.Pow(1, y)` being 1. -/
theorem calculateMonthlyRate_zero_rate (pow : Float64 → Float64 → Float64)
    (hpow : ∀ y, pow (Float64.fin 1) y = Float64.fin 1) (term amount : Float64) :
    calculateMonthlyRate (float64Ops pow) (Float64.fin 0) term amount = Float64.nan := by
  obtain ⟨_, h1, h12⟩ := float64Ops_ofInt_small pow
  have hA : Float64.div (Float64.fin 0) (Float64.fin 12) = Float64.fin 0 := by decide!
  have hB : Float64.add (Float64.fin 1) (Float64.fin 0) = Float64.fin 1 := by decide!
  have hC : Float64.mul (Float64.fin 0) (Float64.fin 1) = Float64.fin 0 := by decide!
  have hD : Float64.sub (Float64.fin 1) (Float64.fin 1) = Float64.fin 0 := by decide!
  unfold calculateMonthlyRate compoundFrequency
  rw [h1, h12]
  show Float64.div
      (Float64.mul amount
        (Float64.mul (Float64.div (Float64.fin 0) (Float64.fin 12))
          (pow (Float64.add (Float64.fin 1) (Float64.div (Float64.fin 0) (Float64.fin 12)))
            term)))
      (Float64.sub
        (pow (Float64.add (Float64.fin 1) (Float64.div (Float64.fin 0) (Float64.fin 12))) term)
        (Float64.fin 1)) = Float64.nan
  rw [hA, hB, hpow, hC, hD]
  cases amount <;> simp [Float64.mul, Float64.div, Float64.ofRat, Float64.sign]

/-- A float64 sum to which a NaN term is added stays NaN. -/
theorem foldl_add_nan {α : Type} (f : α → Float64) (l : List α) :
    l.foldl (fun acc p => Float64.add acc (f p)) Float64.nan = Float64.nan := by
  induction l with
  | nil => rfl
  | cons x t ih =>
    simp only [List.foldl_cons, (Float64.add_nan (f x)).2]
    exact ih

/-- A float64 sum with a NaN term is NaN. -/
theorem foldl_add_of_nan {α : Type} (f : α → Float64) (l : List α) :
    ∀ acc : Float64, (∃ p ∈ l, f p = Float64.nan) →
      l.foldl (fun acc p => Float64.add acc (f p)) acc = Float64.nan := by
  induction l with
  | nil => intro acc h; simp at h
  | cons x t ih =>
    intro acc h
    obtain ⟨p, hp, hfp⟩ := h
    simp only [List.foldl_cons]
    rcases List.mem_cons.mp hp with hpx | hpt
    · rw [← hpx, hfp, (Float64.add_nan acc).1]
      exact foldl_add_nan f t
    · exact ih _ ⟨p, hpt, hfp⟩

/-- C14 fails as stated: calculateMonthlyRate has no case for a rate of zero.  For 1000 drawn
at rate 0 over 36 months the formula divides 1000 * (0 * 1) by (1 + 0/12)^36 - 1 = 0, and the
result is NaN, not the float64 1000 / 36 = 27.77777777777778; the quote for 1000 over one
lender at rate 0 has NaN for MonthlyRepayment and for TotalRepayment. -/
theorem zero_rate_counterexample :
    calculateMonthlyRate (float64Ops mathPow) (Float64.fin 0) ((float64Ops mathPow).ofInt 36)
        ((float64Ops mathPow).ofInt 1000) = Float64.nan ∧
    (float64Ops mathPow).div ((float64Ops mathPow).ofInt 1000) ((float64Ops mathPow).ofInt 36)
      = Float64.ofRat (2777777777777778 / 100000000000000) ∧
    Float64.ofRat (2777777777777778 / 100000000000000) ≠ Float64.nan ∧
    ∃ q, (NewQuote (float64Ops mathPow) (insertionSort (float64Ops mathPow)) 1000 36
        [⟨"free", Float64.fin 0, 1000⟩]).1 = Except.ok q ∧
      q.MonthlyRepayment = Float64.nan ∧ q.TotalRepayment = Float64.nan := by
  have hv := NewQuote_of_valid (float64Ops mathPow) (insertionSort (float64Ops mathPow)) 1000 36
    [⟨"free", Float64.fin 0, 1000⟩] (by decide)
  rw [if_neg (by decide!)] at hv
  exact ⟨by decide!, by decide!, by decide!, _, congrArg Prod.fst hv, by decide!, by decide!⟩

/-- C14, amended: the engine defines no behaviour of its own for a zero-rate lender.  For
every drawn amount and every term, the contribution computed for a lender with annualRate = 0
is the outcome of the division of zero by zero, NaN, and not drawnAmount / termMonths (NaN
compares unequal to every float64); and a quote that draws on a zero-rate lender has NaN for
MonthlyRepayment and for TotalRepayment.  `math.Pow(1, y)` is 1 for every y, as the library
documents. -/
theorem zero_rate_contribution (pow : Float64 → Float64 → Float64)
    (hpow : ∀ y, pow (Float64.fin 1) y = Float64.fin 1) :
    (∀ term amount : Float64,
      calculateMonthlyRate (float64Ops pow) (Float64.fin 0) term amount = Float64.nan) ∧
    (∀ drawnAmount termMonths : Int,
      (float64Ops pow).ne
        (calculateMonthlyRate (float64Ops pow) (Float64.fin 0)
          ((float64Ops pow).ofInt termMonths) ((float64Ops pow).ofInt drawnAmount))
        ((float64Ops pow).div ((float64Ops pow).ofInt drawnAmount)
          ((float64Ops pow).ofInt termMonths)) = true) ∧
    (∀ (sortFn : Lenders Float64 → Lenders Float64) (amount loanPeriod : Int)
        (lenders : Lenders Float64) (q : quote Float64),
      (NewQuote (float64Ops pow) sortFn amount loanPeriod lenders).1 = Except.ok q →
      (∃ p ∈ allocation amount (sortFn lenders), p.1.Rate = Float64.fin 0) →
      q.MonthlyRepayment = Float64.nan ∧ q.TotalRepayment = Float64.nan) := by
  refine ⟨calculateMonthlyRate_zero_rate pow hpow, ?_, ?_⟩
  · intro drawnAmount termMonths
    rw [calculateMonthlyRate_zero_rate pow hpow]
    exact Float64.nan_ne _
  · intro sortFn amount loanPeriod lenders q h hz
    obtain ⟨_, _, _, _, hm, ht⟩ :=
      NewQuote_ok (float64Ops pow) sortFn amount loanPeriod lenders q h
    have hmon : q.MonthlyRepayment = Float64.nan := by
      rw [hm]
      unfold contributionSum
      apply foldl_add_of_nan
        (fun p => annuityContribution (float64Ops pow) ((float64Ops pow).ofInt loanPeriod) p)
      obtain ⟨p, hp, hr⟩ := hz
      refine ⟨p, hp, ?_⟩
      have hc := calculateMonthlyRate_zero_rate pow hpow ((float64Ops pow).ofInt loanPeriod)
        ((float64Ops pow).ofInt p.2)
      unfold calculateMonthlyRate compoundFrequency at hc
      unfold annuityContribution
      rw [hr]
      exact hc
    refine ⟨hmon, ?_⟩
    rw [ht, hmon]
    exact Float64.mul_nan _

/-- C14, amended, with the stand-in for math.Pow: 1000 at rate 0 over 36 months. -/
theorem zero_rate_contribution_witness :
    calculateMonthlyRate (float64Ops mathPow) (Float64.fin 0) ((float64Ops mathPow).ofInt 36)
        ((float64Ops mathPow).ofInt 1000) = Float64.nan :=
  (zero_rate_contribution mathPow (by intro y; simp [mathPow])).1 _ _

/-! ## What the validation errors carry -/

/-- The 'too low' message contains the amount and the minimum. -/
theorem errTooLow_occurs (a : Int) :
    occursIn (toString a) (errTooLow a) ∧ occursIn "1000" (errTooLow a) := by
  unfold occursIn errTooLow
  rw [toString_MinAmount]
  simp only [String.data_append]
  constructor
  · rw [List.append_assoc]
    exact List.infix_append _ _ _
  · exact (List.suffix_append _ _).isInfix

/-- The 'too high' message contains the amount and the maximum. -/
theorem errTooHigh_occurs (a : Int) :
    occursIn (toString a) (errTooHigh a) ∧ occursIn "15000" (errTooHigh a) := by
  unfold occursIn errTooHigh
  rw [toString_MaxAmount]
  simp only [String.data_append]
  constructor
  · rw [List.append_assoc]
    exact List.infix_append _ _ _
  · exact (List.suffix_append _ _).isInfix

/-- C15 fails as stated: the error for an amount that is not a multiple of 100 is a fixed
text without the amount.  For 1050 it is 'Loan amount must be a multiple of £100', in which
1050 does not occur. -/
theorem validate_error_context_counterexample :
    (⟨[], 36, 1050, 0, 0, 0⟩ : quote ℚ).validate
      = some "Loan amount must be a multiple of £100" ∧
    ¬ occursIn (toString (1050 : Int)) "Loan amount must be a multiple of £100" := by
  constructor
  · decide
  · decide

/-- C15, amended: the errors for an amount out of range carry the amount and the bound: for
every amount under 1000 the error contains the amount and 1000, and for every amount over
15000 it contains the amount and 15000.  The error for an amount in range that is not a
multiple of 100 is the same text for every such amount, 'Loan amount must be a multiple of
£100': it contains the bound 100 and not the amount. -/
theorem validate_error_context {F : Type} (q : quote F) :
    (q.RequestedAmount < 1000 →
      ∃ e, q.validate = some e ∧ occursIn (toString q.RequestedAmount) e ∧
        occursIn "1000" e) ∧
    (q.RequestedAmount > 15000 →
      ∃ e, q.validate = some e ∧ occursIn (toString q.RequestedAmount) e ∧
        occursIn "15000" e) ∧
    ((1000 ≤ q.RequestedAmount ∧ q.RequestedAmount ≤ 15000) ∧
        ¬ (100 : Int) ∣ q.RequestedAmount →
      q.validate = some "Loan amount must be a multiple of £100" ∧
        occursIn "100" "Loan amount must be a multiple of £100") := by
  refine ⟨?_, ?_, ?_⟩
  · intro h
    refine ⟨errTooLow q.RequestedAmount, ?_, errTooLow_occurs _⟩
    unfold quote.validate MinAmount
    rw [if_pos h]
  · intro h
    refine ⟨errTooHigh q.RequestedAmount, ?_, errTooHigh_occurs _⟩
    unfold quote.validate MinAmount MaxAmount
    rw [if_neg (by omega), if_pos h]
  · intro h
    refine ⟨?_, by decide⟩
    unfold quote.validate MinAmount MaxAmount
    rw [if_neg (by omega), if_neg (by omega),
      if_pos (fun h0 => h.2 ((tmod_hundred_eq_zero_iff _).mp h0))]
    rfl

/-- C15, amended, on 999: the error contains 999 and 1000. -/
theorem validate_error_context_witness :
    ∃ e, (⟨[], 36, 999, 0, 0, 0⟩ : quote ℚ).validate = some e ∧
      occursIn (toString (999 : Int)) e ∧ occursIn "1000" e :=
  (validate_error_context (⟨[], 36, 999, 0, 0, 0⟩ : quote ℚ)).1 (by decide)

/-! ## The text of a quote -/

/-- A decimal digit is not a line break. -/
theorem digitChar_ne_newline (n : Nat) (h : n < 10) : Nat.digitChar n ≠ '\n' := by
  interval_cases n <;> decide

/-- The digits of a natural number hold no line break. -/
theorem toDigitsCore_no_newline (fuel : Nat) : ∀ (n : Nat) (ds : List Char),
    '\n' ∉ ds → '\n' ∉ Nat.toDigitsCore 10 fuel n ds := by
  induction fuel with
  | zero => intro n ds h; simpa [Nat.toDigitsCore] using h
  | succ f ih =>
    intro n ds h
    simp only [Nat.toDigitsCore]
    have hd : '\n' ∉ Nat.digitChar (n % 10) :: ds := by
      simp only [List.mem_cons, not_or]
      exact ⟨fun e => digitChar_ne_newline _ (Nat.mod_lt _ (by decide)) e.symm, h⟩
    split_ifs
    · exact hd
    · exact ih _ _ hd

/-- The decimal form of a natural number holds no line break. -/
theorem nat_toString_no_newline (n : Nat) : '\n' ∉ (toString n).data := by
  show '\n' ∉ (Nat.repr n).data
  unfold Nat.repr Nat.toDigits
  simpa [List.asString] using toDigitsCore_no_newline _ n [] (by simp)

/-- The decimal form of an integer, as `%d` prints it, holds no line break. -/
theorem int_toString_no_newline (i : Int) : '\n' ∉ (toString i).data := by
  cases i with
  | ofNat m => exact nat_toString_no_newline m
  | negSucc m =>
    show '\n' ∉ ("-" ++ toString (Nat.succ m)).data
    rw [String.data_append, List.mem_append, not_or]
    exact ⟨by decide, nat_toString_no_newline _⟩

/-- The formatting `formatFixed` gives no line break. -/
theorem formatFixed_no_newline (prec : Nat) (x : ℚ) : '\n' ∉ (formatFixed prec x).data := by
  have hn := nat_toString_no_newline
  unfold formatFixed padZeros
  simp only
  split_ifs <;>
    simp [String.data_append, List.mem_append, List.mem_replicate, hn]

/-- C16: for every quote, String returns four lines separated by single line breaks, in the
fixed order 'Requested amount: £' with the integer amount, 'Rate: ' with rate * 100 to one
decimal and '%', 'Monthly repayment: £' to two decimals, 'Total repayment: £' to two decimals;
no line holds a line break when the formatting of a float gives none. -/
theorem String_four_lines {F : Type} (ops : FloatOps F) (fmtF : Nat → F → String)
    (q : quote F) :
    q.String ops fmtF
      = ("Requested amount: £" ++ toString q.RequestedAmount) ++ "\n"
        ++ ("Rate: " ++ fmtF 1 (ops.mul q.Rate (ops.ofInt 100)) ++ "%") ++ "\n"
        ++ ("Monthly repayment: £" ++ fmtF 2 q.MonthlyRepayment) ++ "\n"
        ++ ("Total repayment: £" ++ fmtF 2 q.TotalRepayment) ∧
    ((∀ prec x, '\n' ∉ (fmtF prec x).data) →
      '\n' ∉ ("Requested amount: £" ++ toString q.RequestedAmount).data ∧
      '\n' ∉ ("Rate: " ++ fmtF 1 (ops.mul q.Rate (ops.ofInt 100)) ++ "%").data ∧
      '\n' ∉ ("Monthly repayment: £" ++ fmtF 2 q.MonthlyRepayment).data ∧
      '\n' ∉ ("Total repayment: £" ++ fmtF 2 q.TotalRepayment).data) := by
  constructor
  · simp [quote.String, noLines, String.intercalate, String.intercalate.go]
  · intro hf
    have hi := int_toString_no_newline q.RequestedAmount
    refine ⟨?_, ?_, ?_, ?_⟩
    · rw [String.data_append, List.mem_append, not_or]
      exact ⟨by decide, hi⟩
    · rw [String.data_append, String.data_append, List.mem_append, List.mem_append, not_or,
        not_or]
      exact ⟨⟨by decide, hf _ _⟩, by decide⟩
    · rw [String.data_append, List.mem_append, not_or]
      exact ⟨by decide, hf _ _⟩
    · rw [String.data_append, List.mem_append, not_or]
      exact ⟨by decide, hf _ _⟩

/-- C16 on the quote of the tests: amount 1200, rate 0.054, monthly 36.1820946786, total
1302.5554084. -/
theorem String_four_lines_witness :
    (⟨[], 36, 1200, 54 / 1000, 361820946786 / 10000000000, 13025554084 / 10000000⟩ :
        quote ℚ).String exactOps formatFixed
      = "Requested amount: £1200\nRate: 5.4%\nMonthly repayment: £36.18\nTotal repayment: £1302.56" :=
  (String_four_lines exactOps formatFixed
    (⟨[], 36, 1200, 54 / 1000, 361820946786 / 10000000000, 13025554084 / 10000000⟩ :
      quote ℚ)).1.trans (by decide!)

/-! ## The import of lenders -/

/-- After the header, records that all parse are turned into lenders in order and appended. -/
theorem importLoop_all_parse {F : Type} (parseFloat : String → Except String F)
    (atoi : String → Except String Int) (records : List (List String)) :
    ∀ (lineNo : Int) (lenders : Lenders F), 1 < lineNo →
      (∀ r ∈ records, (lenderOfRecord parseFloat atoi r).isSome) →
      importLoop parseFloat atoi records lineNo lenders
        = (lenders ++ records.filterMap (lenderOfRecord parseFloat atoi), none) := by
  induction records with
  | nil => intro lineNo lenders _ _; simp [importLoop]
  | cons r rest ih =>
    intro lineNo lenders hl hall
    have hr := hall r (List.mem_cons_self _ _)
    have hrest : ∀ x ∈ rest, (lenderOfRecord parseFloat atoi x).isSome :=
      fun x hx => hall x (List.mem_cons_of_mem _ hx)
    unfold lenderOfRecord at hr
    simp only [importLoop, if_pos hl, csvRateIndex, csvAmountIndex, csvNameIndex]
    cases hpf : parseFloat (field r 1) with
    | error e => simp [hpf] at hr
    | ok rate =>
      cases hat : atoi (field r 2) with
      | error e => simp [hpf, hat] at hr
      | ok available =>
        simp only []
        rw [ih (lineNo + 1) _ (by omega) hrest]
        simp [lenderOfRecord, hpf, hat]

/-- Records that all parse give one lender each. -/
theorem filterMap_length_of_isSome {α β : Type} (f : α → Option β) (l : List α)
    (h : ∀ x ∈ l, (f x).isSome) : (l.filterMap f).length = l.length := by
  induction l with
  | nil => rfl
  | cons a t ih =>
    obtain ⟨b, hb⟩ := Option.isSome_iff_exists.mp (h a (List.mem_cons_self _ _))
    rw [List.filterMap_cons_some hb, List.length_cons, List.length_cons,
      ih (fun x hx => h x (List.mem_cons_of_mem _ hx))]

/-- After the header, the first record that does not parse stops the import with its row
number and the field that failed, the rate being tried first. -/
theorem importLoop_first_bad {F : Type} (parseFloat : String → Except String F)
    (atoi : String → Except String Int) (good : List (List String)) :
    ∀ (bad : List String) (rest : List (List String)) (lineNo : Int) (lenders : Lenders F),
      1 < lineNo →
      (∀ r ∈ good, (lenderOfRecord parseFloat atoi r).isSome) →
      lenderOfRecord parseFloat atoi bad = none →
      ∃ cause fld,
        importLoop parseFloat atoi (good ++ bad :: rest) lineNo lenders
          = ([], some { Cause := cause, LineNo := lineNo + good.length, Field := fld }) ∧
        ((parseFloat (field bad 1) = Except.error cause ∧ fld = "rate") ∨
          (∃ rate, parseFloat (field bad 1) = Except.ok rate ∧
            atoi (field bad 2) = Except.error cause ∧ fld = "available")) := by
  induction good with
  | nil =>
    intro bad rest lineNo lenders hl _ hbad
    unfold lenderOfRecord at hbad
    simp only [List.nil_append, importLoop, if_pos hl, csvRateIndex, csvAmountIndex,
      List.length_nil, Int.ofNat_zero, add_zero]
    cases hpf : parseFloat (field bad 1) with
    | error e =>
      exact ⟨e, "rate", by simp [NewFieldParseError], Or.inl ⟨rfl, rfl⟩⟩
    | ok rate =>
      cases hat : atoi (field bad 2) with
      | error e =>
        exact ⟨e, "available", by simp [NewFieldParseError], Or.inr ⟨rate, rfl, rfl, rfl⟩⟩
      | ok available => simp [hpf, hat] at hbad
  | cons r good ih =>
    intro bad rest lineNo lenders hl hall hbad
    have hr := hall r (List.mem_cons_self _ _)
    have hgood : ∀ x ∈ good, (lenderOfRecord parseFloat atoi x).isSome :=
      fun x hx => hall x (List.mem_cons_of_mem _ hx)
    unfold lenderOfRecord at hr
    have hc : (r :: good) ++ bad :: rest = r :: (good ++ bad :: rest) := rfl
    have hlen : lineNo + (((r :: good).length : Nat) : Int)
        = lineNo + 1 + ((good.length : Nat) : Int) := by
      rw [List.length_cons]
      push_cast
      ring
    rw [hc, hlen]
    simp only [importLoop, if_pos hl, csvRateIndex, csvAmountIndex, csvNameIndex]
    cases hpf : parseFloat (field r 1) with
    | error e => simp [hpf] at hr
    | ok rate =>
      cases hat : atoi (field r 2) with
      | error e => simp [hpf, hat] at hr
      | ok available =>
        simp only []
        exact ih bad rest (lineNo + 1)
          (lenders ++ [{ Name := field r 0, Rate := rate, Available := available }])
          (by omega) hgood hbad

/-- C17: for every sequence of three-field records, the loader skips the first (header)
record.  If every later record has a parseable rate and available, it returns one lender per
later record, in file order, and no error.  Otherwise it returns no lenders and a
FieldParseError for the first malformed record: LineNo is the row number of that record,
counted from 1 with the header, and Field is 'rate' when the rate does not parse, and
'available' when the rate parses and the amount does not. -/
theorem ImportCSV_spec {F : Type} (parseFloat : String → Except String F)
    (atoi : String → Except String Int) :
    (ImportCSV parseFloat atoi [] = (([] : Lenders F), none)) ∧
    (∀ (header : List String) (later : List (List String)),
      (∀ r ∈ header :: later, r.length = 3) →
      (∀ r ∈ later, (lenderOfRecord parseFloat atoi r).isSome) →
      ImportCSV parseFloat atoi (header :: later)
          = (later.filterMap (lenderOfRecord parseFloat atoi), none) ∧
        (later.filterMap (lenderOfRecord parseFloat atoi)).length = later.length) ∧
    (∀ (header : List String) (good : List (List String)) (bad : List String)
        (rest : List (List String)),
      (∀ r ∈ header :: (good ++ bad :: rest), r.length = 3) →
      (∀ r ∈ good, (lenderOfRecord parseFloat atoi r).isSome) →
      lenderOfRecord parseFloat atoi bad = none →
      ∃ cause fld,
        ImportCSV parseFloat atoi (header :: (good ++ bad :: rest))
          = ([], some { Cause := cause, LineNo := (good.length : Int) + 2, Field := fld }) ∧
        ((parseFloat (field bad 1) = Except.error cause ∧ fld = "rate") ∨
          (∃ rate, parseFloat (field bad 1) = Except.ok rate ∧
            atoi (field bad 2) = Except.error cause ∧ fld = "available"))) := by
  refine ⟨rfl, ?_, ?_⟩
  · intro header later _ hall
    constructor
    · unfold ImportCSV
      simp only [importLoop]
      rw [if_neg (by decide), importLoop_all_parse parseFloat atoi later _ _ (by decide) hall]
      simp
    · exact filterMap_length_of_isSome _ later hall
  · intro header good bad rest _ hall hbad
    obtain ⟨cause, fld, heq, hfld⟩ :=
      importLoop_first_bad parseFloat atoi good bad rest (1 + 1) [] (by decide) hall hbad
    refine ⟨cause, fld, ?_, hfld⟩
    unfold ImportCSV
    simp only [importLoop]
    rw [if_neg (by decide), heq]
    have : (1 : Int) + 1 + (good.length : Int) = (good.length : Int) + 2 := by ring
    rw [this]

/-- C17 on the files of the tests: two good records after the header give two lenders, and a
bad rate in the fourth row gives 'Error unmarshalling rate field on line 4' with its cause. -/
theorem ImportCSV_spec_witness :
    ImportCSV sampleParseFloat sampleAtoi
        [["Lender", "Rate", "Available"], ["Lender1", "0.075", "640"],
          ["Lender2", "0.069", "480"]]
      = ([⟨"Lender1", 75 / 1000, 640⟩, ⟨"Lender2", 69 / 1000, 480⟩], none) ∧
    (ImportCSV sampleParseFloat sampleAtoi
        [["Lender", "Rate", "Available"], ["Lender1", "0.075", "640"],
          ["Lender2", "0.069", "480"], ["Lender3", "bad_rate", "100"]]).2.map
        FieldParseError.Error
      = some ("Error unmarshalling rate field on line 4. Cause: "
          ++ "strconv.ParseFloat: parsing \"bad_rate\": invalid syntax") ∧
    ∃ cause fld,
      ImportCSV sampleParseFloat sampleAtoi
          (["Lender", "Rate", "Available"] ::
            ([["Lender1", "0.075", "640"], ["Lender2", "0.069", "480"]]
              ++ ["Lender3", "bad_rate", "100"] :: []))
        = ([], some { Cause := cause, LineNo := ((2 : Nat) : Int) + 2, Field := fld }) ∧
      ((sampleParseFloat (field ["Lender3", "bad_rate", "100"] 1) = Except.error cause ∧
          fld = "rate") ∨
        (∃ rate, sampleParseFloat (field ["Lender3", "bad_rate", "100"] 1) = Except.ok rate ∧
          sampleAtoi (field ["Lender3", "bad_rate", "100"] 2) = Except.error cause ∧
          fld = "available")) :=
  ⟨by decide!, by decide!,
    (ImportCSV_spec sampleParseFloat sampleAtoi).2.2 ["Lender", "Rate", "Available"]
      [["Lender1", "0.075", "640"], ["Lender2", "0.069", "480"]]
      ["Lender3", "bad_rate", "100"] [] (by decide) (by decide!) (by decide!)⟩

/-! ## The short-circuit -/

/-- Once the loop has ended on a first part of the pool with no balance left, the lenders
after that part are not consulted. -/
theorem calculateLoop_append_of_zero {F : Type} (ops : FloatOps F) (fPeriod : F)
    (A : Lenders F) :
    ∀ (B : Lenders F) (s : LoopState F), A ≠ [] →
      (calculateLoop ops fPeriod A s).balance = 0 →
      calculateLoop ops fPeriod (A ++ B) s = calculateLoop ops fPeriod A s := by
  induction A with
  | nil => intro B s h _; exact absurd rfl h
  | cons a rest ih =>
    intro B s _ hz
    simp only [List.cons_append, calculateLoop] at hz ⊢
    split_ifs at hz ⊢ with h0
    · rfl
    · have hne : rest ≠ [] := by
        intro he
        rw [he] at hz
        simp only [calculateLoop] at hz
        exact h0 hz
      exact ih B _ hne hz

/-- In a sorted slice a lender at a smaller index has at most the rate of one at a larger
index. -/
theorem rate_le_of_sorted {F : Type} {ops : FloatOps F} {ok : F → Prop}
    (ho : OrderedOn ops ok) (S : Lenders F) (hok : ∀ l ∈ S, ok l.Rate)
    (hS : S.Pairwise (Lender.notAfter ops)) (i k : Nat) (hik : i ≤ k) (hk : k < S.length) :
    ops.lt (S[i]).Rate (S[k]).Rate = true ∨ (S[i]).Rate = (S[k]).Rate := by
  have hi : i < S.length := lt_of_le_of_lt hik hk
  rcases Nat.lt_or_eq_of_le hik with hlt | heq
  · have h := (List.pairwise_iff_getElem.mp hS) i k hi hk hlt
    rcases (Lender.less_eq_false_iff ho _ _ (hok _ (List.mem_iff_getElem.mpr ⟨i, hi, rfl⟩))
      (hok _ (List.mem_iff_getElem.mpr ⟨k, hk, rfl⟩))).mp h with h1 | ⟨h1, _⟩
    · exact Or.inl h1
    · exact Or.inr h1
  · subst heq
    exact Or.inr rfl

/-- Adding lenders whose rates are all above the rate at index `k` of the sorted pool leaves
the keys of the first `k + 1` lenders of the sorted pool as they are. -/
theorem take_key_eq_of_added {F : Type} {ops : FloatOps F} {ok : F → Prop}
    (ho : OrderedOn ops ok) (S S1 E : Lenders F) (hokS : ∀ l ∈ S, ok l.Rate)
    (hokE : ∀ l ∈ E, ok l.Rate)
    (hS : S.Pairwise (Lender.notAfter ops)) (hS1 : S1.Pairwise (Lender.notAfter ops))
    (hp : S1.Perm (S ++ E)) (k : Nat) (hk : k < S.length)
    (hE : ∀ e ∈ E, ops.lt (S[k]).Rate e.Rate = true) :
    (S1.take (k + 1)).map Lender.key = (S.take (k + 1)).map Lender.key := by
  have hsplit : S.take (k + 1) ++ S.drop (k + 1) = S := List.take_append_drop _ _
  have hS2 := hS
  rw [← hsplit, List.pairwise_append] at hS2
  obtain ⟨hA, _, hcross⟩ := hS2
  have hokk : ok (S[k]).Rate := hokS _ (List.mem_iff_getElem.mpr ⟨k, hk, rfl⟩)
  have hrate : ∀ a ∈ S.take (k + 1),
      ops.lt a.Rate (S[k]).Rate = true ∨ a.Rate = (S[k]).Rate := by
    intro a ha
    obtain ⟨i, hi, hai⟩ := List.mem_take_iff_getElem.mp ha
    have hi1 : i ≤ k := by
      have := lt_of_lt_of_le hi (min_le_left _ _)
      omega
    rw [← hai]
    exact rate_le_of_sorted ho S hokS hS i k hi1 hk
  have hokD : ∀ l ∈ S.drop (k + 1) ++ E, ok l.Rate := by
    intro l hl
    rcases List.mem_append.mp hl with h | h
    · exact hokS l (List.mem_of_mem_drop h)
    · exact hokE l h
  have hTsorted : (S.take (k + 1) ++ insertionSort ops (S.drop (k + 1) ++ E)).Pairwise
      (Lender.notAfter ops) := by
    rw [List.pairwise_append]
    refine ⟨hA, insertionSort_pairwise ops _ (Lenders.ordering_of_orderedOn ho _ hokD), ?_⟩
    intro a ha b hb
    have hb1 : b ∈ S.drop (k + 1) ++ E := (insertionSort_perm ops _).mem_iff.mp hb
    rcases List.mem_append.mp hb1 with hbD | hbE
    · exact hcross a ha b hbD
    · have hoka : ok a.Rate := hokS a (List.mem_of_mem_take ha)
      refine (Lender.less_eq_false_iff ho a b hoka (hokE b hbE)).mpr (Or.inl ?_)
      rcases hrate a ha with h1 | h1
      · exact ho.lt_trans _ _ _ hoka hokk (hokE b hbE) h1 (hE b hbE)
      · rw [h1]
        exact hE b hbE
  have hTperm : S1.Perm (S.take (k + 1) ++ insertionSort ops (S.drop (k + 1) ++ E)) := by
    refine hp.trans ?_
    have h1 : (S ++ E).Perm (S.take (k + 1) ++ (S.drop (k + 1) ++ E)) := by
      rw [← List.append_assoc, hsplit]
    exact h1.trans (List.Perm.append_left _ (insertionSort_perm ops _).symm)
  have hokS1 : ∀ l ∈ S1, ok l.Rate := by
    intro l hl
    rcases List.mem_append.mp (hp.mem_iff.mp hl) with h | h
    · exact hokS l h
    · exact hokE l h
  have hkey := key_eq_of_perm_of_sorted ho _ _ hokS1 hTperm hS1 hTsorted
  have hlen : (S.take (k + 1)).length = k + 1 := by
    rw [List.length_take]
    exact min_eq_left (by omega)
  rw [List.map_take, hkey, ← List.map_take, List.take_left' hlen]

/-- On a pool with non-negative availables that funds the amount, the loop has no balance
left after the first `k + 1` sorted lenders, `k` being the position of the waterfall. -/
theorem calculateLoop_take_zero {F : Type} (ops : FloatOps F) (fPeriod : F) (S : Lenders F)
    (s : LoopState F) (hnn : ∀ l ∈ S, 0 ≤ l.Available) (h0 : 0 ≤ s.balance)
    (h1 : s.balance < 9223372036854775808) (k : Nat) (hk : k < S.length)
    (hle : s.balance - ((S.take k).map (fun l => l.Available)).sum ≤ (S[k]).Available) :
    (calculateLoop ops fPeriod (S.take (k + 1)) s).balance = 0 := by
  have hnnA : ∀ l ∈ S.take (k + 1), 0 ≤ l.Available :=
    fun l hl => hnn l (List.mem_of_mem_take hl)
  rw [calculateLoop_balance_nonneg ops fPeriod (S.take (k + 1)) s hnnA h0 h1]
  have hsum : ((S.take (k + 1)).map (fun l => l.Available)).sum
      = ((S.take k).map (fun l => l.Available)).sum + (S[k]).Available := by
    rw [List.take_succ, List.getElem?_eq_getElem hk]
    simp only [Option.toList, List.map_append, List.sum_append, List.map_cons, List.map_nil,
      List.sum_cons, List.sum_nil, add_zero]
  rw [hsum]
  exact max_eq_left (by omega)

/-- C18 fails as stated, in two ways.  A rate can be NaN: on the pool n (NaN, 500),
b (0.03, 1000) the request of 1000 succeeds, the last lender drawn from is b, and the quote has
the rate NaN; with the lender e (0.04, 1000) added, which ranks after b, the sort leaves the
pool e, n, b as it is and the quote has the rate 0.04.  And a request can succeed without the
balance reaching zero, the subtraction `balance -= amount` wrapping around: over the one lender
a (0.01, -2^63) the balance for 1000 becomes 1000 - 2^63 < 0 and the quote is returned; a
further lender e (0.02, 0), ranked after a, is then consulted, and the Rate changes. -/
theorem added_lenders_counterexample :
    (∃ q q1,
      (NewQuote (float64Ops mathPow) (insertionSort (float64Ops mathPow)) 1000 36
          [⟨"n", Float64.nan, 500⟩, ⟨"b", Float64.ofRat (3 / 100), 1000⟩]).1 = Except.ok q ∧
      (allocation 1000 (insertionSort (float64Ops mathPow)
          [⟨"n", Float64.nan, 500⟩, ⟨"b", Float64.ofRat (3 / 100), 1000⟩])).getLast?
        = some (⟨"b", Float64.ofRat (3 / 100), 1000⟩, 500) ∧
      Float64.lt (Float64.ofRat (3 / 100)) (Float64.ofRat (4 / 100)) = true ∧
      List.Perm ([⟨"e", Float64.ofRat (4 / 100), 1000⟩, ⟨"n", Float64.nan, 500⟩,
          ⟨"b", Float64.ofRat (3 / 100), 1000⟩] : Lenders Float64)
        ([⟨"n", Float64.nan, 500⟩, ⟨"b", Float64.ofRat (3 / 100), 1000⟩] ++
            [⟨"e", Float64.ofRat (4 / 100), 1000⟩]) ∧
      (NewQuote (float64Ops mathPow) (insertionSort (float64Ops mathPow)) 1000 36
          [⟨"e", Float64.ofRat (4 / 100), 1000⟩, ⟨"n", Float64.nan, 500⟩,
            ⟨"b", Float64.ofRat (3 / 100), 1000⟩]).1 = Except.ok q1 ∧
      q.Rate = Float64.nan ∧ q1.Rate = Float64.ofRat (4 / 100) ∧ q1.Rate ≠ q.Rate) ∧
    (∃ q q1,
      (NewQuote (float64Ops mathPow) (insertionSort (float64Ops mathPow)) 1000 36
          [⟨"a", Float64.ofRat (1 / 100), -9223372036854775808⟩]).1 = Except.ok q ∧
      (allocation 1000 (insertionSort (float64Ops mathPow)
          [⟨"a", Float64.ofRat (1 / 100), -9223372036854775808⟩])).getLast?
        = some (⟨"a", Float64.ofRat (1 / 100), -9223372036854775808⟩, -9223372036854775808) ∧
      Float64.lt (Float64.ofRat (1 / 100)) (Float64.ofRat (1 / 50)) = true ∧
      (NewQuote (float64Ops mathPow) (insertionSort (float64Ops mathPow)) 1000 36
          ([⟨"a", Float64.ofRat (1 / 100), -9223372036854775808⟩] ++
            [⟨"e", Float64.ofRat (1 / 50), 0⟩])).1 = Except.ok q1 ∧
      q1.Rate ≠ q.Rate) := by
  have hn := NewQuote_of_valid (float64Ops mathPow) (insertionSort (float64Ops mathPow)) 1000 36
      [⟨"n", Float64.nan, 500⟩, ⟨"b", Float64.ofRat (3 / 100), 1000⟩] (by decide)
  rw [if_neg (by decide!)] at hn
  have hn1 := NewQuote_of_valid (float64Ops mathPow) (insertionSort (float64Ops mathPow)) 1000 36
      [⟨"e", Float64.ofRat (4 / 100), 1000⟩, ⟨"n", Float64.nan, 500⟩,
        ⟨"b", Float64.ofRat (3 / 100), 1000⟩] (by decide)
  rw [if_neg (by decide!)] at hn1
  have hv := NewQuote_of_valid (float64Ops mathPow) (insertionSort (float64Ops mathPow)) 1000 36
      [⟨"a", Float64.ofRat (1 / 100), -9223372036854775808⟩] (by decide)
  rw [if_neg (by decide!)] at hv
  have hv1 := NewQuote_of_valid (float64Ops mathPow) (insertionSort (float64Ops mathPow)) 1000 36
      ([⟨"a", Float64.ofRat (1 / 100), -9223372036854775808⟩] ++ [⟨"e", Float64.ofRat (1 / 50), 0⟩])
      (by decide)
  rw [if_neg (by decide!)] at hv1
  exact ⟨⟨_, _, congrArg Prod.fst hn, by decide!, by decide!, by decide!, congrArg Prod.fst hn1,
      by decide!, by decide!, by decide!⟩,
    ⟨_, _, congrArg Prod.fst hv, by decide!, by decide!, congrArg Prod.fst hv1, by decide!⟩⟩

/-- C18, amended: for every request that succeeds on a pool L with non-negative availables and
no NaN rate, the balance reaches zero at the last lender drawn from, and the lenders ranked
after it are not consulted: a pool made of L and of any further lenders that all have a higher
rate than the last lender drawn from gives a quote with the same Rate, MonthlyRepayment and
TotalRepayment, whatever the availables of the added lenders are. -/
theorem added_lenders_not_consulted (pow : Float64 → Float64 → Float64)
    (sortFn : Lenders Float64 → Lenders Float64) (hs : SortContract (float64Ops pow) sortFn)
    (amount loanPeriod : Int) (L E pool : Lenders Float64) (q : quote Float64)
    (h : (NewQuote (float64Ops pow) sortFn amount loanPeriod L).1 = Except.ok q)
    (hnn : ∀ l ∈ L, 0 ≤ l.Available) (hnan : ∀ l ∈ L, l.Rate ≠ Float64.nan)
    (hpool : pool.Perm (L ++ E))
    (hE : ∀ p, (allocation amount (sortFn L)).getLast? = some p →
      ∀ e ∈ E, Float64.lt p.1.Rate e.Rate = true) :
    ∃ q1, (NewQuote (float64Ops pow) sortFn amount loanPeriod pool).1 = Except.ok q1 ∧
      q1.Rate = q.Rate ∧ q1.MonthlyRepayment = q.MonthlyRepayment ∧
      q1.TotalRepayment = q.TotalRepayment := by
  have ho := float64Ops_orderedOn pow
  have hlt : ∀ x y : Float64, Float64.lt x y = true → y ≠ Float64.nan :=
    fun x y hxy => (Float64.ne_nan_of_lt x y hxy).2
  obtain ⟨hv, hb, _⟩ := NewQuote_ok (float64Ops pow) sortFn amount loanPeriod L q h
  have hnn1 : ∀ l ∈ sortFn L, 0 ≤ l.Available :=
    fun l hl => hnn l ((hs.perm L).mem_iff.mp hl)
  have hbal := calculateLoop_balance_nonneg (float64Ops pow)
    ((float64Ops pow).ofInt loanPeriod) (sortFn L)
    { balance := amount, blendedRate := (float64Ops pow).ofInt 0,
      MonthlyRepayment := (float64Ops pow).ofInt 0, drawn := [] }
    hnn1 (by simp only; omega) (by simp only; omega)
  simp only at hbal
  rw [hbal] at hb
  have hfund : amount ≤ ((sortFn L).map (fun l => l.Available)).sum := by
    by_contra hlt
    exact hb (lt_max_of_lt_right (by omega))
  obtain ⟨k, hk, heq, _, hle⟩ :=
    allocation_waterfall (sortFn L) amount hnn1 (by omega) (by omega) hfund
  have hlast : (allocation amount (sortFn L)).getLast?
      = some ((sortFn L)[k],
          amount - (((sortFn L).take k).map (fun l => l.Available)).sum) := by
    rw [heq, List.getLast?_concat]
  have hE1 : ∀ e ∈ E, Float64.lt ((sortFn L)[k]).Rate e.Rate = true := hE _ hlast
  have hperm : (sortFn pool).Perm (sortFn L ++ E) :=
    ((hs.perm pool).trans hpool).trans (List.Perm.append_right E (hs.perm L).symm)
  have hnanE : ∀ e ∈ E, e.Rate ≠ Float64.nan := fun e he => hlt _ _ (hE1 e he)
  have hnanpool : ∀ l ∈ pool, l.Rate ≠ Float64.nan := by
    intro l hl
    rcases List.mem_append.mp (hpool.mem_iff.mp hl) with h1 | h1
    · exact hnan l h1
    · exact hnanE l h1
  have hnanS : ∀ l ∈ sortFn L, l.Rate ≠ Float64.nan :=
    fun l hl => hnan l ((hs.perm L).mem_iff.mp hl)
  have hkeys := take_key_eq_of_added ho (sortFn L) (sortFn pool) E hnanS hnanE
    (hs.pairwise ho L hnan) (hs.pairwise ho pool hnanpool) hperm k hk hE1
  have hzA := calculateLoop_take_zero (float64Ops pow)
    ((float64Ops pow).ofInt loanPeriod) (sortFn L)
    { balance := amount, blendedRate := (float64Ops pow).ofInt 0,
      MonthlyRepayment := (float64Ops pow).ofInt 0, drawn := [] }
    hnn1 (by simp only; omega) (by simp only; omega) k hk hle
  have hlenA : ((sortFn L).take (k + 1)).length = k + 1 := by
    rw [List.length_take]
    exact min_eq_left (by omega)
  have hneA : (sortFn L).take (k + 1) ≠ [] := by
    intro he
    rw [he] at hlenA
    simp at hlenA
  have hneA1 : (sortFn pool).take (k + 1) ≠ [] := by
    intro he
    rw [he] at hkeys
    have := congrArg List.length hkeys
    rw [List.length_map, List.length_map, hlenA] at this
    simp at this
  have hA1 := calculateLoop_congr_key (float64Ops pow) ((float64Ops pow).ofInt loanPeriod)
    ((sortFn pool).take (k + 1)) ((sortFn L).take (k + 1))
    { balance := amount, blendedRate := (float64Ops pow).ofInt 0,
      MonthlyRepayment := (float64Ops pow).ofInt 0, drawn := [] } hkeys
  have hS := calculateLoop_append_of_zero (float64Ops pow) ((float64Ops pow).ofInt loanPeriod)
    ((sortFn L).take (k + 1)) ((sortFn L).drop (k + 1)) _ hneA hzA
  rw [List.take_append_drop] at hS
  have hS1 := calculateLoop_append_of_zero (float64Ops pow) ((float64Ops pow).ofInt loanPeriod)
    ((sortFn pool).take (k + 1)) ((sortFn pool).drop (k + 1)) _ hneA1 (by rw [hA1]; exact hzA)
  rw [List.take_append_drop] at hS1
  have hloop := (hS.trans hA1.symm).trans hS1.symm
  rcases NewQuote_eq_of_loop_eq (float64Ops pow) sortFn amount loanPeriod L pool hv hloop with
    ⟨err, herr, _⟩ | ⟨q0, q1, hq0, hq1, hr, hm, ht⟩
  · rw [h] at herr
    simp at herr
  · rw [h] at hq0
    have hqq : q = q0 := by
      simpa using hq0
    rw [hqq]
    exact ⟨q1, hq1, hr.symm, hm.symm, ht.symm⟩

/-- C18, amended, on 1000 over (0.051, 1000) with the lenders (0.069, 200) and (0.07, -50)
added: the quote has the same rate, the float64 0.051. -/
theorem added_lenders_not_consulted_witness :
    ∃ q1, (NewQuote (float64Ops mathPow) (insertionSort (float64Ops mathPow)) 1000 36
        [⟨"c", Float64.ofRat (7 / 100), -50⟩, ⟨"a", Float64.ofRat (51 / 1000), 1000⟩,
          ⟨"b", Float64.ofRat (69 / 1000), 200⟩]).1 = Except.ok q1 ∧
      q1.Rate = Float64.ofRat (51 / 1000) := by
  have hv := NewQuote_of_valid (float64Ops mathPow) (insertionSort (float64Ops mathPow)) 1000 36
      [⟨"a", Float64.ofRat (51 / 1000), 1000⟩] (by decide)
  rw [if_neg (by decide!)] at hv
  obtain ⟨q1, hq1, hr, _, _⟩ := added_lenders_not_consulted mathPow
    (insertionSort (float64Ops mathPow)) (insertionSort_contract _) 1000 36
    [⟨"a", Float64.ofRat (51 / 1000), 1000⟩]
    [⟨"b", Float64.ofRat (69 / 1000), 200⟩, ⟨"c", Float64.ofRat (7 / 100), -50⟩]
    [⟨"c", Float64.ofRat (7 / 100), -50⟩, ⟨"a", Float64.ofRat (51 / 1000), 1000⟩,
      ⟨"b", Float64.ofRat (69 / 1000), 200⟩] _
    (congrArg Prod.fst hv) (by decide) (by decide!) (by decide!) (by decide!)
  refine ⟨q1, hq1, ?_⟩
  rw [hr]
  decide!

/-! ## Lenders at one rate -/

/-- A left fold that adds a term per element is the initial value plus the sum of the terms. -/
theorem foldl_add_eq_sum {α : Type} (f : α → ℚ) (l : List α) :
    ∀ a : ℚ, l.foldl (fun acc p => acc + f p) a = a + (l.map f).sum := by
  induction l with
  | nil => intro a; simp
  | cons x t ih =>
    intro a
    simp only [List.foldl_cons, List.map_cons, List.sum_cons]
    rw [ih]
    ring

/-- The weighted sum in exact arithmetic. -/
theorem weightedRateSum_exact (al : List (Lender ℚ × Int)) :
    weightedRateSum exactOps al = (al.map (fun p => (p.2 : ℚ) * p.1.Rate)).sum := by
  unfold weightedRateSum
  have h := foldl_add_eq_sum (fun p : Lender ℚ × Int => (p.2 : ℚ) * p.1.Rate) al 0
  rw [zero_add] at h
  rw [← h]
  simp [exactOps]

/-- The contribution of a lender in exact arithmetic is the amount drawn times the factor of
its rate. -/
theorem annuityContribution_exact (t : ℚ) (p : Lender ℚ × Int) :
    annuityContribution exactOps t p = (p.2 : ℚ) * annuityFactor t p.1.Rate := by
  unfold annuityContribution annuityFactor
  simp only [exactOps, Int.cast_one, Int.cast_ofNat]
  rw [mul_div_assoc]

/-- The sum of the contributions in exact arithmetic. -/
theorem contributionSum_exact (t : ℚ) (al : List (Lender ℚ × Int)) :
    contributionSum exactOps t al
      = (al.map (fun p => (p.2 : ℚ) * annuityFactor t p.1.Rate)).sum := by
  unfold contributionSum
  have h := foldl_add_eq_sum
    (fun p : Lender ℚ × Int => (p.2 : ℚ) * annuityFactor t p.1.Rate) al 0
  rw [zero_add] at h
  rw [← h]
  simp only [annuityContribution_exact]
  simp [exactOps]

/-- The value of calculateMonthlyRate in exact arithmetic is the amount times the factor. -/
theorem calculateMonthlyRate_factor (r t A : ℚ) :
    calculateMonthlyRate exactOps r t A = A * annuityFactor t r := by
  unfold calculateMonthlyRate annuityFactor compoundFrequency
  simp only [exactOps, Int.cast_one, Int.cast_ofNat]
  rw [mul_div_assoc]

/-- When every lender with a non-zero amount has the rate `r`, a sum of amounts times a
function of the rate is the sum of the amounts times the function at `r`. -/
theorem sum_mul_same_rate (g : ℚ → ℚ) (r : ℚ) (al : List (Lender ℚ × Int))
    (h : ∀ p ∈ al, p.2 ≠ 0 → p.1.Rate = r) :
    (al.map (fun p => (p.2 : ℚ) * g p.1.Rate)).sum
      = (((al.map Prod.snd).sum : Int) : ℚ) * g r := by
  induction al with
  | nil => simp
  | cons x t ih =>
    simp only [List.map_cons, List.sum_cons, Int.cast_add]
    rw [ih (fun p hp => h p (List.mem_cons_of_mem _ hp)), add_mul]
    congr 1
    by_cases hx : x.2 = 0
    · rw [hx]
      simp
    · rw [h x (List.mem_cons_self _ _) hx]

/-- On a pool with non-negative availables that funds the balance, the amounts of the
allocation sum to the balance. -/
theorem allocation_sum {F : Type} (ls : Lenders F) (bal : Int)
    (hnn : ∀ l ∈ ls, 0 ≤ l.Available) (h0 : 0 < bal) (h1 : bal < 9223372036854775808)
    (hs : bal ≤ (ls.map (fun l => l.Available)).sum) :
    ((allocation bal ls).map Prod.snd).sum = bal := by
  obtain ⟨k, hk, heq, _, _⟩ := allocation_waterfall ls bal hnn h0 h1 hs
  rw [heq]
  simp [Function.comp_def]

/-- C19 fails as stated, in two ways.  The float64 sums are rounded: on the claim's own
example, 1100 over (0.051, 1000) and (0.051, 200), every lender drawn from has the rate 0.051
and the quote's Rate is (1000 * 0.051 + 100 * 0.051) / 1100 = 0.051000000000000004.  And the
amounts drawn need not sum to the requested amount: the request of 1000 over the one lender
a (0.01, -2^63) succeeds, the subtraction of the balance wrapping around, and the quote's Rate
is 0.01 * (-2^63) / 1000. -/
theorem same_rate_counterexample :
    (∃ q, (NewQuote (float64Ops mathPow) (insertionSort (float64Ops mathPow)) 1100 36
        [⟨"", Float64.ofRat (51 / 1000), 1000⟩, ⟨"", Float64.ofRat (51 / 1000), 200⟩]).1
        = Except.ok q ∧
      (∀ p ∈ allocation 1100 (insertionSort (float64Ops mathPow)
          [⟨"", Float64.ofRat (51 / 1000), 1000⟩, ⟨"", Float64.ofRat (51 / 1000), 200⟩]),
        p.1.Rate = Float64.ofRat (51 / 1000)) ∧
      Float64.lt (Float64.fin 0) (Float64.ofRat (51 / 1000)) = true ∧
      q.Rate = Float64.ofRat (51000000000000004 / 1000000000000000000) ∧
      q.Rate ≠ Float64.ofRat (51 / 1000)) ∧
    (∃ q, (NewQuote (float64Ops mathPow) (insertionSort (float64Ops mathPow)) 1000 36
        [⟨"a", Float64.ofRat (1 / 100), -9223372036854775808⟩]).1 = Except.ok q ∧
      (∀ p ∈ allocation 1000 (insertionSort (float64Ops mathPow)
          [⟨"a", Float64.ofRat (1 / 100), -9223372036854775808⟩]),
        p.1.Rate = Float64.ofRat (1 / 100)) ∧
      Float64.lt (Float64.fin 0) (Float64.ofRat (1 / 100)) = true ∧
      q.Rate = Float64.ofRat (-9223372036854777 / 100) ∧
      q.Rate ≠ Float64.ofRat (1 / 100)) := by
  have hv := NewQuote_of_valid (float64Ops mathPow) (insertionSort (float64Ops mathPow)) 1100 36
      [⟨"", Float64.ofRat (51 / 1000), 1000⟩, ⟨"", Float64.ofRat (51 / 1000), 200⟩] (by decide)
  rw [if_neg (by decide!)] at hv
  have hw := NewQuote_of_valid (float64Ops mathPow) (insertionSort (float64Ops mathPow)) 1000 36
      [⟨"a", Float64.ofRat (1 / 100), -9223372036854775808⟩] (by decide)
  rw [if_neg (by decide!)] at hw
  exact ⟨⟨_, congrArg Prod.fst hv, by decide!, by decide!, by decide!, by decide!⟩,
    ⟨_, congrArg Prod.fst hw, by decide!, by decide!, by decide!, by decide!⟩⟩

/-- C19, amended: in exact arithmetic, for every successful request on a pool with non-negative
availables in which every lender drawn from has the same rate r > 0, the quote's Rate equals r,
and, for a term other than zero, MonthlyRepayment equals
calculateMonthlyRate(r, term, requestedAmount): the sum of the per-lender annuity payments is
one annuity on the whole amount.  For such a term the divisor of the formula,
(1 + r/12)^term - 1, is not zero. -/
theorem same_rate_single_annuity (sortFn : Lenders ℚ → Lenders ℚ)
    (hs : SortContract exactOps sortFn)
    (amount loanPeriod : Int) (lenders : Lenders ℚ) (q : quote ℚ) (r : ℚ)
    (h : (NewQuote exactOps sortFn amount loanPeriod lenders).1 = Except.ok q)
    (hnn : ∀ l ∈ lenders, 0 ≤ l.Available) (hr : 0 < r)
    (hsame : ∀ p ∈ allocation amount (sortFn lenders), p.1.Rate = r) :
    q.Rate = r ∧
    (loanPeriod ≠ 0 →
      q.MonthlyRepayment
        = calculateMonthlyRate exactOps r (exactOps.ofInt loanPeriod) (exactOps.ofInt amount) ∧
      exactOps.sub
          (exactOps.pow
            (exactOps.add (exactOps.ofInt 1) (exactOps.div r (compoundFrequency exactOps)))
            (exactOps.ofInt loanPeriod))
          (exactOps.ofInt 1) ≠ 0) := by
  obtain ⟨hv, hb, _, hrate, hmon, _⟩ :=
    NewQuote_ok exactOps sortFn amount loanPeriod lenders q h
  have hnn1 : ∀ l ∈ sortFn lenders, 0 ≤ l.Available :=
    fun l hl => hnn l ((hs.perm lenders).mem_iff.mp hl)
  have hbal := calculateLoop_balance_nonneg exactOps (exactOps.ofInt loanPeriod)
    (sortFn lenders)
    { balance := amount, blendedRate := exactOps.ofInt 0,
      MonthlyRepayment := exactOps.ofInt 0, drawn := [] }
    hnn1 (by simp only; omega) (by simp only; omega)
  simp only at hbal
  rw [hbal] at hb
  have hfund : amount ≤ ((sortFn lenders).map (fun l => l.Available)).sum := by
    by_contra hlt
    exact hb (lt_max_of_lt_right (by omega))
  have hsum := allocation_sum (sortFn lenders) amount hnn1 (by omega) (by omega) hfund
  have hamt : ((amount : Int) : ℚ) ≠ 0 := by
    have : (0 : Int) < amount := by omega
    exact_mod_cast ne_of_gt this
  refine ⟨?_, fun hterm => ⟨?_, ?_⟩⟩
  · rw [hrate, weightedRateSum_exact,
      sum_mul_same_rate (fun x => x) r _ (fun p hp _ => hsame p hp), hsum]
    show ((amount : Int) : ℚ) * r / ((amount : Int) : ℚ) = r
    field_simp
  · rw [hmon, contributionSum_exact,
      sum_mul_same_rate (annuityFactor (exactOps.ofInt loanPeriod)) r _
        (fun p hp _ => hsame p hp), hsum, calculateMonthlyRate_factor]
    rfl
  · rw [exactOps_pow_ofInt_int]
    have hm : (0 : ℚ) < r / 12 := by positivity
    have hbase : (1 : ℚ) + r / 12 ≠ 1 := ne_of_gt (by linarith)
    have hne : ((1 : ℚ) + r / 12) ^ loanPeriod ≠ 1 :=
      fun h1 => hterm ((zpow_eq_one_iff_right₀ (by linarith) hbase).mp h1)
    simp only [exactOps, compoundFrequency, Int.cast_one, Int.cast_ofNat]
    exact sub_ne_zero.mpr hne

/-- C19, amended, on the example of the tests in exact arithmetic: 1100 over (0.051, 1000) and
(0.051, 200) with a term of 36 months gives the rate 0.051 and the monthly repayment of one
annuity on 1100 (33.02 and 1188.63 in all to two decimals). -/
theorem same_rate_single_annuity_witness :
    ∃ q, (NewQuote exactOps (insertionSort exactOps) 1100 36
        [⟨"", 51 / 1000, 1000⟩, ⟨"", 51 / 1000, 200⟩]).1 = Except.ok q ∧
      (q.Rate = 51 / 1000 ∧
        q.MonthlyRepayment
          = calculateMonthlyRate exactOps (51 / 1000) (exactOps.ofInt 36)
              (exactOps.ofInt 1100)) ∧
      formatFixed 2 q.MonthlyRepayment = "33.02" ∧
      formatFixed 2 q.TotalRepayment = "1188.63" := by
  have hv := NewQuote_of_valid exactOps (insertionSort exactOps) 1100 36
    [⟨"", 51 / 1000, 1000⟩, ⟨"", 51 / 1000, 200⟩] (by decide)
  rw [if_neg (by decide!)] at hv
  have h := same_rate_single_annuity (insertionSort exactOps) (insertionSort_contract exactOps)
    1100 36 [⟨"", 51 / 1000, 1000⟩, ⟨"", 51 / 1000, 200⟩] _ (51 / 1000)
    (congrArg Prod.fst hv) (by decide) (by decide!) (by decide!)
  exact ⟨_, congrArg Prod.fst hv, ⟨h.1, (h.2 (by decide)).1⟩, by decide!, by decide!⟩

/-! ## The greedy allocation and the blended rate -/

/-- A weighted sum of rates, split at a rate `r`. -/
theorem weighted_sum_split (r : ℚ) (al : List (Lender ℚ × Int)) :
    (al.map (fun p => (p.2 : ℚ) * p.1.Rate)).sum
      = (al.map (fun p => (p.2 : ℚ) * (p.1.Rate - r))).sum
        + r * (((al.map Prod.snd).sum : Int) : ℚ) := by
  induction al with
  | nil => simp
  | cons x t ih =>
    simp only [List.map_cons, List.sum_cons, Int.cast_add]
    rw [ih]
    ring

/-- An amount between 0 and the available of a lender costs, against `r`, at least what the
whole available of a lender below `r` costs. -/
theorem gainBelow_le (r : ℚ) (p : Lender ℚ × Int) (h0 : 0 ≤ p.2)
    (h1 : p.2 ≤ p.1.Available) : gainBelow r p.1 ≤ (p.2 : ℚ) * (p.1.Rate - r) := by
  unfold gainBelow
  have h0q : (0 : ℚ) ≤ (p.2 : ℚ) := by exact_mod_cast h0
  have h1q : (p.2 : ℚ) ≤ (p.1.Available : ℚ) := by exact_mod_cast h1
  split_ifs with hlt
  · exact mul_le_mul_of_nonpos_right h1q (by linarith)
  · exact mul_nonneg h0q (by linarith)

/-- In a slice of rational rates sorted by `Less`, a lender at a smaller index has at most
the rate of one at a larger index. -/
theorem rate_le_of_sorted_exact (S : Lenders ℚ) (hS : S.Pairwise (Lender.notAfter exactOps))
    (i k : Nat) (hik : i ≤ k) (hk : k < S.length) : (S[i]).Rate ≤ (S[k]).Rate := by
  rcases rate_le_of_sorted exactOps_orderedOn S (fun _ _ => trivial) hS i k hik hk with h | h
  · have h1 : (S[i]).Rate < (S[k]).Rate := by simpa [exactOps] using h
    exact le_of_lt h1
  · exact le_of_eq h

/-- Over a sorted pool, against the rate at index `k`, the cost of the whole availables of
the lenders below that rate is the cost of the whole availables of the first `k` lenders. -/
theorem gainBelow_sum_sorted (S : Lenders ℚ) (hS : S.Pairwise (Lender.notAfter exactOps)) (k : Nat)
    (hk : k < S.length) :
    (S.map (gainBelow (S[k]).Rate)).sum
      = ((S.take k).map (fun l => (l.Available : ℚ) * (l.Rate - (S[k]).Rate))).sum := by
  have htake : ∀ l ∈ S.take k,
      gainBelow (S[k]).Rate l = (l.Available : ℚ) * (l.Rate - (S[k]).Rate) := by
    intro l hl
    obtain ⟨i, hi, hli⟩ := List.mem_take_iff_getElem.mp hl
    have hik : i ≤ k := le_of_lt (lt_of_lt_of_le hi (min_le_left _ _))
    have hle := rate_le_of_sorted_exact S hS i k hik hk
    rw [hli] at hle
    unfold gainBelow
    split_ifs with hlt
    · rfl
    · have : l.Rate = (S[k]).Rate := le_antisymm hle (not_lt.mp hlt)
      rw [this]
      simp
  have hdrop : ∀ x ∈ (S.drop k).map (gainBelow (S[k]).Rate), x = 0 := by
    intro x hx
    obtain ⟨l, hl, rfl⟩ := List.mem_map.mp hx
    obtain ⟨i, hi, hli⟩ := List.mem_drop_iff_getElem.mp hl
    have hle := rate_le_of_sorted_exact S hS k (k + i) (by omega) (by omega)
    rw [hli] at hle
    unfold gainBelow
    rw [if_neg (not_lt.mpr hle)]
  have hsplit : S.take k ++ S.drop k = S := List.take_append_drop _ _
  have h1 : (S.map (gainBelow (S[k]).Rate)).sum
      = ((S.take k).map (gainBelow (S[k]).Rate)).sum
        + ((S.drop k).map (gainBelow (S[k]).Rate)).sum := by
    rw [← List.sum_append, ← List.map_append, hsplit]
  rw [h1, List.sum_eq_zero hdrop, add_zero, List.map_congr_left htake]

/-- C20 fails as stated: the quote's Rate is a rounded float64.  For 1100 over
(0.051, 1000) and (0.051, 200) the quote's Rate is 0.051000000000000004, while the allocation
of 900 and 200, which is within the availables and sums to 1100, has
sum(d_i * rate_i) / 1100 = 0.051, in exact arithmetic and in float64 alike. -/
theorem greedy_rate_counterexample :
    ∃ q, (NewQuote (float64Ops mathPow) (insertionSort (float64Ops mathPow)) 1100 36
        [⟨"", Float64.ofRat (51 / 1000), 1000⟩, ⟨"", Float64.ofRat (51 / 1000), 200⟩]).1
        = Except.ok q ∧
      q.Rate = Float64.fin (3674937295934325 / 72057594037927936) ∧
      Float64.ofRat (51 / 1000) = Float64.fin (7349874591868649 / 144115188075855872) ∧
      (List.map Prod.fst ([(⟨"", Float64.ofRat (51 / 1000), 1000⟩, 900),
          (⟨"", Float64.ofRat (51 / 1000), 200⟩, 200)] : List (Lender Float64 × Int))).Perm
        [⟨"", Float64.ofRat (51 / 1000), 1000⟩, ⟨"", Float64.ofRat (51 / 1000), 200⟩] ∧
      (∀ p ∈ ([(⟨"", Float64.ofRat (51 / 1000), 1000⟩, 900),
          (⟨"", Float64.ofRat (51 / 1000), 200⟩, 200)] : List (Lender Float64 × Int)),
        0 ≤ p.2 ∧ p.2 ≤ p.1.Available) ∧
      (List.map Prod.snd
        ([(⟨"", Float64.ofRat (51 / 1000), 1000⟩, 900), (⟨"", Float64.ofRat (51 / 1000), 200⟩, 200)]
            : List (Lender Float64 × Int))).sum = 1100 ∧
      ((900 : ℚ) * (7349874591868649 / 144115188075855872)
          + 200 * (7349874591868649 / 144115188075855872)) / 1100
        < 3674937295934325 / 72057594037927936 ∧
      (float64Ops mathPow).div
          (weightedRateSum (float64Ops mathPow) [(⟨"", Float64.ofRat (51 / 1000), 1000⟩, 900),
              (⟨"", Float64.ofRat (51 / 1000), 200⟩, 200)])
          ((float64Ops mathPow).ofInt 1100) = Float64.ofRat (51 / 1000) ∧
      Float64.lt (Float64.ofRat (51 / 1000)) q.Rate = true := by
  have hv := NewQuote_of_valid (float64Ops mathPow) (insertionSort (float64Ops mathPow)) 1100 36
      [⟨"", Float64.ofRat (51 / 1000), 1000⟩, ⟨"", Float64.ofRat (51 / 1000), 200⟩] (by decide)
  rw [if_neg (by decide!)] at hv
  exact ⟨_, congrArg Prod.fst hv, by decide!, by decide!, by decide!, by decide!, by decide!,
    by decide!, by decide!, by decide!⟩

/-- C20, amended: the greedy allocation has the lowest blended rate in exact arithmetic.  For every
successful quote over a pool with non-negative availables and non-negative rates, and for every
other allocation that gives each lender an amount between 0 and its available, the amounts summing
to the requested amount, the sum of amount * rate over that allocation divided by the requested
amount is at least the quote's Rate. -/
theorem greedy_rate_optimal (sortFn : Lenders ℚ → Lenders ℚ) (hs : SortContract exactOps sortFn)
    (amount loanPeriod : Int) (lenders : Lenders ℚ) (q : quote ℚ)
    (h : (NewQuote exactOps sortFn amount loanPeriod lenders).1 = Except.ok q)
    (hnn : ∀ l ∈ lenders, 0 ≤ l.Available) (_hrates : ∀ l ∈ lenders, 0 ≤ l.Rate)
    (alt : List (Lender ℚ × Int)) (hperm : (alt.map Prod.fst).Perm lenders)
    (hbd : ∀ p ∈ alt, 0 ≤ p.2 ∧ p.2 ≤ p.1.Available)
    (hsum : (alt.map Prod.snd).sum = amount) :
    q.Rate ≤ (alt.map (fun p => (p.2 : ℚ) * p.1.Rate)).sum / ((amount : Int) : ℚ) := by
  obtain ⟨hv, hb, _, hrate, _, _⟩ :=
    NewQuote_ok exactOps sortFn amount loanPeriod lenders q h
  have hnn1 : ∀ l ∈ sortFn lenders, 0 ≤ l.Available :=
    fun l hl => hnn l ((hs.perm lenders).mem_iff.mp hl)
  have hbal := calculateLoop_balance_nonneg exactOps (exactOps.ofInt loanPeriod)
    (sortFn lenders)
    { balance := amount, blendedRate := exactOps.ofInt 0,
      MonthlyRepayment := exactOps.ofInt 0, drawn := [] }
    hnn1 (by simp only; omega) (by simp only; omega)
  simp only at hbal
  rw [hbal] at hb
  have hfund : amount ≤ ((sortFn lenders).map (fun l => l.Available)).sum := by
    by_contra hlt
    exact hb (lt_max_of_lt_right (by omega))
  obtain ⟨k, hk, heq, _, _⟩ :=
    allocation_waterfall (sortFn lenders) amount hnn1 (by omega) (by omega) hfund
  have hgsum := allocation_sum (sortFn lenders) amount hnn1 (by omega) (by omega) hfund
  have hpos : (0 : ℚ) < ((amount : Int) : ℚ) := by
    have : (0 : Int) < amount := by omega
    exact_mod_cast this
  -- the greedy allocation, against the rate of the last lender drawn from
  have hgreedy : ((allocation amount (sortFn lenders)).map
        (fun p => (p.2 : ℚ) * (p.1.Rate - ((sortFn lenders)[k]).Rate))).sum
      = ((sortFn lenders).map (gainBelow ((sortFn lenders)[k]).Rate)).sum := by
    rw [gainBelow_sum_sorted (sortFn lenders) (hs.pairwise exactOps_orderedOn lenders
        (fun _ _ => trivial)) k hk, heq]
    simp [Function.comp_def]
  -- the other allocation, against the same rate
  have halt : ((sortFn lenders).map (gainBelow ((sortFn lenders)[k]).Rate)).sum
      ≤ (alt.map (fun p => (p.2 : ℚ) * (p.1.Rate - ((sortFn lenders)[k]).Rate))).sum := by
    have hp : ((alt.map Prod.fst).map (gainBelow ((sortFn lenders)[k]).Rate)).Perm
        ((sortFn lenders).map (gainBelow ((sortFn lenders)[k]).Rate)) :=
      (hperm.trans (hs.perm lenders).symm).map _
    rw [← hp.sum_eq, List.map_map]
    exact List.sum_le_sum (fun p hp => gainBelow_le _ p (hbd p hp).1 (hbd p hp).2)
  rw [hrate, weightedRateSum_exact]
  show (List.map (fun p : Lender ℚ × Int => (p.2 : ℚ) * p.1.Rate)
      (allocation amount (sortFn lenders))).sum / ((amount : Int) : ℚ) ≤ _
  rw [div_le_div_iff_of_pos_right hpos,
    weighted_sum_split ((sortFn lenders)[k]).Rate (allocation amount (sortFn lenders)),
    weighted_sum_split ((sortFn lenders)[k]).Rate alt, hgsum, hsum, hgreedy]
  linarith

/-- C20, amended, in exact arithmetic, on 1200 over (0.051, 1000) and (0.069, 300): the allocation
of 900 and 300 has the blended rate 0.0555, and the quote has at most that (it has 0.054). -/
theorem greedy_rate_optimal_witness :
    ∃ q, (NewQuote exactOps (insertionSort exactOps) 1200 36
        [⟨"a", 51 / 1000, 1000⟩, ⟨"b", 69 / 1000, 300⟩]).1 = Except.ok q ∧
      q.Rate ≤ 555 / 10000 ∧ q.Rate = 54 / 1000 := by
  have hv := NewQuote_of_valid exactOps (insertionSort exactOps) 1200 36
    [⟨"a", 51 / 1000, 1000⟩, ⟨"b", 69 / 1000, 300⟩] (by decide)
  rw [if_neg (by decide!)] at hv
  have hle := greedy_rate_optimal (insertionSort exactOps) (insertionSort_contract exactOps) 1200 36
    [⟨"a", 51 / 1000, 1000⟩, ⟨"b", 69 / 1000, 300⟩] _ (congrArg Prod.fst hv)
    (by decide) (by decide!)
    [(⟨"a", 51 / 1000, 1000⟩, 900), (⟨"b", 69 / 1000, 300⟩, 300)]
    (by decide!) (by decide!) (by decide)
  refine ⟨_, congrArg Prod.fst hv, ?_, by decide!⟩
  refine le_trans hle (le_of_eq ?_)
  decide!

/-! ## The repayments against the amount borrowed -/

/-- Compound growth over `n >= 1` periods at a rate `m > 0` stays under `n` times the
interest on the final value: `(1 + m)^n - 1 < n * m * (1 + m)^n`. -/
theorem pow_sub_one_lt (m : ℚ) (hm : 0 < m) (n : Nat) (hn : 1 ≤ n) :
    (1 + m) ^ n - 1 < (n : ℚ) * m * (1 + m) ^ n := by
  induction n with
  | zero => omega
  | succ k ih =>
    have hq : (1 : ℚ) < 1 + m := by linarith
    have hqk : (1 : ℚ) ≤ (1 + m) ^ k := one_le_pow₀ (le_of_lt hq)
    rcases Nat.eq_zero_or_pos k with hk | hk
    · subst hk
      simp only [zero_add, pow_one, Nat.cast_one, one_mul]
      nlinarith
    · have ih1 := ih hk
      have hpos : (0 : ℚ) < (1 + m) ^ k := lt_of_lt_of_le one_pos hqk
      rw [pow_succ]
      push_cast
      nlinarith [mul_pos hm hpos, mul_pos (mul_pos hm hpos) hm]

/-- Over a term of `n >= 1` months at an annual rate `r > 0`, the payments on one unit of
amount come to more than the unit. -/
theorem one_lt_term_mul_annuityFactor (r : ℚ) (n : Nat) (hr : 0 < r) (hn : 1 ≤ n) :
    1 < (n : ℚ) * annuityFactor (exactOps.ofInt (n : Int)) r := by
  have hm : (0 : ℚ) < r / 12 := by positivity
  have hq : (1 : ℚ) < (1 + r / 12) ^ n := one_lt_pow₀ (by linarith) (by omega)
  have hd : (0 : ℚ) < (1 + r / 12) ^ n - 1 := by linarith
  have hlt := pow_sub_one_lt (r / 12) hm n hn
  unfold annuityFactor
  rw [exactOps_pow_ofInt, ← mul_div_assoc, lt_div_iff₀ hd]
  linarith

/-- When the amounts are non-negative and every lender with a non-zero amount has a multiplier
above 1, the multiplied amounts sum to at least the sum of the amounts, and to more when that
sum is positive. -/
theorem sum_lt_sum_mul (g : ℚ → ℚ) (al : List (Lender ℚ × Int))
    (h0 : ∀ p ∈ al, 0 ≤ p.2) (hg : ∀ p ∈ al, p.2 ≠ 0 → 1 < g p.1.Rate) :
    (((al.map Prod.snd).sum : Int) : ℚ) ≤ (al.map (fun p => (p.2 : ℚ) * g p.1.Rate)).sum ∧
    (0 < (al.map Prod.snd).sum →
      (((al.map Prod.snd).sum : Int) : ℚ) < (al.map (fun p => (p.2 : ℚ) * g p.1.Rate)).sum) := by
  induction al with
  | nil => simp
  | cons x t ih =>
    obtain ⟨ihle, ihlt⟩ := ih (fun p hp => h0 p (List.mem_cons_of_mem _ hp))
      (fun p hp => hg p (List.mem_cons_of_mem _ hp))
    have hx0 : 0 ≤ x.2 := h0 x (List.mem_cons_self _ _)
    simp only [List.map_cons, List.sum_cons, Int.cast_add]
    by_cases hx : x.2 = 0
    · rw [hx]
      simp only [Int.cast_zero, zero_mul, zero_add]
      exact ⟨ihle, ihlt⟩
    · have hxpos : (0 : ℚ) < (x.2 : ℚ) := by
        have : 0 < x.2 := lt_of_le_of_ne hx0 (Ne.symm hx)
        exact_mod_cast this
      have hgx := hg x (List.mem_cons_self _ _) hx
      have hxlt : (x.2 : ℚ) < (x.2 : ℚ) * g x.1.Rate := by nlinarith
      exact ⟨by linarith, fun _ => by linarith⟩

/-- C21 fails as stated, in two ways.  In float64 the difference (1 + m) - 1 keeps little of
a very small rate: the request of 1000 with a term of 1 month over the one lender
t (1.6e-15, 1000), whose rate is above 0, is repaid by 600.4799503160663 in all.  And the amount
drawn can be negative: the request of 1000 over the one lender a (0.01, -2^63) succeeds, the
subtraction of the balance wrapping around; the amount drawn is -2^63, and MonthlyRepayment and
TotalRepayment are negative. -/
theorem repays_more_counterexample :
    (∃ q, (NewQuote (float64Ops mathPow) (insertionSort (float64Ops mathPow)) 1000 1
        [⟨"t", Float64.ofRat (16 / 10000000000000000), 1000⟩]).1 = Except.ok q ∧
      Float64.lt (Float64.fin 0) (Float64.ofRat (16 / 10000000000000000)) = true ∧
      q.MonthlyRepayment = Float64.ofRat (6004799503160663 / 10000000000000) ∧
      q.TotalRepayment = Float64.ofRat (6004799503160663 / 10000000000000) ∧
      Float64.lt ((float64Ops mathPow).ofInt 1000) q.TotalRepayment = false ∧
      Float64.lt q.TotalRepayment ((float64Ops mathPow).ofInt 1000) = true) ∧
    (∃ q, (NewQuote (float64Ops mathPow) (insertionSort (float64Ops mathPow)) 1000 1
        [⟨"a", Float64.ofRat (1 / 100), -9223372036854775808⟩]).1 = Except.ok q ∧
      Float64.lt (Float64.fin 0) (Float64.ofRat (1 / 100)) = true ∧
      NewQuote.drawn (float64Ops mathPow) (insertionSort (float64Ops mathPow)) 1000 1
          [⟨"a", Float64.ofRat (1 / 100), -9223372036854775808⟩]
        = [-9223372036854775808] ∧
      Float64.lt (Float64.fin 0) q.MonthlyRepayment = false ∧
      Float64.lt ((float64Ops mathPow).ofInt 1000) q.TotalRepayment = false) := by
  have hv := NewQuote_of_valid (float64Ops mathPow) (insertionSort (float64Ops mathPow)) 1000 1
      [⟨"t", Float64.ofRat (16 / 10000000000000000), 1000⟩] (by decide)
  rw [if_neg (by decide!)] at hv
  have hw := NewQuote_of_valid (float64Ops mathPow) (insertionSort (float64Ops mathPow)) 1000 1
      [⟨"a", Float64.ofRat (1 / 100), -9223372036854775808⟩] (by decide)
  rw [if_neg (by decide!)] at hw
  exact ⟨⟨_, congrArg Prod.fst hv, by decide!, by decide!, by decide!, by decide!, by decide!⟩,
    ⟨_, congrArg Prod.fst hw, by decide!, by decide!, by decide!, by decide!⟩⟩

/-- C21, amended: the borrower never repays less than they borrow.  In exact arithmetic, for
every successful quote over a pool with non-negative availables, with a term of at least one
month, in which every lender drawn from has a rate above 0, MonthlyRepayment is above 0 and
TotalRepayment is strictly greater than the requested amount. -/
theorem repays_more_than_borrowed (sortFn : Lenders ℚ → Lenders ℚ)
    (hs : SortContract exactOps sortFn)
    (amount loanPeriod : Int) (lenders : Lenders ℚ) (q : quote ℚ)
    (h : (NewQuote exactOps sortFn amount loanPeriod lenders).1 = Except.ok q)
    (hnn : ∀ l ∈ lenders, 0 ≤ l.Available) (hterm : 1 ≤ loanPeriod)
    (hrate : ∀ p ∈ allocation amount (sortFn lenders), 0 < p.1.Rate) :
    0 < q.MonthlyRepayment ∧ ((amount : Int) : ℚ) < q.TotalRepayment := by
  obtain ⟨hv, hb, _, _, hmon, htot⟩ :=
    NewQuote_ok exactOps sortFn amount loanPeriod lenders q h
  have hnn1 : ∀ l ∈ sortFn lenders, 0 ≤ l.Available :=
    fun l hl => hnn l ((hs.perm lenders).mem_iff.mp hl)
  have hbal := calculateLoop_balance_nonneg exactOps (exactOps.ofInt loanPeriod)
    (sortFn lenders)
    { balance := amount, blendedRate := exactOps.ofInt 0,
      MonthlyRepayment := exactOps.ofInt 0, drawn := [] }
    hnn1 (by simp only; omega) (by simp only; omega)
  simp only at hbal
  rw [hbal] at hb
  have hfund : amount ≤ ((sortFn lenders).map (fun l => l.Available)).sum := by
    by_contra hlt
    exact hb (lt_max_of_lt_right (by omega))
  have hsum := allocation_sum (sortFn lenders) amount hnn1 (by omega) (by omega) hfund
  have hbd := allocation_bounds (sortFn lenders) amount hnn1 (by omega) (by omega)
  obtain ⟨n, rfl⟩ : ∃ n : Nat, loanPeriod = (n : Int) := ⟨loanPeriod.toNat, by omega⟩
  have hn : 1 ≤ n := by omega
  have hnq : (0 : ℚ) < (n : ℚ) := by exact_mod_cast hn
  have hlt := (sum_lt_sum_mul
    (fun rate => (n : ℚ) * annuityFactor (exactOps.ofInt (n : Int)) rate)
    (allocation amount (sortFn lenders)) (fun p hp => (hbd p hp).1)
    (fun p hp _ => one_lt_term_mul_annuityFactor p.1.Rate n (hrate p hp) hn)).2
    (by rw [hsum]; omega)
  rw [hsum] at hlt
  have htotal : q.TotalRepayment
      = ((allocation amount (sortFn lenders)).map
          (fun p =>
            (p.2 : ℚ) * ((n : ℚ) * annuityFactor (exactOps.ofInt (n : Int)) p.1.Rate))).sum := by
    rw [htot, hmon, contributionSum_exact]
    show ((n : Int) : ℚ) * _ = _
    rw [← List.sum_map_mul_left]
    congr 1
    apply List.map_congr_left
    intro p _
    push_cast
    ring
  have htotq : ((amount : Int) : ℚ) < q.TotalRepayment := by
    rw [htotal]
    exact hlt
  refine ⟨?_, htotq⟩
  have hamt : (0 : ℚ) < ((amount : Int) : ℚ) := by
    have : (0 : Int) < amount := by omega
    exact_mod_cast this
  have htot2 : q.TotalRepayment = (n : ℚ) * q.MonthlyRepayment := by
    rw [htot]
    show ((n : Int) : ℚ) * _ = _
    push_cast
    rfl
  rw [htot2] at htotq
  by_contra hneg
  have : (n : ℚ) * q.MonthlyRepayment ≤ 0 :=
    mul_nonpos_of_nonneg_of_nonpos (le_of_lt hnq) (not_lt.mp hneg)
  linarith

/-- C21, amended, in exact arithmetic, on the request of the tests: 1200 over (0.051, 1000) and
(0.069, 200) with a term of 36 months is repaid by more than 1200 (by 1302.56). -/
theorem repays_more_than_borrowed_witness :
    ∃ q, (NewQuote exactOps (insertionSort exactOps) 1200 36
        [⟨"", 51 / 1000, 1000⟩, ⟨"", 69 / 1000, 200⟩]).1 = Except.ok q ∧
      (0 < q.MonthlyRepayment ∧ (((1200 : Int) : ℚ)) < q.TotalRepayment) ∧
      formatFixed 2 q.MonthlyRepayment = "36.18" ∧
      formatFixed 2 q.TotalRepayment = "1302.56" := by
  have hv := NewQuote_of_valid exactOps (insertionSort exactOps) 1200 36
    [⟨"", 51 / 1000, 1000⟩, ⟨"", 69 / 1000, 200⟩] (by decide)
  rw [if_neg (by decide!)] at hv
  exact ⟨_, congrArg Prod.fst hv,
    repays_more_than_borrowed (insertionSort exactOps) (insertionSort_contract exactOps) 1200 36
      [⟨"", 51 / 1000, 1000⟩, ⟨"", 69 / 1000, 200⟩] _ (congrArg Prod.fst hv)
      (by decide) (by decide) (by decide!),
    by decide!, by decide!⟩

/-! ## The blended rate as a weighted average -/

/-- When the amounts are non-negative and every lender with a non-zero amount has a rate of at
least `lo`, the weighted sum of the rates is at least `lo` times the sum of the amounts. -/
theorem mul_sum_le_weighted (lo : ℚ) (al : List (Lender ℚ × Int))
    (h0 : ∀ p ∈ al, 0 ≤ p.2) (hlo : ∀ p ∈ al, p.2 ≠ 0 → lo ≤ p.1.Rate) :
    lo * (((al.map Prod.snd).sum : Int) : ℚ) ≤ (al.map (fun p => (p.2 : ℚ) * p.1.Rate)).sum := by
  induction al with
  | nil => simp
  | cons x t ih =>
    have ih1 := ih (fun p hp => h0 p (List.mem_cons_of_mem _ hp))
      (fun p hp => hlo p (List.mem_cons_of_mem _ hp))
    have hx0 : (0 : ℚ) ≤ (x.2 : ℚ) := by exact_mod_cast h0 x (List.mem_cons_self _ _)
    simp only [List.map_cons, List.sum_cons, Int.cast_add]
    by_cases hx : x.2 = 0
    · rw [hx]
      simp only [Int.cast_zero, zero_mul, zero_add]
      exact ih1
    · have := mul_le_mul_of_nonneg_left (hlo x (List.mem_cons_self _ _) hx) hx0
      linarith

/-- When the amounts are non-negative and every lender with a non-zero amount has a rate of at
most `hi`, the weighted sum of the rates is at most `hi` times the sum of the amounts. -/
theorem weighted_le_mul_sum (hi : ℚ) (al : List (Lender ℚ × Int))
    (h0 : ∀ p ∈ al, 0 ≤ p.2) (hhi : ∀ p ∈ al, p.2 ≠ 0 → p.1.Rate ≤ hi) :
    (al.map (fun p => (p.2 : ℚ) * p.1.Rate)).sum ≤ hi * (((al.map Prod.snd).sum : Int) : ℚ) := by
  induction al with
  | nil => simp
  | cons x t ih =>
    have ih1 := ih (fun p hp => h0 p (List.mem_cons_of_mem _ hp))
      (fun p hp => hhi p (List.mem_cons_of_mem _ hp))
    have hx0 : (0 : ℚ) ≤ (x.2 : ℚ) := by exact_mod_cast h0 x (List.mem_cons_self _ _)
    simp only [List.map_cons, List.sum_cons, Int.cast_add]
    by_cases hx : x.2 = 0
    · rw [hx]
      simp only [Int.cast_zero, zero_mul, zero_add]
      exact ih1
    · have := mul_le_mul_of_nonneg_left (hhi x (List.mem_cons_self _ _) hx) hx0
      linarith

/-- C22 fails as stated: the quote's Rate is a rounded float64.  For 1100 over
(0.051, 1000) and (0.051, 200), a pool with non-negative availables, 1000 and 100 are drawn,
both at the rate 0.051, and the quote's Rate is 0.051000000000000004, above the highest rate
drawn from. -/
theorem Rate_between_counterexample :
    ∃ q, (NewQuote (float64Ops mathPow) (insertionSort (float64Ops mathPow)) 1100 36
        [⟨"", Float64.ofRat (51 / 1000), 1000⟩, ⟨"", Float64.ofRat (51 / 1000), 200⟩]).1
        = Except.ok q ∧
      (∀ l ∈ ([⟨"", Float64.ofRat (51 / 1000), 1000⟩, ⟨"", Float64.ofRat (51 / 1000), 200⟩] :
          Lenders Float64), 0 ≤ l.Available) ∧
      NewQuote.drawn (float64Ops mathPow) (insertionSort (float64Ops mathPow)) 1100 36
          [⟨"", Float64.ofRat (51 / 1000), 1000⟩, ⟨"", Float64.ofRat (51 / 1000), 200⟩]
        = [1000, 100] ∧
      (∀ p ∈ allocation 1100 (insertionSort (float64Ops mathPow)
          [⟨"", Float64.ofRat (51 / 1000), 1000⟩, ⟨"", Float64.ofRat (51 / 1000), 200⟩]),
        p.1.Rate = Float64.ofRat (51 / 1000)) ∧
      q.Rate = Float64.ofRat (51000000000000004 / 1000000000000000000) ∧
      Float64.lt (Float64.ofRat (51 / 1000)) q.Rate = true := by
  have hv := NewQuote_of_valid (float64Ops mathPow) (insertionSort (float64Ops mathPow)) 1100 36
      [⟨"", Float64.ofRat (51 / 1000), 1000⟩, ⟨"", Float64.ofRat (51 / 1000), 200⟩] (by decide)
  rw [if_neg (by decide!)] at hv
  exact ⟨_, congrArg Prod.fst hv, by decide, by decide!, by decide!, by decide!, by decide!⟩

/-- C22, amended: the blended rate is a weighted average in exact arithmetic.  For every successful
quote over a pool with non-negative availables, some lender is drawn from, and the quote's
Rate is at least every lower bound, and at most every upper bound, of the rates of the lenders
drawn from: it lies between the lowest and the highest of those rates.  In particular it is
at least every lower bound of the rates of the pool, so never below the rate of the cheapest
lender. -/
theorem Rate_between_drawn_rates (sortFn : Lenders ℚ → Lenders ℚ)
    (hs : SortContract exactOps sortFn)
    (amount loanPeriod : Int) (lenders : Lenders ℚ) (q : quote ℚ)
    (h : (NewQuote exactOps sortFn amount loanPeriod lenders).1 = Except.ok q)
    (hnn : ∀ l ∈ lenders, 0 ≤ l.Available) :
    (∃ p ∈ allocation amount (sortFn lenders), p.2 ≠ 0) ∧
    (∀ lo : ℚ, (∀ p ∈ allocation amount (sortFn lenders), p.2 ≠ 0 → lo ≤ p.1.Rate) →
      lo ≤ q.Rate) ∧
    (∀ hi : ℚ, (∀ p ∈ allocation amount (sortFn lenders), p.2 ≠ 0 → p.1.Rate ≤ hi) →
      q.Rate ≤ hi) ∧
    (∀ lo : ℚ, (∀ l ∈ lenders, lo ≤ l.Rate) → lo ≤ q.Rate) := by
  obtain ⟨hv, hb, _, hrate, _, _⟩ :=
    NewQuote_ok exactOps sortFn amount loanPeriod lenders q h
  have hnn1 : ∀ l ∈ sortFn lenders, 0 ≤ l.Available :=
    fun l hl => hnn l ((hs.perm lenders).mem_iff.mp hl)
  have hbal := calculateLoop_balance_nonneg exactOps (exactOps.ofInt loanPeriod)
    (sortFn lenders)
    { balance := amount, blendedRate := exactOps.ofInt 0,
      MonthlyRepayment := exactOps.ofInt 0, drawn := [] }
    hnn1 (by simp only; omega) (by simp only; omega)
  simp only at hbal
  rw [hbal] at hb
  have hfund : amount ≤ ((sortFn lenders).map (fun l => l.Available)).sum := by
    by_contra hlt
    exact hb (lt_max_of_lt_right (by omega))
  have hsum := allocation_sum (sortFn lenders) amount hnn1 (by omega) (by omega) hfund
  have hbd := allocation_bounds (sortFn lenders) amount hnn1 (by omega) (by omega)
  have hpos : (0 : ℚ) < ((amount : Int) : ℚ) := by
    have : (0 : Int) < amount := by omega
    exact_mod_cast this
  have hq : q.Rate = (List.map (fun p : Lender ℚ × Int => (p.2 : ℚ) * p.1.Rate)
      (allocation amount (sortFn lenders))).sum / ((amount : Int) : ℚ) := by
    rw [hrate, weightedRateSum_exact]
    rfl
  have hlow : ∀ lo : ℚ,
      (∀ p ∈ allocation amount (sortFn lenders), p.2 ≠ 0 → lo ≤ p.1.Rate) → lo ≤ q.Rate := by
    intro lo hlo
    have hle := mul_sum_le_weighted lo _ (fun p hp => (hbd p hp).1) hlo
    rw [hsum] at hle
    rw [hq, le_div_iff₀ hpos]
    exact hle
  refine ⟨?_, hlow, ?_, ?_⟩
  · by_contra hnone
    have hall : ∀ x ∈ (allocation amount (sortFn lenders)).map Prod.snd, x = 0 := by
      intro x hx
      obtain ⟨p, hp, rfl⟩ := List.mem_map.mp hx
      by_contra hne
      exact hnone ⟨p, hp, hne⟩
    rw [List.sum_eq_zero hall] at hsum
    omega
  · intro hi hhi
    have hle := weighted_le_mul_sum hi _ (fun p hp => (hbd p hp).1) hhi
    rw [hsum] at hle
    rw [hq, div_le_iff₀ hpos]
    exact hle
  · intro lo hlo
    refine hlow lo ?_
    intro p hp _
    have hmem : p.1 ∈ (allocation amount (sortFn lenders)).map Prod.fst :=
      List.mem_map.mpr ⟨p, hp, rfl⟩
    rw [allocation_fst] at hmem
    exact hlo p.1 ((hs.perm lenders).mem_iff.mp (List.mem_of_mem_take hmem))

/-- C22, amended, in exact arithmetic, on the request of the tests: 1200 over (0.051, 1000) and
(0.069, 200) has the rate 0.054, between 0.051 and 0.069. -/
theorem Rate_between_drawn_rates_witness :
    ∃ q, (NewQuote exactOps (insertionSort exactOps) 1200 36
        [⟨"", 51 / 1000, 1000⟩, ⟨"", 69 / 1000, 200⟩]).1 = Except.ok q ∧
      51 / 1000 ≤ q.Rate ∧ q.Rate ≤ 69 / 1000 ∧ q.Rate = 54 / 1000 := by
  have hv := NewQuote_of_valid exactOps (insertionSort exactOps) 1200 36
    [⟨"", 51 / 1000, 1000⟩, ⟨"", 69 / 1000, 200⟩] (by decide)
  rw [if_neg (by decide!)] at hv
  have hb := Rate_between_drawn_rates (insertionSort exactOps) (insertionSort_contract exactOps)
    1200 36 [⟨"", 51 / 1000, 1000⟩, ⟨"", 69 / 1000, 200⟩] _ (congrArg Prod.fst hv) (by decide)
  exact ⟨_, congrArg Prod.fst hv, hb.2.1 (51 / 1000) (by decide!),
    hb.2.2.1 (69 / 1000) (by decide!), by decide!⟩

end GoQuote
